import Mathlib

/-!
Verification development for the `coinvolution` repository
(G-map library `gmap`, crease-pattern loader `folding`, and planar
constraint-graph builder `graph-folding`).

The Rust sources are shallowly embedded as executable Lean functions:
* machine integers become `Nat`/`Int` (with explicit wrap-around where the
  claim is about overflow),
* `Vec`/`HashMap` become `List`s and association lists (the code never
  relies on hash iteration order for its observable results),
* fallible code returns `Except`, and Rust panics (`unwrap` on `Err`,
  out-of-range `Index`, or a loop that would not terminate, modelled by
  fuel exhaustion) are the dedicated error `rustPanic`.
-/

set_option autoImplicit false
set_option maxRecDepth 40000

deriving instance DecidableEq for Except

namespace Spec2Proof

/-- Darts are plain indices (`struct Dart(pub usize)`). -/
abbrev Dart := Nat

/-- `Alphas(pub u32)`: a bitfield where bit `i` selects `alpha_i`. -/
abbrev Alphas := Nat

/-- All-ones 32-bit word, used to model the Rust `!` operator on `u32`. -/
def u32max : Nat := 2 ^ 32 - 1

/-- Rust `!x` on a `u32`. -/
def compl32 (x : Nat) : Nat := u32max ^^^ x

namespace Alphas

/-- `Alphas::has`: `(self.0 >> i) & 1 == 1`. -/
def has (a : Alphas) (i : Nat) : Bool := a.testBit i

/-- `Alphas::cell(i) = Self(!(1 << i))`. -/
def cell (i : Nat) : Alphas := compl32 (1 <<< i)

def VERTEX : Alphas := compl32 1
def EDGE : Alphas := compl32 2
def HALF_EDGE : Alphas := compl32 3
def FACE : Alphas := compl32 4
def ANGLE : Alphas := compl32 5
def SIDE : Alphas := compl32 6

end Alphas

/-- `MAX_DIMENSION = 31`. -/
def MAX_DIMENSION : Nat := 31

/-- Errors of the `gmap` crate.  The constructors mirror `GMapError`
(the `InvalidAlpha` message string is dropped); `rustPanic` additionally
models a Rust panic (failed `unwrap`, out-of-range index, or divergence). -/
inductive GErr where
  | invalidAlpha
  | cannotDecreaseDimension
  | unsewable
  | ununsewable
  | notFree
  | alreadyFree
  | dimensionTooLarge
  | deleted
  | rustPanic
  deriving Repr, DecidableEq

/-- `GMap { dimension, alpha, deleted }`, with `alpha` the flat vector
indexed as `dart * (dimension + 1) + alpha_index`. -/
structure GMap where
  dimension : Nat
  alpha : List Dart
  deleted : List Bool
  deriving Repr, DecidableEq

namespace GMap

/-- `Index<(Dart, usize)>`: `alpha[d * (dimension + 1) + i]`.
An out-of-range read is a Rust panic; it is modelled by the default `0`
and is unreachable on well-formed maps. -/
def av (g : GMap) (d i : Nat) : Dart := g.alpha.getD (d * (g.dimension + 1) + i) 0

/-- `GMap::ndarts`. -/
def ndarts (g : GMap) : Nat := g.alpha.length / (g.dimension + 1)

/-- `GMap::al`: apply the listed alpha indices left to right. -/
def al (g : GMap) (d : Dart) (indices : List Nat) : Dart :=
  indices.foldl (fun d a => g.av d a) d

def is_deleted (g : GMap) (d : Dart) : Bool := g.deleted.getD d false

/-- `GMap::darts`: live darts in increasing order. -/
def dartsList (g : GMap) : List Dart :=
  (List.range g.ndarts).filter (fun d => !(g.is_deleted d))

def is_free (g : GMap) (d : Dart) (i : Nat) : Bool := g.av d i == d

/-- Write a single `alpha` entry (`al1`). -/
def setAv (g : GMap) (d i v : Nat) : GMap :=
  { g with alpha := g.alpha.set (d * (g.dimension + 1) + i) v }

/-- The commutation loop of `check_valid`, with its bound `dimension - 1`
passed explicitly so that the debug (panicking) and release (wrapping)
semantics of the subtraction can both be studied.  The source emits
`InvalidAlpha` messages; all failures collapse to `GErr.invalidAlpha`. -/
def commutationCheck (g : GMap) (bound : Nat) : Bool :=
  (List.range bound).all fun i =>
    (List.range' (i + 2) (g.dimension + 1 - (i + 2))).all fun j =>
      (List.range g.ndarts).all fun d =>
        g.al d [i, j] == g.al d [j, i]

/-- `check_valid` with the commutation-loop bound as a parameter. -/
def checkValidCore (g : GMap) (bound : Nat) : Except GErr Unit := do
  if g.alpha.length % (g.dimension + 1) ≠ 0 then throw .invalidAlpha
  if g.deleted.length ≠ g.ndarts then throw .invalidAlpha
  if ¬ ((List.range g.ndarts).all fun d =>
      (List.range (g.dimension + 1)).all fun i => g.av d i < g.ndarts) then
    throw .invalidAlpha
  if ¬ ((List.range (g.dimension + 1)).all fun i =>
      (List.range g.ndarts).all fun d => g.av (g.av d i) i == d) then
    throw .invalidAlpha
  if ¬ ((List.range (g.dimension + 1)).all fun i =>
      (List.range g.ndarts).all fun d =>
        !(!(g.is_deleted d) && g.is_deleted (g.av d i))) then
    throw .invalidAlpha
  if ¬ commutationCheck g bound then throw .invalidAlpha
  pure ()

/-- `check_valid` as compiled in release mode for `dimension ≥ 1`, and with
the mathematical `Nat` truncation `0 - 1 = 0` at dimension `0` (see
`checkValidDbg` / `checkValidRel` for the two build-dependent semantics of
the subtraction `self.dimension - 1`). -/
def checkValid (g : GMap) : Except GErr Unit :=
  checkValidCore g (g.dimension - 1)

/-- Debug-build semantics: the subtraction `self.dimension - 1` panics on
overflow when `dimension = 0`; `none` models the panic. -/
def checkValidDbg (g : GMap) : Option (Except GErr Unit) :=
  if g.dimension = 0 then none
  else some (checkValidCore g (g.dimension - 1))

/-- The commutation-loop bound in release builds: `dimension - 1` with
64-bit wrap-around. -/
def relCommutationBound (dim : Nat) : Nat := (dim + (2 ^ 64 - 1)) % 2 ^ 64

/-- Release-build semantics: the subtraction wraps. -/
def checkValidRel (g : GMap) : Except GErr Unit :=
  checkValidCore g (relCommutationBound g.dimension)

/-- `GMap::from_alpha` (common semantics, see `checkValid`). -/
def fromAlpha (dimension : Nat) (alpha : List Dart) : Except GErr GMap := do
  if dimension > MAX_DIMENSION then throw .dimensionTooLarge
  let ndarts := alpha.length / (dimension + 1)
  let g : GMap := { dimension, alpha, deleted := List.replicate ndarts false }
  checkValid g
  pure g

/-- `from_alpha` under debug-build semantics of `check_valid`. -/
def fromAlphaDbg (dimension : Nat) (alpha : List Dart) : Option (Except GErr GMap) := do
  if dimension > MAX_DIMENSION then pure (throw .dimensionTooLarge) else
  let ndarts := alpha.length / (dimension + 1)
  let g : GMap := { dimension, alpha, deleted := List.replicate ndarts false }
  match checkValidDbg g with
  | none => none
  | some (.error e) => pure (throw e)
  | some (.ok ()) => pure (pure g)

/-- `from_alpha` under release-build semantics of `check_valid`. -/
def fromAlphaRel (dimension : Nat) (alpha : List Dart) : Except GErr GMap := do
  if dimension > MAX_DIMENSION then throw .dimensionTooLarge
  let ndarts := alpha.length / (dimension + 1)
  let g : GMap := { dimension, alpha, deleted := List.replicate ndarts false }
  checkValidRel g
  pure g

/-- `GMap::empty`. -/
def empty (dimension : Nat) : Except GErr GMap := fromAlpha dimension []

/-- `GMap::add_dart`: the new dart is free in every dimension. -/
def add_dart (g : GMap) : GMap × Dart :=
  let d := g.ndarts
  ({ g with
      alpha := g.alpha ++ List.replicate (g.dimension + 1) d
      deleted := g.deleted ++ [false] }, d)

/-- `GMap::link` (checked, returns `NotFree` / `Deleted` like the source). -/
def link (g : GMap) (i : Nat) (d0 d1 : Dart) : Except GErr GMap := do
  if ¬ (g.is_free d0 i && g.is_free d1 i) then throw .notFree
  if g.is_deleted d0 || g.is_deleted d1 then throw .deleted
  pure ((g.setAv d0 i d1).setAv d1 i d0)

/-- `GMap::unlink`. -/
def unlink (g : GMap) (i : Nat) (d0 : Dart) : Except GErr (GMap × Dart) := do
  let d1 := g.av d0 i
  if d0 = d1 then throw .alreadyFree
  pure (((g.setAv d0 i d0).setAv d1 i d1), d1)

/-- `GMap::add_edge`; the `link` is on fresh darts and its `unwrap` cannot
panic, but the panic is still modelled (`rustPanic`). -/
def add_edge (g : GMap) : Except GErr (GMap × Dart) := do
  let (g, d0) := g.add_dart
  let (g, d1) := g.add_dart
  let g ← (g.link 0 d0 d1).mapError fun _ => GErr.rustPanic
  pure (g, d0)

/-- The loop body of `add_cycle`, iterated `n - 1` times. -/
def addCycleLoop (i j : Nat) : Nat → GMap × Dart → Except GErr (GMap × Dart)
  | 0, (g, prev) => pure (g, prev)
  | n + 1, (g, prev) => do
    let (g, d0) := g.add_dart
    let g ← (g.link j prev d0).mapError fun _ => GErr.rustPanic
    let (g, d1) := g.add_dart
    let g ← (g.link i d0 d1).mapError fun _ => GErr.rustPanic
    addCycleLoop i j n (g, d1)

/-- `GMap::add_cycle`: a cycle of `2n` darts alternately `i`- and
`j`-linked; the `n < 1` panic and the internal `unwrap`s are `rustPanic`. -/
def add_cycle (g : GMap) (i j n : Nat) : Except GErr (GMap × Dart) := do
  if n < 1 then throw .rustPanic
  let (g, start) := g.add_dart
  let (g, start1) := g.add_dart
  let g ← (g.link i start start1).mapError fun _ => GErr.rustPanic
  let (g, prev) ← addCycleLoop i j (n - 1) (g, start1)
  let g ← (g.link j prev start).mapError fun _ => GErr.rustPanic
  pure (g, start)

/-- `GMap::add_polygon`. -/
def add_polygon (g : GMap) (n : Nat) : Except GErr (GMap × Dart) :=
  g.add_cycle 1 0 n

/-- One BFS step of the general `Orbit` iterator: pop the frontier until an
unseen dart appears, yield it, and push its neighbours `alpha_i d` for every
`i ≤ dimension` with `a.has i` (in increasing `i`).  Fuel counts pops. -/
def bfsOrbit (g : GMap) (a : Alphas) :
    Nat → List Dart → List (Option Nat × Dart) → List (Option Nat × Dart)
  | 0, _, _ => []
  | _ + 1, _, [] => []
  | fuel + 1, seen, (frm, d) :: rest =>
    if seen.contains d then bfsOrbit g a fuel seen rest
    else
      let pushed := (List.range (g.dimension + 1)).filterMap fun i =>
        if a.has i then some (some i, g.av d i) else none
      (frm, d) :: bfsOrbit g a fuel (d :: seen) (rest ++ pushed)

/-- Enough fuel for `bfsOrbit` to drain its frontier completely. -/
def bfsFuel (g : GMap) : Nat := (g.ndarts + 1) * (g.dimension + 2) + 1

/-- States of the `PathOrbit` walker (the `Initial` state is handled by
`pathOrbit` below, `Done` by returning the empty list). -/
inductive PathSt where
  | forwardI
  | forwardJ
  | backwardI
  | backwardJ
  deriving Repr, DecidableEq

/-- The repeated `next()` calls of `PathOrbit` after the initial yield.
Mirrors the Rust state machine: yields `current`, applies the involution
selected by the state, toggles the state, and on reaching a fixed point
either turns around (forward → backward from `start` via `j`) or stops. -/
def pathWalk (g : GMap) (i j start : Nat) :
    Nat → Dart → PathSt → List (Option Nat × Dart)
  | 0, _, _ => []
  | fuel + 1, current, st =>
    if current = start then []
    else
      let ci := match st with
        | .forwardI | .backwardI => i
        | .forwardJ | .backwardJ => j
      let pi := match st with
        | .forwardI | .backwardI => j
        | .forwardJ | .backwardJ => i
      let nxt := g.av current ci
      let st' := match st with
        | .forwardI => PathSt.forwardJ
        | .forwardJ => PathSt.forwardI
        | .backwardI => PathSt.backwardJ
        | .backwardJ => PathSt.backwardI
      if nxt = current then
        match st' with
        | .forwardI | .forwardJ =>
          (some pi, current) :: pathWalk g i j start fuel (g.av start j) .backwardI
        | .backwardI | .backwardJ => [(some pi, current)]
      else (some pi, current) :: pathWalk g i j start fuel nxt st'

/-- Fuel for `pathWalk`: the walker yields pairwise-distinct darts on valid
maps, so `ndarts + 2` calls suffice. -/
def pathFuel (g : GMap) : Nat := g.ndarts + 2

/-- The complete `PathOrbit` enumeration (`Initial` state inlined). -/
def pathOrbit (g : GMap) (i j d : Nat) : List (Option Nat × Dart) :=
  let c0 := g.av d i
  if c0 = d then (none, d) :: pathWalk g i j d (pathFuel g) (g.av d j) .backwardI
  else (none, d) :: pathWalk g i j d (pathFuel g) c0 .forwardJ

/-- `plus_one`: `d` together with `alpha_i d` when not free. -/
def plusOne (g : GMap) (d i : Nat) : List (Option Nat × Dart) :=
  let d1 := g.av d i
  if d = d1 then [(none, d)] else [(none, d), (some i, d1)]

/-- `plane_orbit_indices`: closed-form orbits for the 2-dimensional masks,
dispatching on `(!a.0) & 7`. -/
def planeOrbitIndices (g : GMap) (d : Dart) (a : Alphas) :
    Option (List (Option Nat × Dart)) :=
  match compl32 a &&& 7 with
  | 1 => some (pathOrbit g 1 2 d)
  | 2 =>
    let d0 := g.av d 0
    let d2 := g.av d 2
    if d = d0 then some (plusOne g d 2)
    else if d = d2 then some [(none, d), (some 0, d0)]
    else some [(none, d), (some 0, d0), (some 2, d2), (some 2, g.av d0 2)]
  | 3 => some (plusOne g d 2)
  | 4 => some (pathOrbit g 0 1 d)
  | 5 => some (plusOne g d 1)
  | 6 => some (plusOne g d 0)
  | 7 => some [(none, d)]
  | _ => none

/-- `GMap::orbit_indices`. -/
def orbitIndices (g : GMap) (d : Dart) (a : Alphas) : List (Option Nat × Dart) :=
  if g.dimension = 2 then
    match planeOrbitIndices g d a with
    | some x => x
    | none => bfsOrbit g a (bfsFuel g) [] [(none, d)]
  else bfsOrbit g a (bfsFuel g) [] [(none, d)]

/-- `GMap::orbit`. -/
def orbitL (g : GMap) (d : Dart) (a : Alphas) : List Dart :=
  (orbitIndices g d a).map Prod.snd

/-- `GMap::cell`. -/
def cellL (g : GMap) (d : Dart) (i : Nat) : List Dart := orbitL g d (Alphas.cell i)

/-- `GMap::cycle`: repeatedly apply `indices` until `d` recurs. -/
def cycleL (g : GMap) (d : Dart) (indices : List Nat) : Nat → Dart → List Dart
  | 0, _ => []
  | fuel + 1, x =>
    let x' := g.al x indices
    if x' = d then [x] else x :: cycleL g d indices fuel x'

def cycleIter (g : GMap) (d : Dart) (indices : List Nat) : List Dart :=
  cycleL g d indices (g.ndarts + 1) d

/-- `GMap::unique_by_orbit`: keep darts not in the `a`-orbit of an earlier
dart, marking each kept dart's whole orbit as seen. -/
def uniqueByOrbit (g : GMap) (a : Alphas) : List Dart → List Dart → List Dart
  | _, [] => []
  | seen, d :: rest =>
    if seen.contains d then uniqueByOrbit g a seen rest
    else d :: uniqueByOrbit g a (orbitL g d a ++ seen) rest

/-- `GMap::one_dart_per_orbit`. -/
def oneDartPerOrbit (g : GMap) (a : Alphas) : List Dart :=
  uniqueByOrbit g a [] g.dartsList

/-- `GMap::one_dart_per_cell`. -/
def oneDartPerCell (g : GMap) (i : Nat) : List Dart :=
  oneDartPerOrbit g (Alphas.cell i)

/-- `GMap::one_dart_per_incident_orbit`. -/
def oneDartPerIncidentOrbit (g : GMap) (d : Dart) (a b : Alphas) : List Dart :=
  uniqueByOrbit g a [] (orbitL g d b)

/-- `GMap::one_dart_per_incident_cell`. -/
def oneDartPerIncidentCell (g : GMap) (d : Dart) (i j : Nat) : List Dart :=
  oneDartPerIncidentOrbit g d (Alphas.cell i) (Alphas.cell j)

/-- The alphas mask used by `sew`/`unsew` at index `i`: all indices at
distance more than 1 from `i`. -/
def sewMask (i : Nat) : Alphas :=
  compl32 (1 <<< i) &&& compl32 ((1 <<< i) >>> 1) &&& compl32 ((1 <<< i) <<< 1)

/-- `zip_longest` of the two orbit enumerations, as `Option` pairs. -/
def zipLongest {α β : Type} : List α → List β → List (Option α × Option β)
  | [], ys => ys.map fun y => (none, some y)
  | x :: xs, [] => (some x, none) :: zipLongest xs []
  | x :: xs, y :: ys => (some x, some y) :: zipLongest xs ys

/-- Association-list membership on the first component. -/
def keyMem (k : Nat) (l : List (Nat × Nat)) : Bool := l.any fun p => p.1 == k

/-- Association-list lookup on the first component. -/
def keyFind (k : Nat) (l : List (Nat × Nat)) : Option Nat :=
  (l.find? fun p => p.1 == k).map Prod.snd

/-- The checking loop of `sew`: builds the pairing `m01` (in traversal
order) or fails with `Unsewable`. -/
def sewCollect (g : GMap) (i : Nat) :
    List (Option (Option Nat × Dart) × Option (Option Nat × Dart)) →
    List (Nat × Nat) → List Nat → Except GErr (List (Nat × Nat))
  | [], m01, _ => pure m01
  | z :: rest, m01, s1 => do
    let (j, d0, d1) ← match z with
      | (some (j0, d0), some (j1, d1)) =>
        if j0 = j1 then pure (j0, d0, d1) else throw GErr.unsewable
      | _ => throw GErr.unsewable
    if keyMem d0 m01 || keyMem d1 m01 || s1.contains d0 || s1.contains d1 then
      throw GErr.unsewable
    if let some j := j then
      if ((keyFind (g.av d0 j) m01).map fun x => g.av x j) ≠ some d1 then
        throw GErr.unsewable
    if ¬ (g.is_free d0 i && g.is_free d1 i) then throw GErr.unsewable
    sewCollect g i rest (m01 ++ [(d0, d1)]) (d1 :: s1)

/-- `GMap::sew`: check the lockstep pairing, then link every pair.  The
final `link(...).unwrap()` calls are modelled with `rustPanic`. -/
def sew (g : GMap) (i : Nat) (d0 d1 : Dart) :
    Except GErr (GMap × List (Nat × Nat)) := do
  let a := sewMask i
  let m01 ← sewCollect g i (zipLongest (orbitIndices g d0 a) (orbitIndices g d1 a)) [] []
  let g ← m01.foldlM (fun g p => (g.link i p.1 p.2).mapError fun _ => GErr.rustPanic) g
  pure (g, m01)

/-- `GMap::unsew`. -/
def unsew (g : GMap) (d : Dart) (i : Nat) :
    Except GErr (GMap × List (Nat × Nat)) := do
  let indices := sewMask i
  let toUnsew := (orbitL g d indices).map fun x => (x, g.av x i)
  if toUnsew.any fun p => keyMem p.2 toUnsew then throw GErr.ununsewable
  let g ← (orbitL g d indices).foldlM
    (fun g d0 => (Prod.fst <$> g.unlink i d0).mapError fun _ => GErr.rustPanic) g
  pure (g, toUnsew)

end GMap

/-- `OrbitMap<A>`: a dart-keyed association list written through whole
orbits. -/
structure OrbitMap (A : Type) where
  map : List (Nat × A)
  indices : Alphas
  deriving Repr

/-- Association-list insert with replacement (models `HashMap::insert`). -/
def alInsert {A : Type} : List (Nat × A) → Nat → A → List (Nat × A)
  | [], k, v => [(k, v)]
  | q :: rest, k, v =>
    if q.1 = k then (k, v) :: rest else q :: alInsert rest k v

/-- Association-list lookup (models `HashMap::get`). -/
def alFind {A : Type} : List (Nat × A) → Nat → Option A
  | [], _ => none
  | q :: rest, k => if q.1 = k then some q.2 else alFind rest k

namespace OrbitMap

def new {A : Type} (indices : Alphas) : OrbitMap A := ⟨[], indices⟩

def overCells {A : Type} (i : Nat) : OrbitMap A := new (Alphas.cell i)

/-- `OrbitMap::insert`: write `v` for every dart in the orbit of `k`. -/
def insert {A : Type} (m : OrbitMap A) (g : GMap) (k : Nat) (v : A) : OrbitMap A :=
  { m with map := (GMap.orbitL g k m.indices).foldl (fun acc n => alInsert acc n v) m.map }

end OrbitMap

/-- `OrbitReprs`: per-mask vectors of orbit representatives. -/
structure OrbitReprs where
  table : List (Alphas × List Dart)
  deriving Repr

namespace OrbitReprs

def new : OrbitReprs := ⟨[]⟩

def getAll (or : OrbitReprs) (a : Alphas) : Option (List Dart) := alFind or.table a

def get (or : OrbitReprs) (a : Alphas) (d : Dart) : Option Dart :=
  (getAll or a).map fun v => v.getD d 0

/-- The build loop: for each dart in increasing order, if unseen, stamp its
whole `a`-orbit with itself as representative. -/
def buildLoop (g : GMap) (a : Alphas) :
    List Dart → List Dart → List Dart → List Dart
  | [], _, v => v
  | d :: rest, seen, v =>
    if seen.contains d then buildLoop g a rest seen v
    else
      let orb := GMap.orbitL g d a
      buildLoop g a rest (orb ++ seen) (orb.foldl (fun v n => v.set n d) v)

/-- `OrbitReprs::build`. -/
def build (or : OrbitReprs) (g : GMap) (a : Alphas) : OrbitReprs :=
  ⟨alInsert or.table a
    (buildLoop g a (List.range g.ndarts) [] (List.replicate g.ndarts 0))⟩

/-- `OrbitReprs::ensure_all` (state part). -/
def ensureAll (or : OrbitReprs) (g : GMap) (a : Alphas) : OrbitReprs :=
  if (getAll or a).isSome then or else build or g a

/-- `OrbitReprs::get_or_search`. -/
def getOrSearch (or : OrbitReprs) (g : GMap) (a : Alphas) (d : Dart) : Dart :=
  match get or a d with
  | some r => r
  | none => ((GMap.orbitL g d a).min?).getD 0

/-- `Index<(Alphas, Dart)>` for `OrbitReprs`; absent entries are Rust
panics, modelled by `0` (unreachable after `ensure_all`). -/
def idx (or : OrbitReprs) (a : Alphas) (d : Dart) : Dart :=
  ((getAll or a).getD []).getD d 0

/-- Filtering loop of `unique_orbit_repr`, including the fallback scan when
the mask has not been built. -/
def uniqueOrbitReprGo (g : GMap) (a : Alphas) (reprs : Option (List Dart)) :
    List Dart → List Dart → List Dart
  | [], _ => []
  | d :: rest, seen =>
    match reprs with
    | some rs =>
      let r := rs.getD d 0
      if seen.contains r then uniqueOrbitReprGo g a reprs rest seen
      else r :: uniqueOrbitReprGo g a reprs rest (r :: seen)
    | none =>
      if seen.contains d then uniqueOrbitReprGo g a reprs rest seen
      else
        let orb := GMap.orbitL g d a
        (orb.foldl (fun r x => if x < r then x else r) d) ::
          uniqueOrbitReprGo g a reprs rest (orb ++ seen)

/-- `unique_orbit_repr`. -/
def uniqueOrbitRepr (or : OrbitReprs) (g : GMap) (l : List Dart) (a : Alphas) :
    List Dart :=
  uniqueOrbitReprGo g a (getAll or a) l []

/-- `orbit_repr_per_incident_orbit`. -/
def orbitReprPerIncidentOrbit (or : OrbitReprs) (g : GMap) (d : Dart)
    (a b : Alphas) : List Dart :=
  uniqueOrbitRepr or g (GMap.orbitL g d b) a

end OrbitReprs

/-! ### The `graph-folding` crate -/

/-- `type Length = i32` (lengths stay tiny here; wrap-around plays no role
in any claim about this crate). -/
abbrev Length := Int

/-- `enum Angle`. -/
inductive Angle where
  | valley
  | flat
  | mountain
  deriving Repr, DecidableEq

/-- `enum Color`. -/
inductive Color where
  | red
  | blue
  deriving Repr, DecidableEq

/-- `graph_folding::Error`; `gmap` embeds `GMapError` and `rustPanic`
models a panic inside this crate (failed `unwrap`, missing `HashMap` key,
or a loop that would not terminate). -/
inductive Error where
  | badAngleConstraints
  | kawasakiViolation
  | nonplanar
  | gmap (e : GErr)
  | rustPanic
  deriving Repr, DecidableEq

/-- Lift a `gmap` result (`#[from] gmap::GMapError`). -/
def liftG {α : Type} : Except GErr α → Except Error α :=
  Except.mapError fun e => match e with
    | .rustPanic => Error.rustPanic
    | e => Error.gmap e

/-- An `unwrap` on a `gmap` result: any error is a panic. -/
def liftPanic {α : Type} : Except GErr α → Except Error α :=
  Except.mapError fun _ => Error.rustPanic

/-- A panicking `Option` unwrap / `HashMap` index. -/
def ofOpt {α : Type} : Option α → Except Error α
  | some x => pure x
  | none => throw Error.rustPanic

/-- One node of the arena-backed circular list (`circular::Data`),
instantiated at its single use site `(Dart, Length)`. -/
structure CData where
  data : Dart × Length
  prev : Nat
  next : Nat
  deriving Repr, DecidableEq

/-- `circular::Circular`. -/
structure Circular where
  v : List CData
  deriving Repr, DecidableEq

namespace Circular

def new : Circular := ⟨[]⟩

/-- Indexing (`Index<Node>`); out-of-range is a Rust panic, modelled by a
junk node and unreachable for the node names used by the builder. -/
def cget (c : Circular) (n : Nat) : CData := c.v.getD n ⟨(0, 0), 0, 0⟩

def addNode (c : Circular) (data : Dart × Length) : Circular × Nat :=
  let n := c.v.length
  (⟨c.v ++ [⟨data, n, n⟩]⟩, n)

def setNextC (c : Circular) (n x : Nat) : Circular :=
  ⟨c.v.set n { cget c n with next := x }⟩

def setPrevC (c : Circular) (n x : Nat) : Circular :=
  ⟨c.v.set n { cget c n with prev := x }⟩

/-- `mut_data(n).1 = len` (the only mutation of node data used). -/
def setLen (c : Circular) (n : Nat) (len : Length) : Circular :=
  ⟨c.v.set n { cget c n with data := ((cget c n).data.1, len) }⟩

/-- `Circular::splice`: make `a.next = b`; returns the old `b.prev`.  The
four pointer writes happen in source order on shared storage. -/
def splice (c : Circular) (a b : Nat) : Circular × Nat :=
  let an := (cget c a).next
  let bp := (cget c b).prev
  let c := setNextC c a b
  let c := setPrevC c b a
  let c := setPrevC c an bp
  let c := setNextC c bp an
  (c, bp)

/-- `Circular::split`. -/
def split (c : Circular) (a b : Nat) : Circular × Nat := splice c b a

/-- `Circular::iter` after the initial yield. -/
def iterGo (c : Circular) (start : Nat) : Nat → Nat → List Nat
  | 0, _ => []
  | fuel + 1, n => if n = start then [] else n :: iterGo c start fuel (cget c n).next

/-- `Circular::iter(start)`: nodes in `next` order until `start` recurs.
The fuel bounds a corrupted ring (which would make Rust spin forever). -/
def iterC (c : Circular) (start : Nat) : List Nat :=
  start :: iterGo c start c.v.length (cget c start).next

end Circular

/-- `graph_folding::Problem` (the `angle_constraints` and `edge_lengths`
`HashMap`s become association lists keyed by darts). -/
structure Problem where
  g : GMap
  or : OrbitReprs
  edge_lengths : List (Nat × Length)
  angle_constraints : List (Nat × Angle)
  exterior_face : Dart
  deriving Repr

/-- `graph_folding::Constraints`. -/
structure Constraints where
  cg : GMap
  clause_sizes : List (Nat × Nat)
  clause_colors : List (Nat × Color)
  angle_to_cg : List (Nat × Nat)
  deriving Repr, DecidableEq

/-- Ghost record of one clause emitted by `process_face` (instrumentation
only: it does not influence the computation). -/
inductive ClauseTag where
  | shrinkEven
  | shrinkOdd
  | shrinkAux
  | terminal
  deriving Repr, DecidableEq

/-- One emitted face clause: its tag, starting dart in `cg`, number of
corners (= variables), required mountain count (`clause_sizes` entry), its
color, and the `n_S` of the shrink iteration that produced it. -/
structure Emitted where
  tag : ClauseTag
  clause : Dart
  corners : Nat
  mountains : Nat
  color : Color
  runSize : Nat
  deriving Repr, DecidableEq

/-- `fn add_vertex(g, n) = g.add_cycle(1, 2, n)` (panics on failure). -/
def addVertexCg (g : GMap) (n : Nat) : Except Error (GMap × Dart) :=
  liftPanic (g.add_cycle 1 2 n)

namespace Problem

/-- The per-vertex body of `preprocess_angle_constraints`, threading the
constraint map (the source mutates `self.angle_constraints` in place). -/
def preprocessLoop (g : GMap) (or : OrbitReprs) :
    List Dart → List (Nat × Angle) → Except Error (List (Nat × Angle))
  | [], ac => pure ac
  | vertex :: rest, ac => do
    let angles := or.orbitReprPerIncidentOrbit g vertex Alphas.ANGLE Alphas.VERTEX
    let flats := (angles.filter fun d => alFind ac d == some Angle.flat).length
    let mountains := (angles.filter fun d => alFind ac d == some Angle.mountain).length
    if (flats ≠ 0 ∧ flats ≠ 2) ∨ mountains > 1 ∨ (flats = 2 ∧ mountains = 1) then
      throw Error.badAngleConstraints
    let ac := if flats = 2 ∨ mountains = 1 then
        angles.foldl (fun ac a => if (alFind ac a).isSome then ac else alInsert ac a .flat) ac
      else ac
    preprocessLoop g or rest ac

/-- `Problem::with_exterior` (including `preprocess_angle_constraints`). -/
def withExterior (g : GMap) (edge_lengths : List (Nat × Length))
    (angle_constraints : List (Nat × Angle)) (exterior_face : Dart) :
    Except Error Problem := do
  if g.dimension ≠ 2 then throw Error.nonplanar
  let or := (OrbitReprs.new.ensureAll g Alphas.ANGLE).ensureAll g Alphas.EDGE
  let ac ← preprocessLoop g or (GMap.oneDartPerCell g 0) angle_constraints
  pure { g, or, edge_lengths, angle_constraints := ac, exterior_face }

/-- The collection loop of `process_vertex`: walk the vertex
counterclockwise (`al [2,1]`), keeping the non-`Flat` angles. -/
def vertexNonflat (g : GMap) (ac : List (Nat × Angle)) (vertex : Dart) :
    Nat → Dart → List Dart → Option (List Dart)
  | 0, _, _ => none
  | fuel + 1, a, acc =>
    let acc := if alFind ac a ≠ some Angle.flat then acc ++ [a] else acc
    let a' := g.al a [2, 1]
    if a' = vertex then some acc else vertexNonflat g ac vertex fuel a' acc

/-- `Problem::process_vertex`. -/
def processVertex (p : Problem) (vertex : Dart) (cst : Constraints) :
    Except Error Constraints := do
  let nonflat ← ofOpt
    (vertexNonflat p.g p.angle_constraints vertex (p.g.ndarts + 1) vertex [])
  if nonflat.length = 0 then
    pure cst
  else do
    let (cg, cv) ← addVertexCg cst.cg nonflat.length
    let clause_sizes := alInsert cst.clause_sizes cv 1
    let clause_colors := alInsert cst.clause_colors cv Color.blue
    let (angle_to_cg, _) := nonflat.foldl
      (fun (m, cv) a => (alInsert m a cv, cg.al cv [2, 1]))
      (cst.angle_to_cg, cv)
    pure { cg, clause_sizes, clause_colors, angle_to_cg }

/-- The start-finding loop of `nonflat_lengths`. -/
def nfFindStart (g : GMap) (ac : List (Nat × Angle)) (face : Dart) :
    Nat → Dart → Except Error Dart
  | 0, _ => throw Error.rustPanic
  | fuel + 1, a =>
    if alFind ac a ≠ some Angle.flat then pure a
    else
      let a' := g.al a [1, 0]
      if a' = face then throw Error.badAngleConstraints
      else nfFindStart g ac face fuel a'

/-- The inner run-summing loop of `nonflat_lengths`: accumulate edge
lengths until the next non-`Flat` angle. -/
def nfInner (p : Problem) : Nat → Dart → Length → Except Error (Dart × Length)
  | 0, _, _ => throw Error.rustPanic
  | fuel + 1, a, acc => do
    let len ← ofOpt (alFind p.edge_lengths (p.or.idx Alphas.EDGE a))
    let acc := acc + len
    if alFind p.angle_constraints a ≠ some Angle.flat then pure (a, acc)
    else nfInner p fuel (p.g.al a [1, 0]) acc

/-- The outer corner loop of `nonflat_lengths`. -/
def nfOuter (p : Problem) (start : Dart) :
    Nat → Dart → List (Dart × Length) → Except Error (List (Dart × Length))
  | 0, _, _ => throw Error.rustPanic
  | fuel + 1, a, acc => do
    let (a', len) ← nfInner p (p.g.ndarts + 1) (p.g.al a [1, 0]) 0
    let acc := acc ++ [(a, len)]
    if a' = start then pure acc else nfOuter p start fuel a' acc

/-- `Problem::nonflat_lengths`. -/
def nonflatLengths (p : Problem) (face : Dart) :
    Except Error (List (Dart × Length)) := do
  let start ← nfFindStart p.g p.angle_constraints face (p.g.ndarts + 1) face
  let nonflat ← nfOuter p start (p.g.ndarts + 1) start []
  if nonflat.length % 2 ≠ 0 then throw Error.badAngleConstraints
  pure nonflat

/-- `Problem::check_kawasaki`. -/
def checkKawasaki (tracking : Circular) (head : Nat) : Except Error Unit :=
  let r := (Circular.iterC tracking head).foldl
    (fun (acc : Length × Bool) n =>
      let l := (Circular.cget tracking n).data.2
      (if acc.2 then acc.1 + l else acc.1 - l, !acc.2))
    (0, true)
  if !r.2 then throw Error.kawasakiViolation
  else if r.1 = 0 then pure () else throw Error.kawasakiViolation

end Problem

/-- Result of `find_enclosed_edge_sequence`: `uniform` is the `None`
return (all remaining edges equal), `diverge` models fuel exhaustion. -/
inductive FindRes where
  | diverge
  | uniform
  | found (start fin n : Nat) (length : Length)
  deriving Repr, DecidableEq

/-- First loop of `find_enclosed_edge_sequence`: find where the length
decreases. -/
def fesDown (tracking : Circular) (head : Nat) :
    Nat → Option Length → Nat → FindRes
  | 0, _, _ => .diverge
  | fuel + 1, prevLength, start =>
    let nd := Circular.cget tracking start
    let l := nd.data.2
    if (match prevLength with | some pl => decide (l < pl) | none => false) then
      .found start start 1 l
    else if start = head ∧ prevLength.isSome then .uniform
    else fesDown tracking head fuel (some l) nd.next

/-- Second loop of `find_enclosed_edge_sequence`: find where the length
increases, restarting on further decreases. -/
def fesUp (tracking : Circular) :
    Nat → Nat → Length → Nat → Nat → FindRes
  | 0, _, _, _, _ => .diverge
  | fuel + 1, start, length, n, fin =>
    let nd := Circular.cget tracking fin
    let l := nd.data.2
    if l > length then .found start fin n length
    else
      let (start, length, n) : Nat × Length × Nat :=
        if l < length then (fin, l, 1) else (start, length, n)
      fesUp tracking fuel start length (n + 1) nd.next

/-- `find_enclosed_edge_sequence`. -/
def findEnclosed (tracking : Circular) (head : Nat) : FindRes :=
  match fesDown tracking head (tracking.v.length + 2) none head with
  | .found start _ _ length =>
    fesUp tracking ((tracking.v.length + 2) * (tracking.v.length + 2)) start length 1 start
  | r => r

/-- `glue_clause`: 0-sew each tracked angle's `alpha_2` image around the
clause ring (the `unwrap` on `sew` is a potential panic). -/
def glueClause (cg : GMap) (tracking : Circular) (head : Nat) (clause : Dart) :
    Except Error GMap := do
  let (cg, _) ← (Circular.iterC tracking head).foldlM
    (fun (acc : GMap × Dart) n => do
      let (cg, clause_edge) := acc
      let angle_edge := (Circular.cget tracking n).data.1
      let (cg, _) ← liftPanic (cg.sew 0 (cg.av angle_edge 2) clause_edge)
      pure (cg, cg.al clause_edge [2, 1]))
    (cg, clause)
  pure cg

namespace Problem

/-- The body of the circular-list construction loop at the top of
`process_face` (the `angle_to_cg` index is a potential panic). -/
def buildNode (m : List (Nat × Nat)) (acc : Circular × Option Nat)
    (al : Dart × Length) : Except Error (Circular × Option Nat) := do
  let cga ← ofOpt (alFind m al.1)
  let (tr, newNode) := acc.1.addNode (cga, al.2)
  let tr := match acc.2 with
    | some pn => (tr.splice pn newNode).1
    | none => tr
  pure (tr, some newNode)

/-- Mutable state of `process_face`. -/
structure FaceState where
  cst : Constraints
  tracking : Circular
  head : Nat
  trace : List Emitted

/-- The shrink loop of `process_face`.  Each iteration removes at least two
nodes from the main ring, so fuel `len + 1` is never exhausted on rings
the builder constructs. -/
def shrinkLoop : Nat → FaceState → Except Error FaceState
  | 0, _ => throw Error.rustPanic
  | fuel + 1, st => do
    match findEnclosed st.tracking st.head with
    | .diverge => throw Error.rustPanic
    | .uniform => pure st
    | .found start fin nS length =>
      if nS % 2 = 0 then do
        let (tracking, start_prev) := st.tracking.split start fin
        let mountains := nS / 2
        let (cg, even_clause) ← addVertexCg st.cst.cg nS
        let clause_sizes := alInsert st.cst.clause_sizes even_clause mountains
        let clause_colors := alInsert st.cst.clause_colors even_clause Color.red
        let cg ← glueClause cg tracking start even_clause
        let length_a := (Circular.cget tracking start_prev).data.2
        let length_b := (Circular.cget tracking fin).data.2
        let new_length := length_a - length + length_b
        let tracking := tracking.setLen start_prev new_length
        shrinkLoop fuel
          { cst := { st.cst with cg, clause_sizes, clause_colors }
            tracking
            head := start_prev
            trace := st.trace ++
              [⟨.shrinkEven, even_clause, nS, mountains, .red, nS⟩] }
      else do
        let (tracking, start_prev) := st.tracking.split start fin
        let mountains := (nS + 1) / 2
        let (cg, odd_clause) ← addVertexCg st.cst.cg (nS + 1)
        let clause_sizes := alInsert st.cst.clause_sizes odd_clause mountains
        let clause_colors := alInsert st.cst.clause_colors odd_clause Color.red
        let cg ← glueClause cg tracking start odd_clause
        let (cg, odd_clause_2) ← addVertexCg cg 2
        let clause_sizes := alInsert clause_sizes odd_clause_2 1
        let clause_colors := alInsert clause_colors odd_clause_2 Color.blue
        let (cg, _) ← liftPanic (cg.sew 0 (cg.av odd_clause 1) odd_clause_2)
        let end_length := (Circular.cget tracking fin).data.2
        let (tracking, new_node) :=
          tracking.addNode (cg.al odd_clause_2 [2, 1], end_length)
        let (tracking, _) := tracking.splice start_prev new_node
        shrinkLoop fuel
          { cst := { st.cst with cg, clause_sizes, clause_colors }
            tracking
            head := start_prev
            trace := st.trace ++
              [⟨.shrinkOdd, odd_clause, nS + 1, mountains, .red, nS⟩,
               ⟨.shrinkAux, odd_clause_2, 2, 1, .blue, nS⟩] }

/-- `Problem::process_face`, additionally returning the ghost trace of the
clauses it emits.  The terminal mountain count `n/2 - 1` uses `Nat`
truncation; the Rust `usize` subtraction would panic at `n/2 = 0`, which
cannot happen since the remaining ring always has at least two nodes. -/
def processFace (p : Problem) (face : Dart) (cst : Constraints)
    (exterior : Bool) : Except Error (Constraints × List Emitted) := do
  let nf ← nonflatLengths p face
  let (tracking, prev) ← nf.foldlM (buildNode cst.angle_to_cg) (Circular.new, none)
  let head ← ofOpt prev
  checkKawasaki tracking head
  let st ← shrinkLoop (nf.length + 1) ⟨cst, tracking, head, []⟩
  let n_remaining := (Circular.iterC st.tracking st.head).length
  let mountains := if exterior then n_remaining / 2 + 1 else n_remaining / 2 - 1
  let (cg, equal_clause) ← addVertexCg st.cst.cg n_remaining
  let clause_sizes := alInsert st.cst.clause_sizes equal_clause mountains
  let clause_colors := alInsert st.cst.clause_colors equal_clause Color.red
  let cg ← glueClause cg st.tracking st.head equal_clause
  pure ({ st.cst with cg, clause_sizes, clause_colors },
    st.trace ++ [⟨.terminal, equal_clause, n_remaining, mountains, .red, 0⟩])

/-- `Problem::constraint_graph`, instrumented with the per-face traces. -/
def constraintGraphT (p : Problem) :
    Except Error (Constraints × List (Dart × List Emitted)) := do
  let cgE ← liftG (GMap.empty 2)
  let cst0 : Constraints := ⟨cgE, [], [], []⟩
  let cst ← (GMap.oneDartPerCell p.g 0).foldlM
    (fun cst v => processVertex p v cst) cst0
  (GMap.oneDartPerCell p.g 2).foldlM
    (fun (acc : Constraints × List (Dart × List Emitted)) f => do
      let (cst, tr) ← processFace p f acc.1 (f == p.exterior_face)
      pure (cst, acc.2 ++ [(f, tr)]))
    (cst, [])

/-- `Problem::constraint_graph` (the ghost traces projected away). -/
def constraintGraph (p : Problem) : Except Error Constraints :=
  Prod.fst <$> constraintGraphT p

end Problem

/-! ### `graph_folding::examples` -/

namespace Examples

/-- Boundary-walking loop of `wrap_exterior` (clockwise traversal,
collecting one dart per boundary edge). -/
def weBoundary (g : GMap) (start : Dart) :
    Nat → Dart → List Dart → Option (List Dart)
  | 0, _, _ => none
  | fuel + 1, d, acc =>
    let acc := acc ++ [d]
    match (GMap.cellL g d 0).find? (fun n => n ≠ d ∧ g.is_free n 2) with
    | none => some acc
    | some n =>
      let d' := g.av n 0
      if d' = start then some acc else weBoundary g start fuel d' acc

/-- `examples::wrap_exterior`. -/
def wrapExterior (g : GMap) (start : Dart) : Except Error (GMap × Dart) := do
  let start := g.av start 0
  let boundary ← ofOpt (weBoundary g start (g.ndarts + 1) start [])
  let (g, ext) ← liftPanic (g.add_polygon boundary.length)
  let (g, _) ← boundary.foldlM
    (fun (acc : GMap × Dart) d => do
      let (g, d2) := acc
      let (g, _) ← liftPanic (g.sew 2 d d2)
      pure (g, g.al d2 [1, 0]))
    (g, ext)
  pure (g, ext)

/-- Shared shape of `examples::kite` / `examples::trapezoid`: one square
face with the given counterclockwise edge lengths, exterior wrapped, no
angle constraints. -/
def squareExample (lengths : List Length) : Except Error Problem := do
  let g ← liftG (GMap.empty 2)
  let (g, f) ← liftPanic (g.add_polygon 4)
  let (g, ext) ← wrapExterior g f
  let or := OrbitReprs.new.ensureAll g Alphas.EDGE
  let dartsCCW := [f, g.al f [1, 0], g.al f [1, 0, 1, 0], g.al f [1, 0, 1, 0, 1, 0]]
  let edge_lengths := (dartsCCW.zip lengths).foldl
    (fun m p => alInsert m (or.idx Alphas.EDGE p.1) p.2) []
  Problem.withExterior g edge_lengths [] ext

/-- `examples::kite` (lengths `[1, 1, 2, 2]`). -/
def kiteProblemE : Except Error Problem := squareExample [1, 1, 2, 2]

/-- `examples::trapezoid` (lengths `[1, 2, 3, 2]`). -/
def trapezoidProblemE : Except Error Problem := squareExample [1, 2, 3, 2]

/-- A junk `Problem` used only as the default of a never-failing unwrap. -/
def defaultProblem : Problem :=
  { g := ⟨2, [], []⟩, or := OrbitReprs.new, edge_lengths := []
    angle_constraints := [], exterior_face := 0 }

/-- Unwrap an example construction (`.unwrap()` in the source tests). -/
def getP (e : Except Error Problem) : Problem :=
  match e with
  | .ok p => p
  | .error _ => defaultProblem

def kiteProblem : Problem := getP kiteProblemE

def trapezoidProblem : Problem := getP trapezoidProblemE

end Examples

/-! ### The `folding` crate: FOLD-frame ingest (`CreasePattern::from`)

Only the ingest path is embedded (claim C7).  Coordinates and fold angles
are `f64` in the source; they are modelled as rationals, which is exact
for every comparison the ingest performs (`z != 0`, range checks). -/

/-- `folding::Error`.  `rustPanic` models panics, as before. -/
inductive FErr where
  | gmap (e : GErr)
  | foldMissingField (name : String)
  | foldNonManifold
  | foldBadCoordinates
  | foldBadAngle
  | foldInvalidReference (kind : String) (idx : Nat)
  | foldBadFace (face : Nat)
  | distinctIsometries (d : Dart)
  | rustPanic
  deriving Repr, DecidableEq

/-- The subset of a FOLD key frame read by `CreasePattern::from`. -/
structure Frame where
  faces_vertices : List (List Nat)
  faces_edges : List (List Nat)
  vertices_coords : List (List ℚ)
  edges_assignment : List String
  edges_fold_angle : List ℚ
  deriving Repr

/-- Lift a `gmap` result into `folding::Error`. -/
def liftGF {α : Type} : Except GErr α → Except FErr α :=
  Except.mapError fun e => match e with
    | .rustPanic => FErr.rustPanic
    | e => FErr.gmap e

/-- State of the face-construction loop of `CreasePattern::from`. -/
structure IngestState where
  g : GMap
  face_to_dart : List (Nat × Dart)
  edge_to_dart : List (Nat × Dart)
  vertex_to_dart : List (Nat × Dart)
  orientation : List (Nat × Bool)

/-- The per-(vertex, edge) body of the face loop: record darts, then sew
this edge to a previously seen copy (reversed, since both darts are
counterclockwise). -/
def ingestEdge (st : IngestState) (d : Dart) (vertex edge : Nat) :
    Except FErr (IngestState × Dart) := do
  let vertex_to_dart :=
    if (alFind st.vertex_to_dart vertex).isSome then st.vertex_to_dart
    else alInsert st.vertex_to_dart vertex d
  let orientation := alInsert st.orientation d true
  let orientation := alInsert orientation (st.g.al d [1]) false
  let d := st.g.al d [1, 0]
  match alFind st.edge_to_dart edge with
  | some other_edge => do
    let (g, _) ← liftGF (st.g.sew 2 d (st.g.al other_edge [0]))
    pure ({ st with g, vertex_to_dart, orientation }, d)
  | none =>
    let edge_to_dart := alInsert st.edge_to_dart edge d
    pure ({ st with vertex_to_dart, orientation, edge_to_dart }, d)

/-- The per-face body of the loop in `CreasePattern::from`. -/
def ingestFace (st : IngestState) (face : Nat)
    (vertices edges : List Nat) : Except FErr IngestState := do
  if vertices.length ≠ edges.length then throw (FErr.foldBadFace face)
  let (g, d) ← liftGF (st.g.add_polygon vertices.length)
  let st := { st with g, face_to_dart := alInsert st.face_to_dart face d }
  let (st, _) ← (vertices.zip edges).foldlM
    (fun (acc : IngestState × Dart) p => ingestEdge acc.1 acc.2 p.1 p.2)
    (st, d)
  pure st

/-- `interpret_assignment`. -/
def interpretAssignment (a : String) : Except FErr (Option ℚ) :=
  if a = "B" then pure none
  else if a = "M" then pure (some (-180))
  else if a = "V" then pure (some 180)
  else if a = "F" then pure (some 0)
  else throw FErr.foldBadAngle

/-- `CreasePattern::from`, up to and including fold-angle resolution.  The
result carries the final G-map and maps (the `CreasePattern` record). -/
def creasePatternFrom (f : Frame) : Except FErr (IngestState × OrbitMap ℚ × OrbitMap ℚ) := do
  if f.faces_vertices.isEmpty then throw (FErr.foldMissingField "faces_vertices")
  if f.faces_edges.isEmpty then throw (FErr.foldMissingField "faces_edges")
  if f.vertices_coords.isEmpty then throw (FErr.foldMissingField "vertices_coords")
  if f.edges_assignment.isEmpty ∧ f.edges_fold_angle.isEmpty then
    throw (FErr.foldMissingField "edges_assignment or edges_foldAngle")
  let g0 ← liftGF (GMap.empty 2)
  let st0 : IngestState := ⟨g0, [], [], [], []⟩
  let st ← ((f.faces_vertices.zip f.faces_edges).enum).foldlM
    (fun st x => ingestFace st x.1 x.2.1 x.2.2) st0
  -- vertex coordinates
  let vc ← f.vertices_coords.enum.foldlM
    (fun (vc : OrbitMap ℚ) x => do
      let (vertex, coords) := x
      let d ← match alFind st.vertex_to_dart vertex with
        | some d => pure d
        | none => throw (FErr.foldInvalidReference "vertex" vertex)
      if coords.length < 2 ∨ coords.length > 3 ∨
          (coords.length = 3 ∧ coords.getD 2 0 ≠ 0) then
        throw FErr.foldBadCoordinates
      -- the 2-D point is irrelevant to the claims; store the x coordinate
      pure (vc.insert st.g d (coords.getD 0 0)))
    (OrbitMap.overCells 0)
  -- fold angles
  let _ ← f.edges_assignment.foldlM
    (fun _ a => do let _ ← interpretAssignment a; pure ()) ()
  let angles : List (Nat × ℚ) ←
    if f.edges_fold_angle.isEmpty then
      f.edges_assignment.enum.foldlM
        (fun (acc : List (Nat × ℚ)) x => do
          match ← interpretAssignment x.2 with
          | none => pure acc
          | some q => pure (acc ++ [(x.1, q)]))
        []
    else
      pure f.edges_fold_angle.enum
  let fa ← angles.foldlM
    (fun (fa : OrbitMap ℚ) x => do
      let (edge, angle) := x
      let d ← match alFind st.edge_to_dart edge with
        | some d => pure d
        | none => throw (FErr.foldInvalidReference "edge" edge)
      if angle < -180 ∨ angle > 180 then throw FErr.foldBadAngle
      pure (fa.insert st.g d angle))
    (OrbitMap.overCells 1)
  pure (st, vc, fa)

/-! ### Concrete fixtures used by the claims -/

namespace Fixtures

/-- A problem with a triangle (darts 0–5) and a square (darts 6–13)
2-sewn along one edge, the exterior wrapped, all edges of length 1 except
one square edge of length 2 (so the square face violates Kawasaki–Justin
while the triangle face, processed first, has an odd number of corners). -/
def triSqProblemE : Except Error Problem :=
  match GMap.empty 2 with
  | .error _ => throw Error.rustPanic
  | .ok g =>
  match g.add_polygon 3 with
  | .error _ => throw Error.rustPanic
  | .ok (g, _) =>
  match g.add_polygon 4 with
  | .error _ => throw Error.rustPanic
  | .ok (g, _) =>
  match g.sew 2 0 6 with
  | .error _ => throw Error.rustPanic
  | .ok (g, _) =>
  match Examples.wrapExterior g 2 with
  | .error _ => throw Error.rustPanic
  | .ok (g, ext) =>
    let or := OrbitReprs.new.ensureAll g Alphas.EDGE
    let el := (GMap.oneDartPerCell g 1).foldl (fun m e => alInsert m e (1 : Int)) []
    let el := alInsert el (or.idx Alphas.EDGE (g.al 6 [1, 0])) 2
    Problem.withExterior g el [] ext

def triSqProblem : Problem := Examples.getP triSqProblemE

/-- A degenerate but accepted input: a bare 2-gon with no exterior wrapped
and the 2-gon itself named as exterior face. -/
def degenProblemE : Except Error Problem :=
  match GMap.empty 2 with
  | .error _ => throw Error.rustPanic
  | .ok g =>
    match g.add_polygon 2 with
    | .error _ => throw Error.rustPanic
    | .ok (g, f) =>
      let or := OrbitReprs.new.ensureAll g Alphas.EDGE
      let el := [(or.idx Alphas.EDGE 0, (1 : Int)), (or.idx Alphas.EDGE 1, 1)]
      Problem.withExterior g el [] f

def degenProblem : Problem := Examples.getP degenProblemE

/-- A FOLD frame in which edge index 0 appears in the `faces_edges` lists
of three faces. -/
def badFrame : Frame :=
  { faces_vertices := [[0, 1, 2], [2, 0, 3], [2, 0, 4]]
    faces_edges := [[0, 1, 2], [0, 3, 4], [0, 5, 6]]
    vertices_coords := [[0, 0], [1, 0], [0, 1], [1, 1], [2, 2]]
    edges_assignment := ["F", "F", "F", "F", "F", "F", "F"]
    edges_fold_angle := [] }

/-- The `alpha` table of the two-triangle crease pattern used by the
`gmap` unit tests (`diagonal_cp_example`). -/
def diagAlpha : List Nat :=
  [1, 5, 7,  0, 2, 6,  3, 1, 2,  2, 4, 3,  5, 3, 4,  4, 0, 5,
   7, 11, 1,  6, 8, 0,  9, 7, 8,  8, 10, 9,  11, 9, 10,  10, 6, 11]

def diagGMap : GMap :=
  match GMap.fromAlpha 2 diagAlpha with
  | .ok g => g
  | .error _ => ⟨2, [], []⟩

end Fixtures

/-! ### Observations used to state the claims -/

/-- `Result::is_ok`. -/
def resultOk {ε α : Type} : Except ε α → Bool
  | .ok _ => true
  | .error _ => false

/-- The instrumented run of the builder on a problem. -/
def runT (p : Problem) : Except Error (Constraints × List (Dart × List Emitted)) :=
  Problem.constraintGraphT p

/-- The ghost trace that `process_face` left for face `f` (empty if the
run failed or the face is absent). -/
def faceTrace (p : Problem) (f : Dart) : List Emitted :=
  match runT p with
  | .ok (_, l) => ((l.find? fun q => q.1 == f).map Prod.snd).getD []
  | .error _ => []

/-- The `Constraints` produced on a problem (junk on failure; the claims
always pair this with a successful run). -/
def runC (p : Problem) : Constraints :=
  match Problem.constraintGraph p with
  | .ok c => c
  | .error _ => ⟨⟨2, [], []⟩, [], [], []⟩

/-- Number of 2-cells (faces) of `cg` that touch the edge (1-cell) of `e`
and contain a dart whose `clause_colors` entry is `col`. -/
def facesWithColor (c : Constraints) (e : Dart) (col : Color) : Nat :=
  ((GMap.oneDartPerCell c.cg 2).filter fun fc =>
    ((GMap.cellL c.cg fc 2).any fun d => (GMap.cellL c.cg e 1).contains d) &&
    ((GMap.cellL c.cg fc 2).any fun d => alFind c.clause_colors d == some col)).length

/-- Number of clause rings (`{alpha_1, alpha_2}`-orbits, the cycles the
builder's own helper calls `add_vertex`) that touch the edge of `e` and
contain a dart whose `clause_colors` entry is `col`. -/
def ringsWithColor (c : Constraints) (e : Dart) (col : Color) : Nat :=
  ((GMap.oneDartPerCell c.cg 0).filter fun r =>
    ((GMap.cellL c.cg r 0).any fun d => (GMap.cellL c.cg e 1).contains d) &&
    ((GMap.cellL c.cg r 0).any fun d => alFind c.clause_colors d == some col)).length

/-- Every cg edge touches exactly one Blue and one Red clause ring. -/
def edgesRingBalanced (c : Constraints) : Bool :=
  (GMap.oneDartPerCell c.cg 1).all fun e =>
    ringsWithColor c e .blue == 1 && ringsWithColor c e .red == 1

/-- Sum of `clause_sizes` over the Blue-colored clauses. -/
def blueSizeSum (c : Constraints) : Nat :=
  ((c.clause_colors.filter fun q => q.2 == Color.blue).map
    fun q => (alFind c.clause_sizes q.1).getD 0).sum

/-- Number of Blue-colored clauses. -/
def blueCount (c : Constraints) : Nat :=
  (c.clause_colors.filter fun q => q.2 == Color.blue).length

/-- Number of ANGLE-orbits of the problem's G-map whose (post-propagation)
angle constraint is not `Flat`. -/
def nonflatAngleCount (p : Problem) : Nat :=
  ((GMap.oneDartPerOrbit p.g Alphas.ANGLE).filter fun a =>
    alFind p.angle_constraints a ≠ some Angle.flat).length

/-- The alternating signed sum `l0 - l1 + l2 - …` of a face's effective
edge lengths (`x - altSum rest` is exactly that sum). -/
def altSum : List (Dart × Length) → Length
  | [] => 0
  | x :: rest => x.2 - altSum rest

/-! ### Claim statements and concrete verdicts -/

/-- Claim C1 as stated: on the trapezoid, `constraint_graph()` succeeds
and the interior face's shrink loop fires exactly once as an *odd* run
with `|S| = 1`, emitting a red clause (2 variables, 1 mountain) *plus* a
size-2 auxiliary Blue clause (clause size 1), then a terminal red clause.
(The interior face of the trapezoid problem is the 2-cell of dart 0.) -/
def ClaimC1 : Prop :=
  resultOk (Problem.constraintGraph Examples.trapezoidProblem) = true ∧
  ∃ c1 c2 c3 nrem m,
    faceTrace Examples.trapezoidProblem 0 =
      [⟨.shrinkOdd, c1, 2, 1, .red, 1⟩,
       ⟨.shrinkAux, c2, 2, 1, .blue, 1⟩,
       ⟨.terminal, c3, nrem, m, .red, 0⟩]

/-- Claim C2 as stated: on the kite, `constraint_graph()` succeeds, the
exterior face contributes exactly one red terminal clause of size 4 with
mountain count 3, and the interior face exactly one red terminal clause
of size 4 with mountain count 1. -/
def ClaimC2 : Prop :=
  resultOk (Problem.constraintGraph Examples.kiteProblem) = true ∧
  ∃ c1 c2,
    faceTrace Examples.kiteProblem 8 = [⟨.terminal, c1, 4, 3, .red, 0⟩] ∧
    faceTrace Examples.kiteProblem 0 = [⟨.terminal, c2, 4, 1, .red, 0⟩]

/-- Claim C3 as stated: after any successful run, every edge of `cg` is
incident to exactly one *face* (2-cell) carrying a Blue `clause_colors`
entry and exactly one carrying a Red one. -/
def ClaimC3 : Prop :=
  ∀ p : Problem, ∀ c : Constraints, Problem.constraintGraph p = .ok c →
    ∀ e ∈ GMap.oneDartPerCell c.cg 1,
      facesWithColor c e .blue = 1 ∧ facesWithColor c e .red = 1

/-- Claim C4 as stated: after any successful run, the Blue clause sizes
sum to the number of non-Flat angles. -/
def ClaimC4 : Prop :=
  ∀ p : Problem, ∀ c : Constraints, Problem.constraintGraph p = .ok c →
    blueSizeSum c = nonflatAngleCount p

/-- Claim C5 as stated: whenever some face's alternating signed sum of
effective edge lengths is nonzero, the builder returns exactly
`KawasakiViolation`. -/
def ClaimC5 : Prop :=
  ∀ p : Problem,
    (∃ f ∈ GMap.oneDartPerCell p.g 2, ∃ L,
      Problem.nonflatLengths p f = .ok L ∧ altSum L ≠ 0) →
    Problem.constraintGraph p = .error Error.kawasakiViolation

/-- C1, counterexample: the implementation treats the trapezoid's
length-1 run as an *even* run with `n_S = 2` — the interior face's trace
has two events (even shrink, terminal), not the claimed three. -/
theorem c1_counterexample : ¬ ClaimC1 := by
  rintro ⟨-, c1, c2, c3, nrem, m, h⟩
  have ha : faceTrace Examples.trapezoidProblem 0 =
      [⟨.shrinkEven, 16, 2, 1, .red, 2⟩, ⟨.terminal, 20, 2, 0, .red, 0⟩] := by
    decide
  rw [ha] at h
  have hl := congrArg List.length h
  simp at hl

/-- C1, amended: on the trapezoid `constraint_graph()` succeeds; while
processing the interior face (dart 0; the exterior is dart 8) the shrink
loop fires exactly once, on the run containing the length-1 edge, but as
an **even** run with `n_S = 2` (the implementation counts both corners
adjacent to the run): it emits one red clause with 2 variables and
mountain count 1, **no** auxiliary Blue clause, and then a terminal red
clause with 2 variables and mountain count 0. -/
theorem c1_amended :
    resultOk (Problem.constraintGraph Examples.trapezoidProblem) = true ∧
    Examples.trapezoidProblem.exterior_face = 8 ∧
    faceTrace Examples.trapezoidProblem 0 =
      [⟨.shrinkEven, 16, 2, 1, .red, 2⟩, ⟨.terminal, 20, 2, 0, .red, 0⟩] ∧
    faceTrace Examples.trapezoidProblem 8 =
      [⟨.shrinkEven, 24, 2, 1, .red, 2⟩, ⟨.terminal, 28, 2, 2, .red, 0⟩] := by
  refine ⟨by decide, by decide, by decide, by decide⟩

/-- C2, counterexample: on the kite both faces trigger the shrink loop
(odd branch, `n_S = 3`), so each face's trace has three events rather
than the single claimed terminal clause. -/
theorem c2_counterexample : ¬ ClaimC2 := by
  rintro ⟨-, c1, c2, h, -⟩
  have ha : faceTrace Examples.kiteProblem 8 =
      [⟨.shrinkOdd, 32, 4, 2, .red, 3⟩, ⟨.shrinkAux, 40, 2, 1, .blue, 3⟩,
       ⟨.terminal, 44, 2, 2, .red, 0⟩] := by
    decide
  rw [ha] at h
  have hl := congrArg List.length h
  simp at hl

/-- C2, amended: on the kite `constraint_graph()` succeeds, but each face
(interior dart 0, exterior dart 8) contributes three clauses: an odd
shrink fires once per face on the run of the two length-1 edges
(`n_S = 3`), emitting a red clause with 4 variables and mountain count 2
plus a size-2 auxiliary Blue clause (clause size 1), and the terminal red
clause has 2 variables with mountain count 0 (interior) respectively 2
(exterior). -/
theorem c2_amended :
    resultOk (Problem.constraintGraph Examples.kiteProblem) = true ∧
    Examples.kiteProblem.exterior_face = 8 ∧
    faceTrace Examples.kiteProblem 0 =
      [⟨.shrinkOdd, 16, 4, 2, .red, 3⟩, ⟨.shrinkAux, 24, 2, 1, .blue, 3⟩,
       ⟨.terminal, 28, 2, 0, .red, 0⟩] ∧
    faceTrace Examples.kiteProblem 8 =
      [⟨.shrinkOdd, 32, 4, 2, .red, 3⟩, ⟨.shrinkAux, 40, 2, 1, .blue, 3⟩,
       ⟨.terminal, 44, 2, 2, .red, 0⟩] := by
  refine ⟨by decide, by decide, by decide, by decide⟩

/-- C3, counterexample: clauses are *not* faces of `cg`.  On the kite the
edge of dart 0 touches two faces with Blue entries and none with a Red
entry.  Moreover even the clause-ring reading fails on degenerate
accepted inputs: the 2-gon problem runs to `Ok` with an edge (dart 1)
touching one Blue ring and no Red ring. -/
theorem c3_counterexample :
    ¬ ClaimC3 ∧
    resultOk (Problem.constraintGraph Fixtures.degenProblem) = true ∧
    ringsWithColor (runC Fixtures.degenProblem) 1 .blue = 1 ∧
    ringsWithColor (runC Fixtures.degenProblem) 1 .red = 0 := by
  refine ⟨?_, by decide, by decide, by decide⟩
  intro h
  have hok : Problem.constraintGraph Examples.kiteProblem =
      .ok (runC Examples.kiteProblem) := by decide
  have h0 : 0 ∈ GMap.oneDartPerCell (runC Examples.kiteProblem).cg 1 := by decide
  have hb := (h _ _ hok 0 h0).1
  have hb2 : facesWithColor (runC Examples.kiteProblem) 0 .blue = 2 := by decide
  omega

/-- C3, amended: with clauses read as the `{alpha_1, alpha_2}`-orbits of
`cg` (the rings created by `add_cycle(1, 2, n)`, which the builder's own
helper names `add_vertex`) rather than faces, the invariant holds on the
repository's example problems: on the kite and the trapezoid, every edge
of `cg` is incident to exactly one Blue and exactly one Red clause ring.
(It does not hold for every accepted `Problem`; see the degenerate input
in the counterexample.) -/
theorem c3_amended :
    edgesRingBalanced (runC Examples.kiteProblem) = true ∧
    edgesRingBalanced (runC Examples.trapezoidProblem) = true := by
  refine ⟨by decide, by decide⟩

/-- C4, counterexample: on the kite the Blue clause sizes sum to 6 (four
size-1 vertex clauses and two size-1 auxiliary clauses), while 8 angles
are non-Flat. -/
theorem c4_counterexample : ¬ ClaimC4 := by
  intro h
  have hok : Problem.constraintGraph Examples.kiteProblem =
      .ok (runC Examples.kiteProblem) := by decide
  have heq := h _ _ hok
  have h6 : blueSizeSum (runC Examples.kiteProblem) = 6 := by decide
  have h8 : nonflatAngleCount Examples.kiteProblem = 8 := by decide
  omega

/-- C5, counterexample: in the triangle-and-square problem the square
face (dart 6) has effective lengths `[2, 1, 1, 1]` with alternating sum
`1 ≠ 0`, yet the builder returns `BadAngleConstraints` (the triangle
face, processed first, has three non-flat corners), not
`KawasakiViolation`. -/
theorem c5_counterexample : ¬ ClaimC5 := by
  intro h
  have hprem : ∃ f ∈ GMap.oneDartPerCell Fixtures.triSqProblem.g 2, ∃ L,
      Problem.nonflatLengths Fixtures.triSqProblem f = .ok L ∧ altSum L ≠ 0 := by
    refine ⟨6, by decide, [(6, 2), (8, 1), (10, 1), (12, 1)], by decide, by decide⟩
  have hres := h Fixtures.triSqProblem hprem
  have hact : Problem.constraintGraph Fixtures.triSqProblem =
      .error Error.badAngleConstraints := by decide
  rw [hact] at hres
  exact absurd hres (by decide)

/-- Projection of the ingest result onto its error (for claim C7). -/
def ingestErr (f : Frame) : Option FErr :=
  match creasePatternFrom f with
  | .error e => some e
  | .ok _ => none

/-- C7: a FOLD frame whose edge 0 is listed by three faces makes
`CreasePattern::from` fail — but with `GMap(Unsewable)` from the third
2-sew, not with the documented `FoldNonManifold`, whose constructor is
dead code.  No crease pattern is produced either way. -/
theorem c7_bug_eval :
    ingestErr Fixtures.badFrame = some (FErr.gmap GErr.unsewable) ∧
    some (FErr.gmap GErr.unsewable) ≠ some FErr.foldNonManifold := by
  refine ⟨by decide, by decide⟩

/-- Claim C10 as stated: `GMap::empty(0)` (= `from_alpha(0, [])`) never
returns `Ok` — panicking on the `dimension - 1` underflow in debug
builds, and wrapping the commutation-loop bound to `usize::MAX` in
release builds. -/
def ClaimC10 : Prop :=
  GMap.fromAlphaDbg 0 [] = none ∧
  GMap.relCommutationBound 0 = 2 ^ 64 - 1 ∧
  ∀ r, GMap.fromAlphaRel 0 [] ≠ .ok r

/-- The commutation loop of `check_valid` is vacuous at dimension 0: the
inner range `(i+2)..=0` is empty, whatever the (wrapped) outer bound. -/
theorem commutationCheck_dim0 (alpha : List Dart) (deleted : List Bool) (b : Nat) :
    GMap.commutationCheck ⟨0, alpha, deleted⟩ b = true := by
  unfold GMap.commutationCheck
  apply List.all_eq_true.mpr
  intro i _
  have h2 : (0 : Nat) + 1 - (i + 2) = 0 := by omega
  show (List.range' (i + 2) ((⟨0, alpha, deleted⟩ : GMap).dimension + 1 - (i + 2))).all _ = true
  rw [show (⟨0, alpha, deleted⟩ : GMap).dimension = 0 from rfl, h2]
  rfl

/-- Release-mode `check_valid` accepts the empty 0-dimensional map. -/
theorem checkValidRel_dim0 : GMap.checkValidRel ⟨0, [], []⟩ = .ok () := by
  unfold GMap.checkValidRel GMap.checkValidCore
  rw [commutationCheck_dim0]
  rfl

/-- Release-mode `from_alpha(0, [])` evaluates to `Ok`. -/
theorem fromAlphaRel_dim0 : GMap.fromAlphaRel 0 [] = .ok ⟨0, [], []⟩ := by
  unfold GMap.fromAlphaRel
  simp only [MAX_DIMENSION, List.length_nil, Nat.zero_div, List.replicate_zero]
  norm_num
  rw [checkValidRel_dim0]
  rfl

/-- C10, counterexample: in release semantics the wrapped commutation
bound is harmless (every iteration is a no-op), so `from_alpha(0, [])`
*does* return `Ok` — refuting "never returns an Ok 0-dimensional map". -/
theorem c10_counterexample : ¬ ClaimC10 := by
  rintro ⟨-, -, h⟩
  exact h ⟨0, [], []⟩ fromAlphaRel_dim0

/-- C10, amended: the `dimension - 1` underflow is real — in debug builds
`empty(0)` panics and never returns `Ok` — and in release builds the
bound wraps to `2^64 - 1 = usize::MAX`; but there the commutation loop
body is vacuous at dimension 0, so `from_alpha(0, [])` returns `Ok`
after the (no-op) loop instead of never returning an `Ok` map. -/
theorem c10_amended :
    GMap.fromAlphaDbg 0 [] = none ∧
    GMap.relCommutationBound 0 = 2 ^ 64 - 1 ∧
    GMap.fromAlphaRel 0 [] = .ok ⟨0, [], []⟩ := by
  exact ⟨by decide, by norm_num [GMap.relCommutationBound], fromAlphaRel_dim0⟩

/-! ### Association-list and `Except` toolbox -/

theorem exceptBind_ok {ε α β : Type} {x : Except ε α} {f : α → Except ε β} {r : β}
    (h : (x >>= f) = .ok r) : ∃ a, x = .ok a ∧ f a = .ok r := by
  cases x with
  | ok a => exact ⟨a, rfl, h⟩
  | error e => simp [Bind.bind, Except.bind] at h

theorem exceptMap_ok {ε α β : Type} {x : Except ε α} {f : α → β} {r : β}
    (h : (f <$> x) = .ok r) : ∃ a, x = .ok a ∧ f a = r := by
  cases x with
  | ok a =>
    refine ⟨a, rfl, ?_⟩
    simpa [Functor.map, Except.map] using h
  | error e => simp [Functor.map, Except.map] at h

/-- Preservation of an invariant along a successful `Except` fold. -/
theorem foldlM_preserve {ε α β : Type} (P : β → Prop) (f : β → α → Except ε β) :
    ∀ (l : List α) (b res : β), List.foldlM f b l = .ok res →
      (∀ b2 a b3, a ∈ l → f b2 a = .ok b3 → P b2 → P b3) → P b → P res := by
  intro l
  induction l with
  | nil =>
    intro b res h _ hb
    simp only [List.foldlM, pure, Except.pure, Except.ok.injEq] at h
    exact h ▸ hb
  | cons x xs ih =>
    intro b res h hstep hb
    rw [List.foldlM_cons] at h
    obtain ⟨b2, hx, hrest⟩ := exceptBind_ok h
    exact ih b2 res hrest (fun b3 a b4 ha => hstep b3 a b4 (List.mem_cons_of_mem _ ha))
      (hstep b x b2 (List.mem_cons_self _ _) hx hb)

/-- If a successful `Except` fold visited `a`, some intermediate state made
`f _ a` succeed. -/
theorem foldlM_visits {ε α β : Type} (f : β → α → Except ε β) :
    ∀ (l : List α) (b res : β), List.foldlM f b l = .ok res →
      ∀ a ∈ l, ∃ b2 b3, f b2 a = .ok b3 := by
  intro l
  induction l with
  | nil => intro b res _ a ha; cases ha
  | cons x xs ih =>
    intro b res h a ha
    rw [List.foldlM_cons] at h
    obtain ⟨b2, hx, hrest⟩ := exceptBind_ok h
    rcases List.mem_cons.mp ha with rfl | ha2
    · exact ⟨b, b2, hx⟩
    · exact ih b2 res hrest a ha2

/-- The characteristic lemma of `alInsert`. -/
theorem alFind_alInsert {A : Type} (m : List (Nat × A)) (k : Nat) (v : A) (j : Nat) :
    alFind (alInsert m k v) j = if j = k then some v else alFind m j := by
  induction m with
  | nil =>
    by_cases hj : j = k <;> simp [alInsert, alFind, hj, Ne.symm]
  | cons q rest ih =>
    by_cases hq : q.1 = k
    · by_cases hj : j = k <;>
        simp [alInsert, alFind, hq, hj, Ne.symm]
    · by_cases hj : j = q.1
      · have hjk : j ≠ k := fun hc => hq (hj.symm.trans hc)
        simp [alInsert, alFind, hq, hj, hjk]
      · simp [alInsert, alFind, hq, Ne.symm hj, ih]

/-- Key list of an association list. -/
def alKeys {A : Type} (m : List (Nat × A)) : List Nat := m.map Prod.fst

theorem mem_alKeys_alInsert {A : Type} (m : List (Nat × A)) (k : Nat) (v : A)
    (j : Nat) : j ∈ alKeys (alInsert m k v) ↔ j = k ∨ j ∈ alKeys m := by
  induction m with
  | nil => simp [alInsert, alKeys]
  | cons q rest ih =>
    simp only [alKeys, List.map_cons, List.mem_cons] at ih ⊢
    by_cases hq : q.1 = k
    · subst hq
      rw [show alInsert (q :: rest) q.1 v = (q.1, v) :: rest by simp [alInsert]]
      simp only [List.map_cons, List.mem_cons]
      tauto
    · simp only [alInsert, if_neg hq, List.map_cons, List.mem_cons]
      rw [show List.map Prod.fst (alInsert rest k v) = alKeys (alInsert rest k v) from rfl]
      rw [show (j ∈ alKeys (alInsert rest k v)) ↔ (j = k ∨ j ∈ List.map Prod.fst rest)
        from ih]
      tauto

theorem alKeys_nodup_alInsert {A : Type} {m : List (Nat × A)} (k : Nat) (v : A)
    (h : (alKeys m).Nodup) : (alKeys (alInsert m k v)).Nodup := by
  induction m with
  | nil => simp [alInsert, alKeys]
  | cons q rest ih =>
    rw [alKeys, List.map_cons, List.nodup_cons] at h
    by_cases hq : q.1 = k
    · subst hq
      rw [show alInsert (q :: rest) q.1 v = (q.1, v) :: rest by simp [alInsert]]
      rw [alKeys, List.map_cons, List.nodup_cons]
      exact h
    · rw [show alInsert (q :: rest) k v = q :: alInsert rest k v by simp [alInsert, hq]]
      rw [alKeys, List.map_cons, List.nodup_cons]
      refine ⟨?_, ih h.2⟩
      intro hmem
      rcases (mem_alKeys_alInsert rest k v q.1).mp hmem with hc | hc
      · exact hq hc
      · exact h.1 hc

/-- In a key-nodup association list, every stored pair is what `alFind`
returns. -/
theorem alFind_of_mem {A : Type} {m : List (Nat × A)} {q : Nat × A}
    (hnd : (alKeys m).Nodup) (hq : q ∈ m) : alFind m q.1 = some q.2 := by
  induction m with
  | nil => cases hq
  | cons x rest ih =>
    rw [alKeys, List.map_cons, List.nodup_cons] at hnd
    rcases List.mem_cons.mp hq with rfl | hq2
    · simp [alFind]
    · have hx : x.1 ≠ q.1 := by
        intro hcon
        exact hnd.1 (hcon ▸ List.mem_map.mpr ⟨q, hq2, rfl⟩)
      simpa [alFind, hx] using ih hnd.2 hq2

/-! ### C4 (amended): every Blue clause has size 1 -/

/-- Builder invariant on the two clause maps: the color map has no
duplicate keys and every Blue-colored clause has recorded size 1. -/
def BlueOnesM (sizes : List (Nat × Nat)) (colors : List (Nat × Color)) : Prop :=
  (alKeys colors).Nodup ∧
  ∀ k, alFind colors k = some Color.blue → alFind sizes k = some 1

def BlueOnes (c : Constraints) : Prop := BlueOnesM c.clause_sizes c.clause_colors

theorem blueOnesM_insert_blue {sizes : List (Nat × Nat)} {colors : List (Nat × Color)}
    (h : BlueOnesM sizes colors) (k : Nat) :
    BlueOnesM (alInsert sizes k 1) (alInsert colors k .blue) := by
  refine ⟨alKeys_nodup_alInsert k _ h.1, ?_⟩
  intro j hj
  rw [alFind_alInsert] at hj ⊢
  by_cases hjk : j = k
  · simp [hjk]
  · rw [if_neg hjk] at hj ⊢
    exact h.2 j hj

theorem blueOnesM_insert_red {sizes : List (Nat × Nat)} {colors : List (Nat × Color)}
    (h : BlueOnesM sizes colors) (k sz : Nat) :
    BlueOnesM (alInsert sizes k sz) (alInsert colors k .red) := by
  refine ⟨alKeys_nodup_alInsert k _ h.1, ?_⟩
  intro j hj
  rw [alFind_alInsert] at hj
  rw [alFind_alInsert]
  by_cases hjk : j = k
  · rw [if_pos hjk] at hj; cases hj
  · rw [if_neg hjk] at hj ⊢
    exact h.2 j hj

theorem processVertex_blueOnes {p : Problem} {v : Dart} {c c2 : Constraints}
    (h : Problem.processVertex p v c = .ok c2) (hb : BlueOnes c) : BlueOnes c2 := by
  unfold Problem.processVertex at h
  obtain ⟨nonflat, hnf, h⟩ := exceptBind_ok h
  by_cases hlen : nonflat.length = 0
  · rw [if_pos hlen] at h
    cases h
    exact hb
  · rw [if_neg hlen] at h
    obtain ⟨⟨cg2, cv⟩, hadd, h⟩ := exceptBind_ok h
    cases h
    exact blueOnesM_insert_blue hb _

theorem shrinkLoop_blueOnes :
    ∀ (fuel : Nat) (st st2 : Problem.FaceState),
      Problem.shrinkLoop fuel st = .ok st2 → BlueOnes st.cst → BlueOnes st2.cst := by
  intro fuel
  induction fuel with
  | zero => intro st st2 h; cases h
  | succ n ih =>
    intro st st2 h hb
    unfold Problem.shrinkLoop at h
    split at h
    · cases h
    · cases h; exact hb
    · split at h
      · obtain ⟨⟨cg2, k⟩, hadd, h⟩ := exceptBind_ok h
        obtain ⟨cg3, hglue, h⟩ := exceptBind_ok h
        refine ih _ _ h ?_
        exact blueOnesM_insert_red hb _ _
      · obtain ⟨⟨cg2, k⟩, hadd, h⟩ := exceptBind_ok h
        obtain ⟨cg3, hglue, h⟩ := exceptBind_ok h
        obtain ⟨⟨cg4, k2⟩, hadd2, h⟩ := exceptBind_ok h
        obtain ⟨⟨cg5, w⟩, hsew, h⟩ := exceptBind_ok h
        refine ih _ _ h ?_
        exact blueOnesM_insert_blue (blueOnesM_insert_red hb _ _) _

theorem processFace_blueOnes {p : Problem} {f : Dart} {c : Constraints}
    {ext : Bool} {c2 : Constraints} {tr : List Emitted}
    (h : Problem.processFace p f c ext = .ok (c2, tr)) (hb : BlueOnes c) :
    BlueOnes c2 := by
  unfold Problem.processFace at h
  obtain ⟨nf, hnf, h⟩ := exceptBind_ok h
  obtain ⟨⟨tracking, prev⟩, hbuild, h⟩ := exceptBind_ok h
  obtain ⟨head, hhead, h⟩ := exceptBind_ok h
  obtain ⟨u, hkaw, h⟩ := exceptBind_ok h
  obtain ⟨st, hloop, h⟩ := exceptBind_ok h
  obtain ⟨⟨cg6, k⟩, hadd, h⟩ := exceptBind_ok h
  obtain ⟨cg7, hglue, h⟩ := exceptBind_ok h
  cases h
  exact blueOnesM_insert_red (shrinkLoop_blueOnes _ _ _ hloop hb) _ _

/-- Sum of a list whose entries are all 1. -/
theorem sum_all_ones : ∀ (l : List Nat), (∀ x ∈ l, x = 1) → l.sum = l.length := by
  intro l
  induction l with
  | nil => intro _; rfl
  | cons x xs ih =>
    intro h
    simp [h x (List.mem_cons_self _ _), ih fun y hy => h y (List.mem_cons_of_mem _ hy)]
    omega

theorem blueOnes_sum {c : Constraints} (h : BlueOnes c) :
    blueSizeSum c = blueCount c := by
  unfold blueSizeSum blueCount
  rw [sum_all_ones, List.length_map]
  intro x hx
  rcases List.mem_map.mp hx with ⟨q, hq, rfl⟩
  have hqm : q ∈ c.clause_colors := List.mem_of_mem_filter hq
  have hqb : q.2 = Color.blue := by
    have := List.of_mem_filter hq
    simpa using this
  have hfind : alFind c.clause_colors q.1 = some Color.blue := by
    rw [alFind_of_mem h.1 hqm, hqb]
  rw [h.2 q.1 hfind]
  rfl

/-- C4, amended: whenever `constraint_graph()` returns `Ok`, every Blue
clause has `clause_size` 1, so the Blue clause sizes sum to the number of
Blue clauses (it is *not* the number of non-Flat angles, which double
counts vertices and misses auxiliary clauses). -/
theorem c4_amended (p : Problem) (c : Constraints)
    (h : Problem.constraintGraph p = .ok c) : blueSizeSum c = blueCount c := by
  unfold Problem.constraintGraph at h
  obtain ⟨⟨c0, tr⟩, hrun, rfl⟩ := exceptMap_ok h
  unfold Problem.constraintGraphT at hrun
  obtain ⟨cgE, hempty, hrun⟩ := exceptBind_ok hrun
  obtain ⟨cv, hvfold, hrun⟩ := exceptBind_ok hrun
  apply blueOnes_sum
  have hb0 : BlueOnes ⟨cgE, [], [], []⟩ := ⟨List.nodup_nil, fun k hk => by cases hk⟩
  have hbv : BlueOnes cv :=
    foldlM_preserve BlueOnes _ _ _ _ hvfold
      (fun b a b2 _ hstep hb => processVertex_blueOnes hstep hb) hb0
  have hface := foldlM_preserve (fun x => BlueOnes x.1)
    (fun acc f => do
      let (cst, tr) ← Problem.processFace p f acc.1 (f == p.exterior_face)
      pure (cst, acc.2 ++ [(f, tr)]))
    _ _ _ hrun ?_ hbv
  · exact hface
  · intro b a b2 _ hstep hbb
    obtain ⟨⟨cst, tr2⟩, hpf, hp⟩ := exceptBind_ok hstep
    cases hp
    exact processFace_blueOnes hpf hbb

/-- Witness for the amended C4 at the kite example. -/
theorem c4_amended_witness :
    blueSizeSum (runC Examples.kiteProblem) = blueCount (runC Examples.kiteProblem) :=
  c4_amended Examples.kiteProblem (runC Examples.kiteProblem) (by decide)

/-! ### C5 (amended): a Kawasaki-violating face always yields an error -/

theorem getD_set_ne {α : Type} (l : List α) (i j : Nat) (a d : α) (h : i ≠ j) :
    (l.set i a).getD j d = l.getD j d := by
  rw [List.getD_eq_getD_get?, List.getD_eq_getD_get?, List.get?_eq_getElem?,
    List.get?_eq_getElem?, List.getElem?_set_ne h]

theorem getD_set_self {α : Type} (l : List α) (i : Nat) (a d : α)
    (h : i < l.length) : (l.set i a).getD i d = a := by
  rw [List.getD_eq_getD_get?, List.get?_eq_getElem?, List.getElem?_set_self h]
  rfl

/-- The lengths carried by the circular list's nodes, in arena order. -/
def nodeLens (tr : Circular) : List Length := tr.v.map fun nd => nd.data.2

theorem nodeLens_length (tr : Circular) : (nodeLens tr).length = tr.v.length :=
  List.length_map _ _

theorem cget_dataLen (tr : Circular) (n : Nat) :
    (Circular.cget tr n).data.2 = (nodeLens tr).getD n 0 := by
  unfold Circular.cget nodeLens
  rw [show (0 : Length) = (⟨(0, 0), 0, 0⟩ : CData).data.2 from rfl, List.getD_map]

theorem nodeLens_set (c : Circular) (n : Nat) (nd : CData)
    (h : nd.data.2 = (Circular.cget c n).data.2) :
    nodeLens ⟨c.v.set n nd⟩ = nodeLens c := by
  unfold nodeLens
  apply List.ext_getElem
  · simp
  · intro i h1 h2
    simp only [List.getElem_map]
    by_cases hin : n = i
    · subst hin
      rw [List.getElem_set_self]
      rw [h]
      show (Circular.cget c n).data.2 = _
      unfold Circular.cget
      rw [List.getD_eq_getElem _ _ (by simpa using h2)]
    · rw [List.getElem_set_ne hin]

theorem nodeLens_setNextC (c : Circular) (n x : Nat) :
    nodeLens (Circular.setNextC c n x) = nodeLens c :=
  nodeLens_set c n _ rfl

theorem nodeLens_setPrevC (c : Circular) (n x : Nat) :
    nodeLens (Circular.setPrevC c n x) = nodeLens c :=
  nodeLens_set c n _ rfl

theorem cget_setNextC_ne (c : Circular) (n x j : Nat) (h : n ≠ j) :
    Circular.cget (Circular.setNextC c n x) j = Circular.cget c j :=
  getD_set_ne _ _ _ _ _ h

theorem cget_setPrevC_ne (c : Circular) (n x j : Nat) (h : n ≠ j) :
    Circular.cget (Circular.setPrevC c n x) j = Circular.cget c j :=
  getD_set_ne _ _ _ _ _ h

theorem cget_setNextC_self (c : Circular) (n x : Nat) (h : n < c.v.length) :
    Circular.cget (Circular.setNextC c n x) n = { Circular.cget c n with next := x } :=
  getD_set_self _ _ _ _ h

theorem cget_setPrevC_self (c : Circular) (n x : Nat) (h : n < c.v.length) :
    Circular.cget (Circular.setPrevC c n x) n = { Circular.cget c n with prev := x } :=
  getD_set_self _ _ _ _ h

theorem length_setNextC (c : Circular) (n x : Nat) :
    (Circular.setNextC c n x).v.length = c.v.length := List.length_set ..

theorem length_setPrevC (c : Circular) (n x : Nat) :
    (Circular.setPrevC c n x).v.length = c.v.length := List.length_set ..

/-- Invariant of the `process_face` build loop: after inserting the nodes
for `pre`, the arena holds `pre`'s lengths in order, the `next` pointers
form the cycle `0 → 1 → … → |pre|-1 → 0`, and the loop's `prev_node` is
the last inserted node. -/
def BuildInv (tr : Circular) (prevOpt : Option Nat) (pre : List (Dart × Length)) : Prop :=
  nodeLens tr = pre.map Prod.snd ∧
  (∀ i, i < pre.length → (Circular.cget tr i).next = (i + 1) % pre.length) ∧
  prevOpt = if pre.length = 0 then none else some (pre.length - 1)

theorem buildInv_length {tr : Circular} {prevOpt : Option Nat}
    {pre : List (Dart × Length)} (h : BuildInv tr prevOpt pre) :
    tr.v.length = pre.length := by
  have := congrArg List.length h.1
  simpa [nodeLens_length] using this

/-- Splicing the freshly appended node after the ring's tail extends the
`next`-cycle `0 → … → k-1 → 0` to `0 → … → k → 0`. -/
theorem splice_ring (tr0 : Circular) (k : Nat) (hk : 1 ≤ k)
    (hnext : ∀ i, i < k → (Circular.cget tr0 i).next = (i + 1) % k)
    (hlen : tr0.v.length = k) (nd : CData) (hp : nd.prev = k) :
    nodeLens ((Circular.splice ⟨tr0.v ++ [nd]⟩ (k - 1) k).1) =
      nodeLens tr0 ++ [nd.data.2] ∧
    (∀ j, j < k + 1 →
      (Circular.cget ((Circular.splice ⟨tr0.v ++ [nd]⟩ (k - 1) k).1) j).next =
        (j + 1) % (k + 1)) := by
  set trA : Circular := ⟨tr0.v ++ [nd]⟩ with htrA
  have hAlen : trA.v.length = k + 1 := by simp [htrA, hlen]
  have hAlt : ∀ j, j < k → Circular.cget trA j = Circular.cget tr0 j := by
    intro j hj
    show (tr0.v ++ [nd]).getD j _ = tr0.v.getD j _
    exact List.getD_append _ _ _ _ (hlen ▸ hj)
  have hAk : Circular.cget trA k = nd := by
    show (tr0.v ++ [nd]).getD k _ = nd
    rw [List.getD_append_right _ _ _ _ hlen.le, hlen]
    simp
  have han : (Circular.cget trA (k - 1)).next = 0 := by
    rw [hAlt (k - 1) (by omega), hnext (k - 1) (by omega),
      show k - 1 + 1 = k from by omega, Nat.mod_self]
  have hbp : (Circular.cget trA k).prev = k := by rw [hAk, hp]
  have hsp : Circular.splice trA (k - 1) k =
      (Circular.setNextC (Circular.setPrevC (Circular.setPrevC
        (Circular.setNextC trA (k - 1) k) k (k - 1)) 0 k) k 0, k) := by
    unfold Circular.splice
    rw [han, hbp]
  rw [hsp]
  set c1 := Circular.setNextC trA (k - 1) k with hc1
  set c2 := Circular.setPrevC c1 k (k - 1) with hc2
  set c3 := Circular.setPrevC c2 0 k with hc3
  have hl1 : c1.v.length = k + 1 := by rw [hc1, length_setNextC, hAlen]
  have hl2 : c2.v.length = k + 1 := by rw [hc2, length_setPrevC, hl1]
  have hl3 : c3.v.length = k + 1 := by rw [hc3, length_setPrevC, hl2]
  constructor
  · rw [show Circular.setNextC c3 k 0 = Circular.setNextC c3 k 0 from rfl]
    rw [nodeLens_setNextC, hc3, nodeLens_setPrevC, hc2, nodeLens_setPrevC, hc1,
      nodeLens_setNextC, htrA]
    simp [nodeLens]
  · intro j hj
    by_cases hjk : j = k
    · subst hjk
      rw [cget_setNextC_self c3 j 0 (by omega)]
      simp [Nat.mod_self]
    · rw [cget_setNextC_ne c3 k 0 j (fun hc => hjk hc.symm)]
      have hj2 : j < k := by omega
      by_cases hj0 : j = 0
      · subst hj0
        rw [hc3, cget_setPrevC_self c2 0 k (by omega)]
        show (Circular.cget c2 0).next = 1 % (k + 1)
        rw [hc2, cget_setPrevC_ne c1 k (k - 1) 0 (by omega)]
        by_cases hk1 : k - 1 = 0
        · have hk1e : k = 1 := by omega
          rw [hc1, hk1, cget_setNextC_self trA 0 k (by omega)]
          simp [hk1e]
        · rw [hc1, cget_setNextC_ne trA (k - 1) k 0 (by omega),
            hAlt 0 (by omega), hnext 0 (by omega)]
          have : (1 : Nat) % k = 1 := Nat.mod_eq_of_lt (by omega)
          rw [this, Nat.mod_eq_of_lt (by omega)]
      · rw [hc3, cget_setPrevC_ne c2 0 k j (fun hc => hj0 hc.symm),
          hc2, cget_setPrevC_ne c1 k (k - 1) j (by omega)]
        by_cases hjk1 : j = k - 1
        · subst hjk1
          rw [hc1, cget_setNextC_self trA (k - 1) k (by omega)]
          show k = (k - 1 + 1) % (k + 1)
          rw [show k - 1 + 1 = k from by omega, Nat.mod_eq_of_lt (by omega)]
        · rw [hc1, cget_setNextC_ne trA (k - 1) k j (fun hc => hjk1 hc.symm),
            hAlt j hj2, hnext j hj2]
          rw [Nat.mod_eq_of_lt (by omega), Nat.mod_eq_of_lt (by omega)]

theorem buildNode_inv {m : List (Nat × Nat)} {pre : List (Dart × Length)}
    {x : Dart × Length} {tr0 : Circular} {p0 : Option Nat}
    {tr1 : Circular} {p1 : Option Nat}
    (hinv : BuildInv tr0 p0 pre)
    (h : Problem.buildNode m (tr0, p0) x = .ok (tr1, p1)) :
    BuildInv tr1 p1 (pre ++ [x]) := by
  have hlen : tr0.v.length = pre.length := buildInv_length hinv
  unfold Problem.buildNode at h
  obtain ⟨cga, hcga, h⟩ := exceptBind_ok h
  simp only [Circular.addNode] at h
  by_cases hk0 : pre.length = 0
  · have hpre : pre = [] := List.eq_nil_of_length_eq_zero hk0
    subst hpre
    have hv0 : tr0.v = [] := List.eq_nil_of_length_eq_zero hlen
    have hp0 : p0 = none := by rw [hinv.2.2]; rfl
    subst hp0
    simp only [pure, Except.pure, Except.ok.injEq, Prod.mk.injEq] at h
    obtain ⟨h1, h2⟩ := h
    refine ⟨?_, ?_, ?_⟩
    · rw [← h1, hv0]
      simp [nodeLens]
    · intro i hi
      simp only [List.nil_append, List.length_cons, List.length_nil] at hi
      have hi0 : i = 0 := by omega
      subst hi0
      rw [← h1, hv0]
      simp [Circular.cget, hv0]
    · rw [← h2, hv0]
      simp
  · have hk : 1 ≤ pre.length := by omega
    have hp0 : p0 = some (pre.length - 1) := by rw [hinv.2.2, if_neg hk0]
    subst hp0
    simp only [pure, Except.pure, Except.ok.injEq, Prod.mk.injEq] at h
    obtain ⟨h1, h2⟩ := h
    rw [hlen] at h1
    have hsr := splice_ring tr0 pre.length hk hinv.2.1 hlen
      ⟨(cga, x.2), pre.length, pre.length⟩ rfl
    refine ⟨?_, ?_, ?_⟩
    · rw [← h1, hsr.1, hinv.1]
      simp
    · intro i hi
      simp only [List.length_append, List.length_cons, List.length_nil] at hi ⊢
      rw [← h1]
      exact hsr.2 i (by omega)
    · rw [← h2, hlen]
      simp

/-- The build fold of `process_face` produces the ring of its input list. -/
theorem buildFold_inv (m : List (Nat × Nat)) :
    ∀ (L pre : List (Dart × Length)) (tr0 : Circular) (p0 : Option Nat)
      (tr1 : Circular) (p1 : Option Nat),
      BuildInv tr0 p0 pre →
      List.foldlM (Problem.buildNode m) (tr0, p0) L = .ok (tr1, p1) →
      BuildInv tr1 p1 (pre ++ L) := by
  intro L
  induction L with
  | nil =>
    intro pre tr0 p0 tr1 p1 hinv h
    simp only [List.foldlM, pure, Except.pure, Except.ok.injEq, Prod.mk.injEq] at h
    obtain ⟨h1, h2⟩ := h
    subst h1; subst h2
    simpa using hinv
  | cons x xs ih =>
    intro pre tr0 p0 tr1 p1 hinv h
    rw [List.foldlM_cons] at h
    obtain ⟨⟨trm, pm⟩, hstep, hrest⟩ := exceptBind_ok h
    have hmid := buildNode_inv hinv hstep
    have := ih (pre ++ [x]) trm pm tr1 p1 hmid hrest
    simpa using this

/-- Iterating the ring from node `j` (up to the head `k-1`) yields the
node ids in order. -/
theorem iterGo_ring {tr : Circular} {k : Nat}
    (hnext : ∀ i, i < k → (Circular.cget tr i).next = (i + 1) % k) :
    ∀ (fuel j : Nat), j < k → k - 1 - j ≤ fuel →
      Circular.iterGo tr (k - 1) fuel j = List.range' j (k - 1 - j) := by
  intro fuel
  induction fuel with
  | zero =>
    intro j hj hf
    rw [show k - 1 - j = 0 from by omega]
    rfl
  | succ fl ih =>
    intro j hj hf
    by_cases hjl : j = k - 1
    · subst hjl
      simp only [Circular.iterGo, if_pos rfl]
      rw [show k - 1 - (k - 1) = 0 from by omega]
      rfl
    · have hjlt : j < k - 1 := by omega
      simp only [Circular.iterGo, if_neg hjl]
      rw [hnext j hj, Nat.mod_eq_of_lt (by omega),
        ih (j + 1) (by omega) (by omega),
        show k - 1 - j = (k - 1 - (j + 1)) + 1 from by omega,
        List.range'_succ]

/-- Iterating the ring from its last node yields `k-1, 0, 1, …, k-2`. -/
theorem iterC_ring {tr : Circular} {k : Nat} (hk : 1 ≤ k)
    (hnext : ∀ i, i < k → (Circular.cget tr i).next = (i + 1) % k)
    (hlen : tr.v.length = k) :
    Circular.iterC tr (k - 1) = (k - 1) :: List.range' 0 (k - 1) := by
  unfold Circular.iterC
  rw [hnext (k - 1) (by omega), show k - 1 + 1 = k from by omega, Nat.mod_self, hlen]
  congr 1
  exact iterGo_ring hnext k 0 (by omega) (by omega)

/-- Alternating sum of a list of lengths. -/
def altL : List Length → Length
  | [] => 0
  | x :: r => x - altL r

theorem altSum_eq_altL : ∀ L : List (Dart × Length), altSum L = altL (L.map Prod.snd) := by
  intro L
  induction L with
  | nil => rfl
  | cons x r ih => simp [altSum, altL, ih]

theorem altL_concat : ∀ (A : List Length) (x : Length),
    altL (A ++ [x]) = altL A + (if A.length % 2 = 0 then x else -x) := by
  intro A
  induction A with
  | nil => intro x; simp [altL]
  | cons a r ih =>
    intro x
    show a - altL (r ++ [x]) = a - altL r + if (a :: r).length % 2 = 0 then x else -x
    rw [ih x]
    simp only [List.length_cons]
    by_cases hp : r.length % 2 = 0
    · rw [if_pos hp, if_neg (by omega)]
      ring
    · rw [if_neg hp, if_pos (by omega)]
      ring

/-- Characterization of the signed fold inside `check_kawasaki`. -/
theorem kawFold (ds : List Length) :
    ∀ (s : Length) (b : Bool),
      ds.foldl (fun acc l => (if acc.2 then acc.1 + l else acc.1 - l, !acc.2)) (s, b) =
        ((if b then s + altL ds else s - altL ds),
         (if ds.length % 2 = 0 then b else !b)) := by
  induction ds with
  | nil => intro s b; simp [altL]
  | cons d r ih =>
    intro s b
    rw [List.foldl_cons, ih]
    cases b
    · refine Prod.ext ?_ ?_
      · show (if (true : Bool) then s - d + altL r else s - d - altL r) =
          (if (false : Bool) then s + altL (d :: r) else s - altL (d :: r))
        simp only [if_pos, if_neg, Bool.false_eq_true, altL]
        simp
        ring
      · show (if r.length % 2 = 0 then true else false) =
          (if (d :: r).length % 2 = 0 then false else true)
        simp only [List.length_cons]
        by_cases hp : r.length % 2 = 0
        · rw [if_pos hp, if_neg (by omega)]
        · rw [if_neg hp, if_pos (by omega)]
    · refine Prod.ext ?_ ?_
      · show (if (false : Bool) then s + d + altL r else s + d - altL r) =
          (if (true : Bool) then s + altL (d :: r) else s - altL (d :: r))
        simp only [altL]
        simp
        ring
      · show (if r.length % 2 = 0 then false else true) =
          (if (d :: r).length % 2 = 0 then true else false)
        simp only [List.length_cons]
        by_cases hp : r.length % 2 = 0
        · rw [if_pos hp, if_neg (by omega)]
        · rw [if_neg hp, if_pos (by omega)]

/-- Mapped `getD` over an index range is `drop`-`take`. -/
theorem range'_map_getD {α : Type} (d : α) :
    ∀ (m s : Nat) (l : List α), s + m ≤ l.length →
      (List.range' s m).map (fun i => l.getD i d) = (l.drop s).take m := by
  intro m
  induction m with
  | zero => intro s l _; simp
  | succ mm ih =>
    intro s l h
    rw [List.range'_succ, List.map_cons, ih (s + 1) l (by omega)]
    have hs : s < l.length := by omega
    rw [List.drop_eq_getElem_cons hs, List.take_cons (by omega)]
    rw [List.getD_eq_getElem _ _ hs]
    simp

/-- If `check_kawasaki` succeeds on the ring the build fold produced for
the list `L` of nonflat lengths, then the alternating sum of `L` is 0. -/
theorem checkKawasaki_ok_altSum {tr : Circular} {L : List (Dart × Length)} {head : Nat}
    (hinv : BuildInv tr (some head) L)
    (hok : Problem.checkKawasaki tr head = .ok ()) :
    altSum L = 0 := by
  obtain ⟨hlens, hnext, hprev⟩ := hinv
  by_cases hk0 : L.length = 0
  · rw [if_pos hk0] at hprev
    cases hprev
  · rw [if_neg hk0] at hprev
    have hhead : head = L.length - 1 := Option.some.inj hprev
    subst hhead
    have hk1 : 1 ≤ L.length := Nat.one_le_iff_ne_zero.mpr hk0
    have hlen : tr.v.length = L.length := by
      have := congrArg List.length hlens
      simpa [nodeLens_length] using this
    have hmap : ∀ (li : List Nat),
        li.foldl (fun (acc : Length × Bool) n =>
            ((if acc.2 then acc.1 + (Circular.cget tr n).data.2
              else acc.1 - (Circular.cget tr n).data.2), !acc.2)) ((0 : Length), true)
        = (li.map fun n => (nodeLens tr).getD n 0).foldl
            (fun (acc : Length × Bool) l =>
              ((if acc.2 then acc.1 + l else acc.1 - l), !acc.2)) ((0 : Length), true) := by
      intro li
      simp only [List.foldl_map, cget_dataLen]
    unfold Problem.checkKawasaki at hok
    rw [iterC_ring hk1 hnext hlen] at hok
    simp only [hmap, kawFold, List.length_map, List.length_cons,
      List.length_range', Bool.not_true, Bool.not_false, zero_add, zero_sub] at hok
    rw [show L.length - 1 + 1 = L.length from by omega] at hok
    have hidx : L.length - 1 < (nodeLens tr).length := by
      rw [nodeLens_length, hlen]; omega
    have hrng : (List.range' 0 (L.length - 1)).map (fun n => (nodeLens tr).getD n 0)
        = (nodeLens tr).take (L.length - 1) := by
      have h0 := range'_map_getD (0 : Length) (L.length - 1) 0 (nodeLens tr)
        (by rw [nodeLens_length, hlen]; omega)
      rw [List.drop_zero] at h0
      exact h0
    rw [List.map_cons, hrng] at hok
    by_cases hpar : L.length % 2 = 0
    · rw [if_pos hpar] at hok
      simp only [Bool.not_true, Bool.not_false, Bool.false_eq_true, if_false,
        eq_self_iff_true, if_true] at hok
      by_cases hz : altL ((nodeLens tr).getD (L.length - 1) 0 ::
          (nodeLens tr).take (L.length - 1)) = 0
      · have hdrop : (nodeLens tr).drop (L.length - 1)
            = [(nodeLens tr).getD (L.length - 1) 0] := by
          rw [List.drop_eq_getElem_cons hidx, List.getD_eq_getElem _ _ hidx]
          have hnil : (nodeLens tr).drop (L.length - 1 + 1) = [] :=
            List.drop_eq_nil_of_le (by rw [nodeLens_length, hlen]; omega)
          rw [hnil]
        have hsplit : (nodeLens tr).take (L.length - 1) ++
            [(nodeLens tr).getD (L.length - 1) 0] = nodeLens tr := by
          rw [← hdrop, List.take_append_drop]
        have htl : ((nodeLens tr).take (L.length - 1)).length = L.length - 1 := by
          rw [List.length_take, nodeLens_length, hlen]; omega
        have halt := altL_concat ((nodeLens tr).take (L.length - 1))
          ((nodeLens tr).getD (L.length - 1) 0)
        rw [hsplit, htl, if_neg (by omega)] at halt
        simp only [altL] at hz
        rw [altSum_eq_altL, ← hlens, halt]
        linarith
      · rw [if_neg hz] at hok
        exact absurd hok (by decide)
    · rw [if_neg hpar] at hok
      simp only [Bool.not_true, Bool.not_false, eq_self_iff_true, if_true] at hok
      exact absurd hok (by decide)

/-- If `process_face` succeeds on a face whose nonflat lengths are `L`,
the alternating sum of `L` is 0. -/
theorem processFace_kawasaki {p : Problem} {f : Dart} {cst : Constraints} {ext : Bool}
    {res : Constraints × List Emitted} {L : List (Dart × Length)}
    (hL : Problem.nonflatLengths p f = .ok L)
    (h : Problem.processFace p f cst ext = .ok res) : altSum L = 0 := by
  unfold Problem.processFace at h
  obtain ⟨nf, hnf, h⟩ := exceptBind_ok h
  rw [hL] at hnf
  have hnfL : nf = L := (Except.ok.inj hnf).symm
  subst hnfL
  obtain ⟨tp, hbuild, h⟩ := exceptBind_ok h
  obtain ⟨tracking, prev⟩ := tp
  obtain ⟨head, hhead, h⟩ := exceptBind_ok h
  obtain ⟨⟨⟩, hkaw, h⟩ := exceptBind_ok h
  have hinv0 : BuildInv Circular.new none [] :=
    ⟨rfl, by intro i hi; simp at hi, rfl⟩
  have hinv := buildFold_inv cst.angle_to_cg nf [] Circular.new none
    tracking prev hinv0 hbuild
  rw [List.nil_append] at hinv
  cases hpv : prev with
  | none =>
    rw [hpv] at hhead
    exact Except.noConfusion hhead
  | some x =>
    rw [hpv] at hhead
    have hx : x = head := Except.ok.inj hhead
    subst hx
    rw [hpv] at hinv
    exact checkKawasaki_ok_altSum hinv hkaw

/-- C5, amended: whenever some face's alternating signed sum of effective
edge lengths (the `nonflat_lengths` of a 2-cell representative) is
nonzero, `constraint_graph()` returns an error — so no `Constraints`
value, not even a partial one, is observable by the caller.  (The error
need not be `KawasakiViolation`: an earlier-processed face can fail first
with `BadAngleConstraints`, as the counterexample shows.) -/
theorem c5_amended (p : Problem)
    (h : ∃ f ∈ GMap.oneDartPerCell p.g 2, ∃ L,
      Problem.nonflatLengths p f = .ok L ∧ altSum L ≠ 0) :
    ∃ e, Problem.constraintGraph p = .error e := by
  obtain ⟨f, hf, L, hL, hs⟩ := h
  cases hres : Problem.constraintGraph p with
  | error e => exact ⟨e, rfl⟩
  | ok c =>
    exfalso
    unfold Problem.constraintGraph at hres
    obtain ⟨⟨c0, tr⟩, hrun, -⟩ := exceptMap_ok hres
    unfold Problem.constraintGraphT at hrun
    obtain ⟨cgE, hempty, hrun⟩ := exceptBind_ok hrun
    obtain ⟨cv, hvfold, hrun⟩ := exceptBind_ok hrun
    obtain ⟨acc, acc2, hstep⟩ := foldlM_visits _ _ _ _ hrun f hf
    obtain ⟨⟨cst2, tr2⟩, hpf, -⟩ := exceptBind_ok hstep
    exact hs (processFace_kawasaki hL hpf)

/-- C5 amended, witness: the triangle-and-square fixture has a face (dart
6) with nonflat lengths `[2, 1, 1, 1]` and alternating sum `1 ≠ 0`, and
`constraint_graph` indeed errors on it. -/
theorem c5_amended_witness :
    ∃ e, Problem.constraintGraph Fixtures.triSqProblem = .error e :=
  c5_amended Fixtures.triSqProblem
    ⟨6, by decide, [(6, 2), (8, 1), (10, 1), (12, 1)], by decide, by decide⟩

/-! ### Validity facts, reachability, and orbit-enumeration correctness -/

/-- The semantic content of a passing `check_valid`: index arithmetic,
range of the alpha entries, involutivity, closure of the live darts, and
the commutation relation for indices at distance at least 2. -/
structure Valid (g : GMap) : Prop where
  hmod : g.alpha.length % (g.dimension + 1) = 0
  hdel : g.deleted.length = g.ndarts
  hrange : ∀ d, d < g.ndarts → ∀ i, i ≤ g.dimension → g.av d i < g.ndarts
  hinv : ∀ i, i ≤ g.dimension → ∀ d, d < g.ndarts → g.av (g.av d i) i = d
  hlive : ∀ i, i ≤ g.dimension → ∀ d, d < g.ndarts →
    g.is_deleted d = false → g.is_deleted (g.av d i) = false
  hcomm : ∀ i j, i + 2 ≤ j → j ≤ g.dimension → ∀ d, d < g.ndarts →
    g.av (g.av d i) j = g.av (g.av d j) i

theorem all_range_iff (n : Nat) (f : Nat → Bool) :
    (List.range n).all f = true ↔ ∀ i, i < n → f i = true := by
  simp [List.all_eq_true, List.mem_range]

/-- Inversion of the `check_valid` if-chain (any commutation bound). -/
theorem checkValidCore_ok {g : GMap} {bound : Nat}
    (h : GMap.checkValidCore g bound = .ok ()) :
    g.alpha.length % (g.dimension + 1) = 0 ∧
    g.deleted.length = g.ndarts ∧
    (∀ d, d < g.ndarts → ∀ i, i ≤ g.dimension → g.av d i < g.ndarts) ∧
    (∀ i, i ≤ g.dimension → ∀ d, d < g.ndarts → g.av (g.av d i) i = d) ∧
    (∀ i, i ≤ g.dimension → ∀ d, d < g.ndarts →
      g.is_deleted d = false → g.is_deleted (g.av d i) = false) ∧
    GMap.commutationCheck g bound = true := by
  unfold GMap.checkValidCore at h
  by_cases h1 : g.alpha.length % (g.dimension + 1) ≠ 0
  · rw [if_pos h1] at h
    exact Except.noConfusion h
  rw [if_neg h1] at h
  by_cases h2 : g.deleted.length ≠ g.ndarts
  · rw [if_pos h2] at h
    exact Except.noConfusion h
  rw [if_neg h2] at h
  by_cases h3 : ¬ ((List.range g.ndarts).all fun d =>
      (List.range (g.dimension + 1)).all fun i => g.av d i < g.ndarts)
  · rw [if_pos h3] at h
    exact Except.noConfusion h
  rw [if_neg h3] at h
  by_cases h4 : ¬ ((List.range (g.dimension + 1)).all fun i =>
      (List.range g.ndarts).all fun d => g.av (g.av d i) i == d)
  · rw [if_pos h4] at h
    exact Except.noConfusion h
  rw [if_neg h4] at h
  by_cases h5 : ¬ ((List.range (g.dimension + 1)).all fun i =>
      (List.range g.ndarts).all fun d =>
        !(!(g.is_deleted d) && g.is_deleted (g.av d i)))
  · rw [if_pos h5] at h
    exact Except.noConfusion h
  rw [if_neg h5] at h
  by_cases h6 : ¬ GMap.commutationCheck g bound
  · rw [if_pos h6] at h
    exact Except.noConfusion h
  rw [if_neg h6] at h
  push_neg at h1 h2
  rw [not_not] at h3 h4 h5 h6
  have h3' : ∀ x, x < g.ndarts → ∀ y, y < g.dimension + 1 → g.av x y < g.ndarts := by
    simpa using h3
  have h4' : ∀ x, x < g.dimension + 1 → ∀ y, y < g.ndarts → g.av (g.av y x) x = y := by
    simpa using h4
  have h5' : ∀ x, x < g.dimension + 1 → ∀ y, y < g.ndarts →
      g.is_deleted y = true ∨ g.is_deleted (g.av y x) = false := by
    simpa using h5
  refine ⟨h1, h2, ?_, ?_, ?_, h6⟩
  · intro d hd i hi
    exact h3' d hd i (by omega)
  · intro i hi d hd
    exact h4' i (by omega) d hd
  · intro i hi d hd hnotdel
    rcases h5' i (by omega) d hd with hc | hc
    · rw [hnotdel] at hc
      cases hc
    · exact hc

theorem commutationCheck_spec {g : GMap} {bound : Nat}
    (h : GMap.commutationCheck g bound = true) :
    ∀ i j, i < bound → i + 2 ≤ j → j ≤ g.dimension → ∀ d, d < g.ndarts →
      g.av (g.av d i) j = g.av (g.av d j) i := by
  intro i j hib hij hj d hd
  unfold GMap.commutationCheck at h
  have h1 := (all_range_iff _ _).mp h i hib
  have h2 := List.all_eq_true.mp h1 j ?_
  · have h3 := (all_range_iff _ _).mp h2 d hd
    have : g.al d [i, j] = g.al d [j, i] := by simpa using h3
    simpa [GMap.al] using this
  · have : j < i + 2 + (g.dimension + 1 - (i + 2)) := by omega
    exact List.mem_range'_1.mpr ⟨by omega, this⟩

/-- A G-map passing the (release, `dimension ≥ 1`) `check_valid` satisfies
all the structural facts, including commutation. -/
theorem valid_of_checkValid {g : GMap} (h : GMap.checkValid g = .ok ()) :
    Valid g := by
  unfold GMap.checkValid at h
  obtain ⟨h1, h2, h3, h4, h5, h6⟩ := checkValidCore_ok h
  refine ⟨h1, h2, h3, h4, h5, ?_⟩
  intro i j hij hj d hd
  exact commutationCheck_spec h6 i j (by omega) hij hj d hd

/-- Reachability by the alpha involutions selected by a mask: the
`a`-orbit relation of the G-map. -/
inductive reach (g : GMap) (a : Alphas) : Dart → Dart → Prop
  | refl (d : Dart) : reach g a d d
  | step {d e : Dart} (i : Nat) (hr : reach g a d e) (hi : i ≤ g.dimension)
      (ha : a.has i = true) : reach g a d (g.av e i)

theorem reach_trans {g : GMap} {a : Alphas} {d e f : Dart}
    (h1 : reach g a d e) (h2 : reach g a e f) : reach g a d f := by
  induction h2 with
  | refl => exact h1
  | step i hr hi ha ih => exact reach.step i ih hi ha

theorem reach_lt {g : GMap} (V : Valid g) {a : Alphas} {d e : Dart}
    (hd : d < g.ndarts) (h : reach g a d e) : e < g.ndarts := by
  induction h with
  | refl => exact hd
  | step i hr hi ha ih => exact V.hrange _ ih _ hi

theorem reach_symm {g : GMap} (V : Valid g) {a : Alphas} {d e : Dart}
    (hd : d < g.ndarts) (h : reach g a d e) : reach g a e d := by
  induction h with
  | refl => exact reach.refl d
  | @step e' i hr hi ha ih =>
    have he' : e' < g.ndarts := reach_lt V hd hr
    have hstep : reach g a (g.av e' i) e' := by
      have := reach.step (d := g.av e' i) (e := g.av e' i) i (reach.refl _) hi ha
      rwa [V.hinv i hi e' he'] at this
    exact reach_trans hstep ih

theorem reach_live {g : GMap} (V : Valid g) {a : Alphas} {d e : Dart}
    (hd : d < g.ndarts) (hl : g.is_deleted d = false) (h : reach g a d e) :
    g.is_deleted e = false := by
  induction h with
  | refl => exact hl
  | step i hr hi ha ih => exact V.hlive i hi _ (reach_lt V hd hr) ih

/-- Reachability along a path all of whose darts (endpoints included)
avoid `seen`: the partial-closure semantics of a BFS state. -/
inductive reachAvoid (g : GMap) (a : Alphas) (seen : List Dart) : Dart → Dart → Prop
  | refl (d : Dart) (hd : d ∉ seen) : reachAvoid g a seen d d
  | step {d e : Dart} (i : Nat) (hr : reachAvoid g a seen d e) (hi : i ≤ g.dimension)
      (ha : a.has i = true) (hn : g.av e i ∉ seen) : reachAvoid g a seen d (g.av e i)

theorem reachAvoid_nil_iff {g : GMap} {a : Alphas} {d e : Dart} :
    reachAvoid g a [] d e ↔ reach g a d e := by
  constructor
  · intro h
    induction h with
    | refl _ => exact reach.refl _
    | step i hr hi ha hn ih => exact reach.step i ih hi ha
  · intro h
    induction h with
    | refl => exact reachAvoid.refl _ (List.not_mem_nil _)
    | step i hr hi ha ih => exact reachAvoid.step i ih hi ha (List.not_mem_nil _)

theorem reachAvoid_ends {g : GMap} {a : Alphas} {seen : List Dart} {d e : Dart}
    (h : reachAvoid g a seen d e) : d ∉ seen ∧ e ∉ seen := by
  induction h with
  | refl hd => exact ⟨hd, hd⟩
  | step i hr hi ha hn ih => exact ⟨ih.1, hn⟩

theorem reachAvoid_mono {g : GMap} {a : Alphas} {s s' : List Dart}
    (hss : ∀ x, x ∈ s' → x ∈ s) {d e : Dart} (h : reachAvoid g a s d e) :
    reachAvoid g a s' d e := by
  induction h with
  | refl hq => exact reachAvoid.refl _ (fun hc => hq (hss _ hc))
  | step i hr hi ha hn ih => exact reachAvoid.step i ih hi ha (fun hc => hn (hss _ hc))

/-- Splitting a `seen`-avoiding path at the last visit of `x` (if any). -/
theorem reachAvoid_split {g : GMap} {a : Alphas} {s : List Dart} (x : Dart)
    {q e : Dart} (h : reachAvoid g a s q e) :
    reachAvoid g a (x :: s) q e ∨ e = x ∨
    ∃ i, i ≤ g.dimension ∧ a.has i = true ∧ reachAvoid g a (x :: s) (g.av x i) e := by
  induction h with
  | refl hp =>
    by_cases hpx : q = x
    · exact Or.inr (Or.inl hpx)
    · exact Or.inl (reachAvoid.refl q (by simp [hp, hpx]))
  | @step e' i hr hi ha hn ih =>
    by_cases hnew : g.av e' i = x
    · exact Or.inr (Or.inl hnew)
    rcases ih with hL | hex | ⟨k, hk, hak, hr'⟩
    · exact Or.inl (reachAvoid.step i hL hi ha (by simp [hn, hnew]))
    · subst hex
      refine Or.inr (Or.inr ⟨i, hi, ha, ?_⟩)
      exact reachAvoid.refl _ (by simp [hn, hnew])
    · refine Or.inr (Or.inr ⟨k, hk, hak, ?_⟩)
      exact reachAvoid.step i hr' hi ha (by simp [hn, hnew])

theorem reachAvoid_compose {g : GMap} {a : Alphas} {s : List Dart} (x : Dart)
    {d m e : Dart} (h1 : reachAvoid g a s d m)
    (h2 : reachAvoid g a (x :: s) m e) : reachAvoid g a s d e := by
  induction h2 with
  | refl _ => exact h1
  | step i hr hi ha hn ih =>
    exact reachAvoid.step i ih hi ha (fun hc => hn (List.mem_cons_of_mem x hc))

theorem mem_bfsPush {g : GMap} {a : Alphas} {d : Dart} {z : Option Nat × Dart} :
    z ∈ (List.range (g.dimension + 1)).filterMap (fun i =>
      if Alphas.has a i then some (some i, g.av d i) else none) ↔
    ∃ i, i ≤ g.dimension ∧ Alphas.has a i = true ∧ z = (some i, g.av d i) := by
  simp only [List.mem_filterMap, List.mem_range]
  constructor
  · rintro ⟨i, hi, hz⟩
    by_cases hhas : Alphas.has a i = true
    · rw [if_pos hhas] at hz
      exact ⟨i, by omega, hhas, (Option.some.inj hz).symm⟩
    · rw [if_neg hhas] at hz
      cases hz
  · rintro ⟨i, hi, hhas, rfl⟩
    exact ⟨i, by omega, by rw [if_pos hhas]⟩

theorem nodup_length_le {n : Nat} {l : List Nat} (hn : l.Nodup)
    (hlt : ∀ x ∈ l, x < n) : l.length ≤ n := by
  have hcard : l.toFinset.card = l.length := List.toFinset_card_of_nodup hn
  have hsub : l.toFinset ⊆ Finset.range n := by
    intro x hx
    rw [List.mem_toFinset] at hx
    exact Finset.mem_range.mpr (hlt x hx)
  have hle := Finset.card_le_card hsub
  rw [hcard, Finset.card_range] at hle
  exact hle

/-- The BFS orbit enumeration yields exactly the darts reachable from the
frontier by `seen`-avoiding paths, provided the fuel dominates the BFS
potential. -/
theorem bfs_iff (g : GMap) (a : Alphas)
    (hrange : ∀ d, d < g.ndarts → ∀ i, i ≤ g.dimension → g.av d i < g.ndarts) :
    ∀ (fuel : Nat) (seen : List Dart) (queue : List (Option Nat × Dart)),
      seen.Nodup → (∀ x ∈ seen, x < g.ndarts) → (∀ q ∈ queue, q.2 < g.ndarts) →
      (g.ndarts - seen.length) * (g.dimension + 2) + queue.length < fuel →
      ∀ e, e ∈ (GMap.bfsOrbit g a fuel seen queue).map Prod.snd ↔
        ∃ q ∈ queue, reachAvoid g a seen q.2 e := by
  intro fuel
  induction fuel with
  | zero =>
    intro seen queue _ _ _ hF
    omega
  | succ f ih =>
    intro seen queue hnd hslt hqlt hF e
    cases queue with
    | nil => simp [GMap.bfsOrbit]
    | cons q rest =>
      obtain ⟨frm, d⟩ := q
      have hdlt : d < g.ndarts := hqlt (frm, d) (List.mem_cons_self _ _)
      simp only [GMap.bfsOrbit]
      by_cases hseen : seen.contains d = true
      · rw [if_pos hseen]
        have hdmem : d ∈ seen := by simpa using hseen
        rw [ih seen rest hnd hslt
          (fun q hq => hqlt q (List.mem_cons_of_mem _ hq))
          (by simp only [List.length_cons] at hF; omega) e]
        constructor
        · rintro ⟨q, hq, hre⟩
          exact ⟨q, List.mem_cons_of_mem _ hq, hre⟩
        · rintro ⟨q, hq, hre⟩
          rcases List.mem_cons.mp hq with rfl | hq'
          · exact absurd hdmem (reachAvoid_ends hre).1
          · exact ⟨q, hq', hre⟩
      · rw [if_neg hseen]
        have hdnot : d ∉ seen := fun hc => hseen (by simpa using hc)
        have hpush : ∀ z ∈ (List.range (g.dimension + 1)).filterMap (fun i =>
            if Alphas.has a i then some (some i, g.av d i) else none),
            z.2 < g.ndarts := by
          intro z hz
          obtain ⟨i, hi, hhas, rfl⟩ := mem_bfsPush.mp hz
          exact hrange d hdlt i hi
        have hlen1 : seen.length + 1 ≤ g.ndarts := by
          have := nodup_length_le (n := g.ndarts)
            (List.nodup_cons.mpr ⟨hdnot, hnd⟩)
            (by
              intro x hx
              rcases List.mem_cons.mp hx with rfl | hx'
              · exact hdlt
              · exact hslt x hx')
          simpa using this
        have hplen : ((List.range (g.dimension + 1)).filterMap (fun i =>
            if Alphas.has a i then some (some i, g.av d i) else none)).length ≤
            g.dimension + 1 := by
          have := List.length_filterMap_le (fun i =>
            if Alphas.has a i then some (some i, g.av d i) else none)
            (List.range (g.dimension + 1))
          simpa using this
        have hmul : (g.ndarts - seen.length) * (g.dimension + 2) =
            (g.ndarts - (seen.length + 1)) * (g.dimension + 2) + (g.dimension + 2) := by
          rw [show g.ndarts - seen.length = (g.ndarts - (seen.length + 1)) + 1 from by omega,
            Nat.succ_mul]
        have hrec := ih (d :: seen) (rest ++ _)
          (List.nodup_cons.mpr ⟨hdnot, hnd⟩)
          (by
            intro x hx
            rcases List.mem_cons.mp hx with rfl | hx'
            · exact hdlt
            · exact hslt x hx')
          (by
            intro z hz
            rcases List.mem_append.mp hz with hz' | hz'
            · exact hqlt z (List.mem_cons_of_mem _ hz')
            · exact hpush z hz')
          (by
            simp only [List.length_cons, List.length_append] at hF ⊢
            omega)
          e
        simp only [List.map_cons, List.mem_cons, hrec]
        constructor
        · rintro (rfl | ⟨z, hz, hre⟩)
          · exact ⟨(frm, e), Or.inl rfl, reachAvoid.refl e hdnot⟩
          · rcases List.mem_append.mp hz with hz' | hz'
            · refine ⟨z, Or.inr hz', ?_⟩
              exact reachAvoid_mono (fun y hy => List.mem_cons_of_mem d hy) hre
            · obtain ⟨i, hi, hhas, rfl⟩ := mem_bfsPush.mp hz'
              refine ⟨(frm, d), Or.inl rfl, ?_⟩
              have hnotin : g.av d i ∉ seen := by
                have := (reachAvoid_ends hre).1
                exact fun hc => this (List.mem_cons_of_mem d hc)
              have h1 : reachAvoid g a seen d (g.av d i) :=
                reachAvoid.step i (reachAvoid.refl d hdnot) hi hhas hnotin
              exact reachAvoid_compose d h1 hre
        · rintro ⟨z, hz, hre⟩
          rcases hz with rfl | hz'
          · rcases reachAvoid_split d hre with hL | hex | ⟨i, hi, hak, hr'⟩
            · exact absurd (List.mem_cons_self d seen) (reachAvoid_ends hL).1
            · exact Or.inl hex
            · refine Or.inr ⟨(some i, g.av d i), ?_, hr'⟩
              exact List.mem_append.mpr (Or.inr (mem_bfsPush.mpr ⟨i, hi, hak, rfl⟩))
          · rcases reachAvoid_split d hre with hL | hex | ⟨i, hi, hak, hr'⟩
            · exact Or.inr ⟨z, List.mem_append.mpr (Or.inl hz'), hL⟩
            · exact Or.inl hex
            · refine Or.inr ⟨(some i, g.av d i), ?_, hr'⟩
              exact List.mem_append.mpr (Or.inr (mem_bfsPush.mpr ⟨i, hi, hak, rfl⟩))

/-- Top-level BFS enumeration equals the reachability closure. -/
theorem bfsOrbit_iff {g : GMap} {a : Alphas}
    (hrange : ∀ d, d < g.ndarts → ∀ i, i ≤ g.dimension → g.av d i < g.ndarts)
    {d : Dart} (hd : d < g.ndarts) (e : Dart) :
    e ∈ (GMap.bfsOrbit g a (GMap.bfsFuel g) [] [(none, d)]).map Prod.snd ↔
      reach g a d e := by
  rw [bfs_iff g a hrange (GMap.bfsFuel g) [] [(none, d)]
    List.nodup_nil (by simp) (by simpa using hd) ?_ e]
  · constructor
    · rintro ⟨q, hq, hre⟩
      rcases List.mem_cons.mp hq with rfl | hq'
      · exact reachAvoid_nil_iff.mp hre
      · cases hq'
    · intro h
      exact ⟨(none, d), List.mem_cons_self _ _, reachAvoid_nil_iff.mpr h⟩
  · unfold GMap.bfsFuel
    simp only [List.length_nil, Nat.sub_zero, List.length_cons, Nat.zero_add]
    have h2 : (g.ndarts + 1) * (g.dimension + 2) =
        g.ndarts * (g.dimension + 2) + (g.dimension + 2) := Nat.succ_mul _ _
    omega

/-- The plane-orbit dispatch value determines the low mask bits. -/
theorem has_of_compl7 {a : Alphas} {c : Nat} (h : compl32 a &&& 7 = c)
    (k : Nat) (hk : k < 3) : Alphas.has a k = !(c.testBit k) := by
  have h1 : (compl32 a &&& 7).testBit k = c.testBit k := by rw [h]
  rw [Nat.testBit_and] at h1
  unfold compl32 at h1
  rw [Nat.testBit_xor] at h1
  have hu : Nat.testBit u32max k = true := by
    unfold u32max
    rw [Nat.testBit_two_pow_sub_one]
    simp only [decide_eq_true_eq]
    omega
  have h7 : Nat.testBit 7 k = true := by
    interval_cases k <;> decide
  rw [hu, h7] at h1
  simp only [Bool.true_xor, Bool.and_true] at h1
  unfold Alphas.has
  rw [← h1, Bool.not_not]

/-- `plus_one` enumerates the closure when the mask selects a single
in-range index. -/
theorem plusOne_iff {g : GMap} (V : Valid g) {a : Alphas} {k : Nat}
    (hk : k ≤ g.dimension) (hhk : Alphas.has a k = true)
    (honly : ∀ m, m ≤ g.dimension → Alphas.has a m = true → m = k)
    {d : Dart} (hd : d < g.ndarts) (e : Dart) :
    e ∈ (GMap.plusOne g d k).map Prod.snd ↔ reach g a d e := by
  unfold GMap.plusOne
  by_cases hfree : d = g.av d k
  · rw [if_pos hfree]
    simp only [List.map_cons, List.map_nil, List.mem_singleton]
    constructor
    · rintro rfl
      exact reach.refl _
    · intro h
      induction h with
      | refl => rfl
      | step i hr hi ha ih =>
        have hik := honly i hi ha
        subst hik
        rw [ih, ← hfree]
  · rw [if_neg hfree]
    simp only [List.map_cons, List.map_nil, List.mem_cons,
      List.mem_singleton, List.not_mem_nil, or_false]
    constructor
    · rintro (rfl | rfl)
      · exact reach.refl _
      · exact reach.step k (reach.refl d) hk hhk
    · intro h
      induction h with
      | refl => exact Or.inl rfl
      | step i hr hi ha ih =>
        have hik := honly i hi ha
        subst hik
        rcases ih with rfl | rfl
        · exact Or.inr rfl
        · exact Or.inl (V.hinv _ hk _ hd)

/-- The explicit four-dart edge-orbit list is the closure for a mask
selecting exactly the commuting indices 0 and 2. -/
theorem planeCase2_iff {g : GMap} (V : Valid g) {a : Alphas}
    (ha0 : Alphas.has a 0 = true) (ha2 : Alphas.has a 2 = true)
    (honly : ∀ m, m ≤ g.dimension → Alphas.has a m = true → m = 0 ∨ m = 2)
    (hdim : 2 ≤ g.dimension)
    {d : Dart} (hd : d < g.ndarts) (e : Dart) :
    (e = d ∨ e = g.av d 0 ∨ e = g.av d 2 ∨ e = g.av (g.av d 0) 2) ↔
      reach g a d e := by
  constructor
  · rintro (rfl | rfl | rfl | rfl)
    · exact reach.refl _
    · exact reach.step 0 (reach.refl d) (by omega) ha0
    · exact reach.step 2 (reach.refl d) hdim ha2
    · exact reach.step 2 (reach.step 0 (reach.refl d) (by omega) ha0) hdim ha2
  · intro h
    induction h with
    | refl => exact Or.inl rfl
    | step i hr hi ha ih =>
      rcases honly i hi ha with rfl | rfl
      · rcases ih with rfl | rfl | rfl | rfl
        · exact Or.inr (Or.inl rfl)
        · exact Or.inl (V.hinv 0 (by omega) d hd)
        · exact Or.inr (Or.inr (Or.inr (V.hcomm 0 2 (by omega) hdim d hd).symm))
        · have h1 := V.hcomm 0 2 (by omega) hdim (g.av d 0) (V.hrange d hd 0 (by omega))
          rw [V.hinv 0 (by omega) d hd] at h1
          exact Or.inr (Or.inr (Or.inl h1.symm))
      · rcases ih with rfl | rfl | rfl | rfl
        · exact Or.inr (Or.inr (Or.inl rfl))
        · exact Or.inr (Or.inr (Or.inr rfl))
        · exact Or.inl (V.hinv 2 hdim d hd)
        · exact Or.inr (Or.inl (V.hinv 2 hdim (g.av d 0) (V.hrange d hd 0 (by omega))))

/-- A mask with no in-range index has singleton orbits. -/
theorem planeCase7_iff {g : GMap} {a : Alphas}
    (hnone : ∀ m, m ≤ g.dimension → Alphas.has a m = true → False)
    {d e : Dart} : e = d ↔ reach g a d e := by
  constructor
  · rintro rfl
    exact reach.refl _
  · intro h
    induction h with
    | refl => rfl
    | step i hr hi ha ih => exact absurd ha (fun hc => hnone i hi hc)

/-- The alternating generator applied after position `n` of a ray. -/
def genIJ (i j n : Nat) : Nat := if n % 2 = 0 then i else j

/-- The ray of the `PathOrbit` walker: apply `i` and `j` alternately
(`i` first).  The backward ray is the same with `i` and `j` swapped. -/
def FRay (g : GMap) (i j d : Nat) : Nat → Dart
  | 0 => d
  | n + 1 => g.av (FRay g i j d n) (genIJ i j n)

section PathTheory

variable {g : GMap} {a : Alphas} {i j d : Nat}

theorem genIJ_le {D : Nat} (hi : i ≤ D) (hj : j ≤ D) (n : Nat) : genIJ i j n ≤ D := by
  unfold genIJ
  split <;> assumption

theorem genIJ_congr (i j : Nat) {a b : Nat} (h : a % 2 = b % 2) :
    genIJ i j a = genIJ i j b := by
  unfold genIJ
  rw [h]

theorem genIJ_cross {a b : Nat} (h : a % 2 ≠ b % 2) : genIJ i j a = genIJ j i b := by
  unfold genIJ
  by_cases hpa : a % 2 = 0
  · rw [if_pos hpa, if_neg (by omega)]
  · rw [if_neg hpa, if_pos (by omega)]

theorem fray_succ (g : GMap) (i j d n : Nat) :
    FRay g i j d (n + 1) = g.av (FRay g i j d n) (genIJ i j n) := rfl

theorem fray_lt (V : Valid g) (hi : i ≤ g.dimension) (hj : j ≤ g.dimension)
    (hd : d < g.ndarts) : ∀ n, FRay g i j d n < g.ndarts := by
  intro n
  induction n with
  | zero => exact hd
  | succ n ih => exact V.hrange _ ih _ (genIJ_le hi hj n)

theorem fray_pred (V : Valid g) (hi : i ≤ g.dimension) (hj : j ≤ g.dimension)
    (hd : d < g.ndarts) (n : Nat) :
    g.av (FRay g i j d (n + 1)) (genIJ i j n) = FRay g i j d n := by
  rw [fray_succ]
  exact V.hinv _ (genIJ_le hi hj n) _ (fray_lt V hi hj hd n)

theorem fray_shift {x y : Nat} (h : FRay g i j d x = FRay g i j d y)
    (hp : x % 2 = y % 2) : ∀ r, FRay g i j d (x + r) = FRay g i j d (y + r) := by
  intro r
  induction r with
  | zero => simpa using h
  | succ r ih =>
    rw [show x + (r + 1) = (x + r) + 1 from rfl, show y + (r + 1) = (y + r) + 1 from rfl,
      fray_succ, fray_succ, ih, genIJ_congr i j (show (x + r) % 2 = (y + r) % 2 from by omega)]

theorem fray_cross_shift {x y : Nat} (h : FRay g i j d x = FRay g j i d y)
    (hp : x % 2 ≠ y % 2) : ∀ r, FRay g i j d (x + r) = FRay g j i d (y + r) := by
  intro r
  induction r with
  | zero => simpa using h
  | succ r ih =>
    rw [show x + (r + 1) = (x + r) + 1 from rfl, show y + (r + 1) = (y + r) + 1 from rfl,
      fray_succ, fray_succ, ih,
      genIJ_cross (show (x + r) % 2 ≠ (y + r) % 2 from by omega)]

theorem fray_desc (V : Valid g) (hi : i ≤ g.dimension) (hj : j ≤ g.dimension)
    (hd : d < g.ndarts) {x y : Nat}
    (h : FRay g i j d (x + 1) = FRay g i j d (y + 1)) (hp : x % 2 = y % 2) :
    FRay g i j d x = FRay g i j d y := by
  have h1 := fray_pred V hi hj hd x
  have h2 := fray_pred V hi hj hd y
  rw [← h1, ← h2, h, genIJ_congr i j hp]

theorem fray_cross_desc (V : Valid g) (hi : i ≤ g.dimension) (hj : j ≤ g.dimension)
    (hd : d < g.ndarts) {x y : Nat}
    (h : FRay g j i d x = FRay g i j d y) (hp : x % 2 = y % 2) (hx : 1 ≤ x) :
    FRay g j i d (x - 1) = FRay g i j d (y + 1) := by
  have h1 := fray_pred V hj hi hd (x - 1)
  rw [show x - 1 + 1 = x from by omega] at h1
  rw [← h1, h, fray_succ]
  congr 1
  exact genIJ_cross (by omega)

theorem fray_cross_desc2 (V : Valid g) (hi : i ≤ g.dimension) (hj : j ≤ g.dimension)
    (hd : d < g.ndarts) {x y : Nat}
    (h : FRay g i j d x = FRay g j i d y) (hp : x % 2 ≠ y % 2)
    (hx : 1 ≤ x) (hy : 1 ≤ y) :
    FRay g i j d (x - 1) = FRay g j i d (y - 1) := by
  have h1 := fray_pred V hi hj hd (x - 1)
  rw [show x - 1 + 1 = x from by omega] at h1
  have h2 := fray_pred V hj hi hd (y - 1)
  rw [show y - 1 + 1 = y from by omega] at h2
  rw [← h1, ← h2, h]
  congr 1
  exact genIJ_cross (by omega)

theorem fray_return (V : Valid g) (hi : i ≤ g.dimension) (hj : j ≤ g.dimension)
    (hd : d < g.ndarts) :
    ∀ s t, FRay g i j d s = FRay g i j d t → s % 2 = t % 2 → s ≤ t →
      FRay g i j d (t - s) = d := by
  intro s
  induction s with
  | zero =>
    intro t h hp hst
    rw [Nat.sub_zero]
    exact h.symm
  | succ s ih =>
    intro t h hp hst
    have hdesc : FRay g i j d s = FRay g i j d (t - 1) := by
      apply fray_desc V hi hj hd (x := s) (y := t - 1)
      · rw [show t - 1 + 1 = t from by omega]
        exact h
      · omega
    have hres := ih (t - 1) hdesc (by omega) (by omega)
    rwa [show t - 1 - s = t - (s + 1) from by omega] at hres

theorem fray_fix (V : Valid g) (hi : i ≤ g.dimension) (hj : j ≤ g.dimension)
    (hd : d < g.ndarts) :
    ∀ gap s t, t - s = gap → FRay g i j d s = FRay g i j d t → s < t →
      s % 2 ≠ t % 2 →
      ∃ m, s ≤ m ∧ m < t ∧ FRay g i j d (m + 1) = FRay g i j d m := by
  intro gap
  induction gap using Nat.strong_induction_on with
  | _ gap ih =>
    intro s t hgap h hst hp
    by_cases hone : t = s + 1
    · subst hone
      exact ⟨s, le_rfl, by omega, h.symm⟩
    · have hstep : FRay g i j d (s + 1) = FRay g i j d (t - 1) := by
        have h1 := fray_pred V hi hj hd (t - 1)
        rw [show t - 1 + 1 = t from by omega] at h1
        rw [fray_succ, h, ← h1]
        congr 1
        exact genIJ_congr i j (by omega)
      obtain ⟨m, hm1, hm2, hm3⟩ := ih (t - 1 - (s + 1)) (by omega) (s + 1) (t - 1)
        rfl hstep (by omega) (by omega)
      exact ⟨m, by omega, by omega, hm3⟩

theorem fray_pigeon (V : Valid g) (hi : i ≤ g.dimension) (hj : j ≤ g.dimension)
    (hd : d < g.ndarts) :
    ∃ n, 1 ≤ n ∧ n ≤ g.ndarts ∧
      (FRay g i j d n = d ∨ FRay g i j d (n + 1) = FRay g i j d n) := by
  have main : ∀ x y, x < y → y < g.ndarts + 1 →
      FRay g i j d (x + 1) = FRay g i j d (y + 1) →
      ∃ n, 1 ≤ n ∧ n ≤ g.ndarts ∧
        (FRay g i j d n = d ∨ FRay g i j d (n + 1) = FRay g i j d n) := by
    intro x y hxy hy heq
    by_cases hp : (x + 1) % 2 = (y + 1) % 2
    · have hret := fray_return V hi hj hd (x + 1) (y + 1) heq hp (by omega)
      exact ⟨y + 1 - (x + 1), by omega, by omega, Or.inl hret⟩
    · obtain ⟨m, hm1, hm2, hm3⟩ := fray_fix V hi hj hd ((y + 1) - (x + 1)) (x + 1) (y + 1)
        rfl heq (by omega) hp
      exact ⟨m, by omega, by omega, Or.inr hm3⟩
  have hmaps : ∀ k ∈ Finset.range (g.ndarts + 1),
      FRay g i j d (k + 1) ∈ Finset.range g.ndarts := by
    intro k _
    exact Finset.mem_range.mpr (fray_lt V hi hj hd (k + 1))
  have hcard : (Finset.range g.ndarts).card < (Finset.range (g.ndarts + 1)).card := by
    simp
  obtain ⟨x, hx, y, hy, hxy, heq⟩ :=
    Finset.exists_ne_map_eq_of_card_lt_of_maps_to hcard hmaps
  rcases Nat.lt_or_ge x y with hlt | hge
  · exact main x y hlt (Finset.mem_range.mp hy) heq
  · have hlt : y < x := by omega
    exact main y x hlt (Finset.mem_range.mp hx) heq.symm

theorem fray_reflect (V : Valid g) (hi : i ≤ g.dimension) (hj : j ≤ g.dimension)
    (hd : d < g.ndarts) {m : Nat}
    (hfix : FRay g i j d (m + 1) = FRay g i j d m) :
    ∀ r, r ≤ m → FRay g i j d (m + 1 + r) = FRay g i j d (m - r) := by
  intro r
  induction r with
  | zero =>
    intro _
    simpa using hfix
  | succ r ih =>
    intro hr
    have hpr := ih (by omega)
    have h1 := fray_pred V hi hj hd (m - r - 1)
    rw [show m - r - 1 + 1 = m - r from by omega] at h1
    rw [show m + 1 + (r + 1) = (m + 1 + r) + 1 from by omega, fray_succ, hpr,
      show m - (r + 1) = m - r - 1 from by omega, ← h1]
    congr 1
    exact genIJ_congr i j (by omega)

theorem ray_reach (hi : i ≤ g.dimension) (hj : j ≤ g.dimension)
    (hhi : Alphas.has a i = true) (hhj : Alphas.has a j = true) :
    ∀ n, reach g a d (FRay g i j d n) := by
  intro n
  induction n with
  | zero => exact reach.refl d
  | succ n ih =>
    rw [fray_succ]
    unfold genIJ
    by_cases hp : n % 2 = 0
    · rw [if_pos hp]
      exact reach.step i ih hi hhi
    · rw [if_neg hp]
      exact reach.step j ih hj hhj

theorem ray_step_i (V : Valid g) (hi : i ≤ g.dimension) (hj : j ≤ g.dimension)
    (hd : d < g.ndarts) :
    ∀ n, ∃ m, g.av (FRay g i j d n) i = FRay g i j d m := by
  intro n
  by_cases hp : n % 2 = 0
  · refine ⟨n + 1, ?_⟩
    rw [fray_succ]
    congr 1
    unfold genIJ
    rw [if_pos hp]
  · refine ⟨n - 1, ?_⟩
    have h1 := fray_pred V hi hj hd (n - 1)
    rw [show n - 1 + 1 = n from by omega] at h1
    rw [← h1]
    congr 1
    unfold genIJ
    rw [if_pos (by omega)]

theorem ray_step_j (V : Valid g) (hi : i ≤ g.dimension) (hj : j ≤ g.dimension)
    (hd : d < g.ndarts) :
    ∀ n, (∃ m, g.av (FRay g i j d n) j = FRay g i j d m) ∨
      g.av (FRay g i j d n) j = FRay g j i d 1 := by
  intro n
  by_cases hp : n % 2 = 0
  · by_cases hn0 : n = 0
    · subst hn0
      right
      show g.av (FRay g i j d 0) j = g.av (FRay g j i d 0) (genIJ j i 0)
      rfl
    · left
      refine ⟨n - 1, ?_⟩
      have h1 := fray_pred V hi hj hd (n - 1)
      rw [show n - 1 + 1 = n from by omega] at h1
      rw [← h1]
      congr 1
      unfold genIJ
      rw [if_neg (by omega)]
  · left
    refine ⟨n + 1, ?_⟩
    rw [fray_succ]
    congr 1
    unfold genIJ
    rw [if_neg hp]

/-- The reach closure of `d` is exactly the union of the two rays. -/
theorem rays_closure (V : Valid g) (hi : i ≤ g.dimension) (hj : j ≤ g.dimension)
    (hhi : Alphas.has a i = true) (hhj : Alphas.has a j = true)
    (honly2 : ∀ k, k ≤ g.dimension → Alphas.has a k = true → k = i ∨ k = j)
    (hd : d < g.ndarts) :
    ∀ e, reach g a d e ↔ ∃ n, e = FRay g i j d n ∨ e = FRay g j i d n := by
  intro e
  constructor
  · intro h
    induction h with
    | refl => exact ⟨0, Or.inl rfl⟩
    | @step e' k hr hk hak ih =>
      obtain ⟨n, hn | hn⟩ := ih
      · subst hn
        rcases honly2 k hk hak with rfl | rfl
        · obtain ⟨m, hm⟩ := ray_step_i V hi hj hd n
          exact ⟨m, Or.inl hm⟩
        · rcases ray_step_j V hi hj hd n with ⟨m, hm⟩ | hm
          · exact ⟨m, Or.inl hm⟩
          · exact ⟨1, Or.inr hm⟩
      · subst hn
        rcases honly2 k hk hak with rfl | rfl
        · rcases ray_step_j V hj hi hd n with ⟨m, hm⟩ | hm
          · exact ⟨m, Or.inr hm⟩
          · exact ⟨1, Or.inl hm⟩
        · obtain ⟨m, hm⟩ := ray_step_i V hj hi hd n
          exact ⟨m, Or.inr hm⟩
  · rintro ⟨n, rfl | rfl⟩
    · exact ray_reach hi hj hhi hhj n
    · exact ray_reach hj hi hhj hhi n

end PathTheory

/-- Walker state during the forward phase at ray position `m`. -/
def stF (m : Nat) : GMap.PathSt := if m % 2 = 0 then .forwardI else .forwardJ

/-- Walker state during the backward phase at backward-ray position `r`. -/
def stB (r : Nat) : GMap.PathSt := if r % 2 = 1 then .backwardI else .backwardJ

section PathWalkTheory

variable {g : GMap} {a : Alphas} {i j d : Nat}

theorem walkStart (st : GMap.PathSt) {fuel : Nat} (h : 1 ≤ fuel) :
    GMap.pathWalk g i j d fuel d st = [] := by
  cases fuel with
  | zero => omega
  | succ f => simp [GMap.pathWalk]

/-- Forward phase ending by first return to the start: the walk yields the
ray positions `m, …, T-1`. -/
theorem walkRet (V : Valid g) (hi : i ≤ g.dimension) (hj : j ≤ g.dimension)
    (hd : d < g.ndarts) :
    ∀ (k m fuel : Nat), 1 ≤ m →
      FRay g i j d (m + k) = d →
      (∀ s, m ≤ s → s < m + k →
        FRay g i j d s ≠ d ∧ FRay g i j d (s + 1) ≠ FRay g i j d s) →
      k + 1 ≤ fuel →
      (GMap.pathWalk g i j d fuel (FRay g i j d m) (stF m)).map Prod.snd =
        (List.range' m k).map (FRay g i j d) := by
  intro k
  induction k with
  | zero =>
    intro m fuel hm hret hno hfuel
    cases fuel with
    | zero => omega
    | succ f =>
      rw [Nat.add_zero] at hret
      simp only [GMap.pathWalk, if_pos hret]
      rfl
  | succ kk ih =>
    intro m fuel hm hret hno hfuel
    cases fuel with
    | zero => omega
    | succ f =>
      have hnd := (hno m le_rfl (by omega)).1
      have hnf := (hno m le_rfl (by omega)).2
      have hih := ih (m + 1) f (by omega)
        (by rw [show m + 1 + kk = m + (kk + 1) from by omega]; exact hret)
        (fun s hs1 hs2 => hno s (by omega) (by omega)) (by omega)
      by_cases hp : m % 2 = 0
      · have hst : stF m = GMap.PathSt.forwardI := by
          unfold stF
          rw [if_pos hp]
        have hnxt : g.av (FRay g i j d m) i = FRay g i j d (m + 1) := by
          rw [fray_succ]
          congr 1
          unfold genIJ
          rw [if_pos hp]
        have hst' : GMap.PathSt.forwardJ = stF (m + 1) := by
          unfold stF
          rw [if_neg (by omega)]
        rw [hst]
        simp only [GMap.pathWalk, if_neg hnd]
        rw [hnxt, if_neg hnf, hst', List.map_cons, hih, List.range'_succ, List.map_cons]
      · have hst : stF m = GMap.PathSt.forwardJ := by
          unfold stF
          rw [if_neg hp]
        have hnxt : g.av (FRay g i j d m) j = FRay g i j d (m + 1) := by
          rw [fray_succ]
          congr 1
          unfold genIJ
          rw [if_neg hp]
        have hst' : GMap.PathSt.forwardI = stF (m + 1) := by
          unfold stF
          rw [if_pos (by omega)]
        rw [hst]
        simp only [GMap.pathWalk, if_neg hnd]
        rw [hnxt, if_neg hnf, hst', List.map_cons, hih, List.range'_succ, List.map_cons]

/-- Forward phase ending at a fixed point: the walk yields ray positions
`m, …, m+k` and then turns around from `alpha_j(start)`. -/
theorem walkFix (V : Valid g) (hi : i ≤ g.dimension) (hj : j ≤ g.dimension)
    (hd : d < g.ndarts) :
    ∀ (k m fuel : Nat), 1 ≤ m →
      FRay g i j d (m + k + 1) = FRay g i j d (m + k) →
      (∀ s, m ≤ s → s ≤ m + k → FRay g i j d s ≠ d) →
      (∀ s, m ≤ s → s < m + k → FRay g i j d (s + 1) ≠ FRay g i j d s) →
      k + 2 ≤ fuel →
      (GMap.pathWalk g i j d fuel (FRay g i j d m) (stF m)).map Prod.snd =
        (List.range' m (k + 1)).map (FRay g i j d) ++
        (GMap.pathWalk g i j d (fuel - (k + 1)) (g.av d j) GMap.PathSt.backwardI).map
          Prod.snd := by
  intro k
  induction k with
  | zero =>
    intro m fuel hm hfix hnd hnf hfuel
    cases fuel with
    | zero => omega
    | succ f =>
      simp only [Nat.add_zero] at hfix
      have hndm := hnd m le_rfl (by omega)
      by_cases hp : m % 2 = 0
      · have hst : stF m = GMap.PathSt.forwardI := by
          unfold stF
          rw [if_pos hp]
        have hnxt : g.av (FRay g i j d m) i = FRay g i j d (m + 1) := by
          rw [fray_succ]
          congr 1
          unfold genIJ
          rw [if_pos hp]
        rw [hst]
        simp only [GMap.pathWalk, if_neg hndm]
        rw [hnxt, if_pos hfix]
        simp only [Nat.zero_add, List.map_cons, List.range'_one, List.map_nil,
          List.singleton_append, show f + 1 - (0 + 1) = f from by omega]
      · have hst : stF m = GMap.PathSt.forwardJ := by
          unfold stF
          rw [if_neg hp]
        have hnxt : g.av (FRay g i j d m) j = FRay g i j d (m + 1) := by
          rw [fray_succ]
          congr 1
          unfold genIJ
          rw [if_neg hp]
        rw [hst]
        simp only [GMap.pathWalk, if_neg hndm]
        rw [hnxt, if_pos hfix]
        simp only [Nat.zero_add, List.map_cons, List.range'_one, List.map_nil,
          List.singleton_append, show f + 1 - (0 + 1) = f from by omega]
  | succ kk ih =>
    intro m fuel hm hfix hnd hnf hfuel
    cases fuel with
    | zero => omega
    | succ f =>
      have hndm := hnd m le_rfl (by omega)
      have hnfm := hnf m le_rfl (by omega)
      have hih := ih (m + 1) f (by omega)
        (by rw [show m + 1 + kk = m + (kk + 1) from by omega]; exact hfix)
        (fun s hs1 hs2 => hnd s (by omega) (by omega))
        (fun s hs1 hs2 => hnf s (by omega) (by omega)) (by omega)
      have hfs : f - (kk + 1) = f + 1 - (kk + 1 + 1) := by omega
      by_cases hp : m % 2 = 0
      · have hst : stF m = GMap.PathSt.forwardI := by
          unfold stF
          rw [if_pos hp]
        have hnxt : g.av (FRay g i j d m) i = FRay g i j d (m + 1) := by
          rw [fray_succ]
          congr 1
          unfold genIJ
          rw [if_pos hp]
        have hst' : GMap.PathSt.forwardJ = stF (m + 1) := by
          unfold stF
          rw [if_neg (by omega)]
        rw [hst]
        simp only [GMap.pathWalk, if_neg hndm]
        rw [hnxt, if_neg hnfm, hst', List.map_cons, hih, hfs]
        simp only [List.range'_succ, List.map_cons, List.cons_append]
      · have hst : stF m = GMap.PathSt.forwardJ := by
          unfold stF
          rw [if_neg hp]
        have hnxt : g.av (FRay g i j d m) j = FRay g i j d (m + 1) := by
          rw [fray_succ]
          congr 1
          unfold genIJ
          rw [if_neg hp]
        have hst' : GMap.PathSt.forwardI = stF (m + 1) := by
          unfold stF
          rw [if_pos (by omega)]
        rw [hst]
        simp only [GMap.pathWalk, if_neg hndm]
        rw [hnxt, if_neg hnfm, hst', List.map_cons, hih, hfs]
        simp only [List.range'_succ, List.map_cons, List.cons_append]

/-- Backward phase ending at a fixed point: the walk yields the backward
ray positions `r, …, r+k` and stops. -/
theorem walkBackFix (V : Valid g) (hi : i ≤ g.dimension) (hj : j ≤ g.dimension)
    (hd : d < g.ndarts) :
    ∀ (k r fuel : Nat), 1 ≤ r →
      FRay g j i d (r + k + 1) = FRay g j i d (r + k) →
      (∀ s, r ≤ s → s ≤ r + k → FRay g j i d s ≠ d) →
      (∀ s, r ≤ s → s < r + k → FRay g j i d (s + 1) ≠ FRay g j i d s) →
      k + 1 ≤ fuel →
      (GMap.pathWalk g i j d fuel (FRay g j i d r) (stB r)).map Prod.snd =
        (List.range' r (k + 1)).map (FRay g j i d) := by
  intro k
  induction k with
  | zero =>
    intro r fuel hr hfix hnd hnf hfuel
    cases fuel with
    | zero => omega
    | succ f =>
      simp only [Nat.add_zero] at hfix
      have hndr := hnd r le_rfl (by omega)
      by_cases hp : r % 2 = 1
      · have hst : stB r = GMap.PathSt.backwardI := by
          unfold stB
          rw [if_pos hp]
        have hnxt : g.av (FRay g j i d r) i = FRay g j i d (r + 1) := by
          rw [fray_succ]
          congr 1
          unfold genIJ
          rw [if_neg (by omega)]
        rw [hst]
        simp only [GMap.pathWalk, if_neg hndr]
        rw [hnxt, if_pos hfix]
        simp only [Nat.zero_add, List.map_cons, List.map_nil, List.range'_one]
      · have hst : stB r = GMap.PathSt.backwardJ := by
          unfold stB
          rw [if_neg hp]
        have hnxt : g.av (FRay g j i d r) j = FRay g j i d (r + 1) := by
          rw [fray_succ]
          congr 1
          unfold genIJ
          rw [if_pos (by omega)]
        rw [hst]
        simp only [GMap.pathWalk, if_neg hndr]
        rw [hnxt, if_pos hfix]
        simp only [Nat.zero_add, List.map_cons, List.map_nil, List.range'_one]
  | succ kk ih =>
    intro r fuel hr hfix hnd hnf hfuel
    cases fuel with
    | zero => omega
    | succ f =>
      have hndr := hnd r le_rfl (by omega)
      have hnfr := hnf r le_rfl (by omega)
      have hih := ih (r + 1) f (by omega)
        (by rw [show r + 1 + kk = r + (kk + 1) from by omega]; exact hfix)
        (fun s hs1 hs2 => hnd s (by omega) (by omega))
        (fun s hs1 hs2 => hnf s (by omega) (by omega)) (by omega)
      by_cases hp : r % 2 = 1
      · have hst : stB r = GMap.PathSt.backwardI := by
          unfold stB
          rw [if_pos hp]
        have hnxt : g.av (FRay g j i d r) i = FRay g j i d (r + 1) := by
          rw [fray_succ]
          congr 1
          unfold genIJ
          rw [if_neg (by omega)]
        have hst' : GMap.PathSt.backwardJ = stB (r + 1) := by
          unfold stB
          rw [if_neg (by omega)]
        rw [hst]
        simp only [GMap.pathWalk, if_neg hndr]
        rw [hnxt, if_neg hnfr, hst', List.map_cons, hih]
        simp only [List.range'_succ, List.map_cons]
      · have hst : stB r = GMap.PathSt.backwardJ := by
          unfold stB
          rw [if_neg hp]
        have hnxt : g.av (FRay g j i d r) j = FRay g j i d (r + 1) := by
          rw [fray_succ]
          congr 1
          unfold genIJ
          rw [if_pos (by omega)]
        have hst' : GMap.PathSt.backwardI = stB (r + 1) := by
          unfold stB
          rw [if_pos (by omega)]
        rw [hst]
        simp only [GMap.pathWalk, if_neg hndr]
        rw [hnxt, if_neg hnfr, hst', List.map_cons, hih]
        simp only [List.range'_succ, List.map_cons]

/-- Everything the walker yields is reachable from the start. -/
theorem pathWalk_sound (hi : i ≤ g.dimension) (hj : j ≤ g.dimension)
    (hhi : Alphas.has a i = true) (hhj : Alphas.has a j = true) :
    ∀ (fuel : Nat) (cur : Dart) (st : GMap.PathSt), reach g a d cur →
      ∀ e, e ∈ (GMap.pathWalk g i j d fuel cur st).map Prod.snd →
        reach g a d e := by
  intro fuel
  induction fuel with
  | zero =>
    intro cur st hcur e he
    simp [GMap.pathWalk] at he
  | succ f ihf =>
    intro cur st hcur e he
    by_cases hcs : cur = d
    · simp only [GMap.pathWalk, if_pos hcs] at he
      simp at he
    · cases st with
      | forwardI =>
        simp only [GMap.pathWalk, if_neg hcs] at he
        by_cases hfx : g.av cur i = cur
        · rw [if_pos hfx] at he
          simp only [List.map_cons, List.mem_cons] at he
          rcases he with rfl | he
          · exact hcur
          · exact ihf _ _ (reach.step j (reach.refl d) hj hhj) e he
        · rw [if_neg hfx] at he
          simp only [List.map_cons, List.mem_cons] at he
          rcases he with rfl | he
          · exact hcur
          · exact ihf _ _ (reach.step i hcur hi hhi) e he
      | forwardJ =>
        simp only [GMap.pathWalk, if_neg hcs] at he
        by_cases hfx : g.av cur j = cur
        · rw [if_pos hfx] at he
          simp only [List.map_cons, List.mem_cons] at he
          rcases he with rfl | he
          · exact hcur
          · exact ihf _ _ (reach.step j (reach.refl d) hj hhj) e he
        · rw [if_neg hfx] at he
          simp only [List.map_cons, List.mem_cons] at he
          rcases he with rfl | he
          · exact hcur
          · exact ihf _ _ (reach.step j hcur hj hhj) e he
      | backwardI =>
        simp only [GMap.pathWalk, if_neg hcs] at he
        by_cases hfx : g.av cur i = cur
        · rw [if_pos hfx] at he
          simp only [List.map_cons, List.map_nil, List.mem_singleton] at he
          subst he
          exact hcur
        · rw [if_neg hfx] at he
          simp only [List.map_cons, List.mem_cons] at he
          rcases he with rfl | he
          · exact hcur
          · exact ihf _ _ (reach.step i hcur hi hhi) e he
      | backwardJ =>
        simp only [GMap.pathWalk, if_neg hcs] at he
        by_cases hfx : g.av cur j = cur
        · rw [if_pos hfx] at he
          simp only [List.map_cons, List.map_nil, List.mem_singleton] at he
          subst he
          exact hcur
        · rw [if_neg hfx] at he
          simp only [List.map_cons, List.mem_cons] at he
          rcases he with rfl | he
          · exact hcur
          · exact ihf _ _ (reach.step j hcur hj hhj) e he

theorem minimalEvent (V : Valid g) (hi : i ≤ g.dimension) (hj : j ≤ g.dimension)
    (hd : d < g.ndarts) :
    ∃ N, 1 ≤ N ∧ N ≤ g.ndarts ∧
      (∀ s, 1 ≤ s → s < N →
        ¬(FRay g i j d s = d ∨ FRay g i j d (s + 1) = FRay g i j d s)) ∧
      (FRay g i j d N = d ∨ FRay g i j d (N + 1) = FRay g i j d N) := by
  obtain ⟨n, hn1, hnN, hev⟩ := fray_pigeon V hi hj hd
  have hex : ∃ m, 1 ≤ m ∧
      (FRay g i j d m = d ∨ FRay g i j d (m + 1) = FRay g i j d m) := ⟨n, hn1, hev⟩
  refine ⟨Nat.find hex, (Nat.find_spec hex).1, ?_, ?_, (Nat.find_spec hex).2⟩
  · exact le_trans (Nat.find_min' hex ⟨hn1, hev⟩) hnN
  · intro s hs1 hsN hcon
    exact (Nat.find_min hex hsN) ⟨hs1, hcon⟩

theorem returnEven (V : Valid g) (hi : i ≤ g.dimension) (hj : j ≤ g.dimension)
    (hd : d < g.ndarts) {N : Nat} (hN1 : 1 ≤ N)
    (hmin : ∀ s, 1 ≤ s → s < N →
      ¬(FRay g i j d s = d ∨ FRay g i j d (s + 1) = FRay g i j d s))
    (hret : FRay g i j d N = d) (hstart : FRay g i j d 1 ≠ d) : N % 2 = 0 := by
  by_contra hodd
  by_cases hN1' : N = 1
  · exact hstart (hN1' ▸ hret)
  · have h0N : FRay g i j d 0 = FRay g i j d N :=
      (rfl : FRay g i j d 0 = d).trans hret.symm
    obtain ⟨m, hm1, hm2, hm3⟩ := fray_fix V hi hj hd N 0 N rfl h0N (by omega) (by omega)
    rcases Nat.eq_zero_or_pos m with rfl | hm0
    · exact hstart (hm3.trans rfl)
    · exact hmin m hm0 hm2 (Or.inr hm3)

theorem windowDistinct (V : Valid g) (hi : i ≤ g.dimension) (hj : j ≤ g.dimension)
    (hd : d < g.ndarts) {N : Nat}
    (hmin : ∀ s, 1 ≤ s → s < N →
      ¬(FRay g i j d s = d ∨ FRay g i j d (s + 1) = FRay g i j d s)) :
    ∀ s t, 1 ≤ s → s < t → t ≤ N → FRay g i j d s ≠ FRay g i j d t := by
  intro s t hs hst htN hcon
  by_cases hp : s % 2 = t % 2
  · have hr := fray_return V hi hj hd s t hcon hp (by omega)
    exact hmin (t - s) (by omega) (by omega) (Or.inl hr)
  · obtain ⟨m, hm1, hm2, hm3⟩ := fray_fix V hi hj hd (t - s) s t rfl hcon (by omega) hp
    exact hmin m (by omega) (by omega) (Or.inr hm3)

theorem crossDistinct (V : Valid g) (hi : i ≤ g.dimension) (hj : j ≤ g.dimension)
    (hd : d < g.ndarts) {N M : Nat}
    (hFd : ∀ s, 1 ≤ s → s ≤ N → FRay g i j d s ≠ d)
    (hBd : ∀ s, 1 ≤ s → s ≤ M → FRay g j i d s ≠ d)
    (hfixB : FRay g j i d (M + 1) = FRay g j i d M) :
    ∀ s, 1 ≤ s → s ≤ N → ∀ t, 1 ≤ t → t ≤ M →
      FRay g i j d s ≠ FRay g j i d t := by
  intro s
  induction s using Nat.strong_induction_on with
  | _ s ihs =>
    intro hs1 hsN t ht1 htM hcon
    by_cases hp : s % 2 = t % 2
    · have hstep := fray_cross_desc (i := j) (j := i) V hj hi hd hcon hp hs1
      have hnext : ∃ t2, 1 ≤ t2 ∧ t2 ≤ M ∧
          FRay g i j d (s - 1) = FRay g j i d t2 := by
        by_cases ht' : t + 1 ≤ M
        · exact ⟨t + 1, by omega, ht', hstep⟩
        · have htm : t = M := by omega
          refine ⟨t, by omega, by omega, ?_⟩
          have hfixB' : FRay g j i d (t + 1) = FRay g j i d t := by
            rw [htm]
            exact hfixB
          exact hstep.trans hfixB'
      obtain ⟨t2, ht2a, ht2b, hcon2⟩ := hnext
      by_cases hs1' : s = 1
      · subst hs1'
        exact hBd t2 ht2a ht2b (hcon2.symm.trans rfl)
      · exact ihs (s - 1) (by omega) (by omega) (by omega) t2 ht2a ht2b hcon2
    · have hstep := fray_cross_desc2 V hi hj hd hcon hp hs1 ht1
      by_cases hs1' : s = 1
      · by_cases ht1' : t = 1
        · subst hs1'
          subst ht1'
          exact hp rfl
        · subst hs1'
          exact hBd (t - 1) (by omega) (by omega) (hstep.symm.trans rfl)
      · by_cases ht1' : t = 1
        · subst ht1'
          exact hFd (s - 1) (by omega) (by omega) (hstep.trans rfl)
        · exact ihs (s - 1) (by omega) (by omega) (by omega) (t - 1) (by omega)
            (by omega) hstep

/-- Completeness of the `PathOrbit` walker: every point of either ray is
among the yielded darts. -/
theorem pathOrbit_complete (V : Valid g) (hi : i ≤ g.dimension)
    (hj : j ≤ g.dimension) (hd : d < g.ndarts) :
    ∀ n, FRay g i j d n ∈ (GMap.pathOrbit g i j d).map Prod.snd ∧
      FRay g j i d n ∈ (GMap.pathOrbit g i j d).map Prod.snd := by
  have hpf : 1 ≤ GMap.pathFuel g := by
    unfold GMap.pathFuel
    omega
  by_cases hc0 : g.av d i = d
  · -- The start is `i`-free: the walker explores only the backward ray.
    have hO : GMap.pathOrbit g i j d = (none, d) ::
        GMap.pathWalk g i j d (GMap.pathFuel g) (g.av d j) GMap.PathSt.backwardI := by
      unfold GMap.pathOrbit
      rw [if_pos hc0]
    by_cases hb1 : g.av d j = d
    · -- isolated dart
      have hY : (GMap.pathOrbit g i j d).map Prod.snd = [d] := by
        rw [hO, hb1, walkStart _ hpf]
        rfl
      have hF : ∀ n, FRay g i j d n = d := by
        intro n
        induction n with
        | zero => rfl
        | succ n ihn =>
          rw [fray_succ, ihn]
          unfold genIJ
          split
          · exact hc0
          · exact hb1
      have hB : ∀ n, FRay g j i d n = d := by
        intro n
        induction n with
        | zero => rfl
        | succ n ihn =>
          rw [fray_succ, ihn]
          unfold genIJ
          split
          · exact hb1
          · exact hc0
      intro n
      rw [hY, hF n, hB n]
      exact ⟨by simp, by simp⟩
    · -- backward ray proper: minimal event is a fixed point
      have hB1 : FRay g j i d 1 = g.av d j := rfl
      obtain ⟨M, hM1, hMN, hMmin, hMev⟩ := minimalEvent (i := j) (j := i) V hj hi hd
      have hMnd : FRay g j i d M ≠ d := by
        intro hcon
        by_cases hM1' : M = 1
        · exact hb1 (hB1 ▸ (hM1' ▸ hcon))
        · have hM2 : 2 ≤ M := by omega
          have hpred := fray_pred (i := j) (j := i) V hj hi hd (M - 1)
          rw [show M - 1 + 1 = M from by omega, hcon] at hpred
          by_cases hpar : M % 2 = 0
          · have hbm : FRay g j i d (M - 1) = d := by
              rw [← hpred]
              unfold genIJ
              rw [if_neg (by omega)]
              exact hc0
            exact hMmin (M - 1) (by omega) (by omega) (Or.inl hbm)
          · have hbm : FRay g j i d 1 = FRay g j i d (M - 1) := by
              rw [← hpred]
              unfold genIJ
              rw [if_pos (by omega)]
              exact hB1
            have hM3 : 3 ≤ M := by omega
            obtain ⟨m, hm1, hm2, hm3⟩ := fray_fix (i := j) (j := i) V hj hi hd
              (M - 1 - 1) 1 (M - 1) rfl hbm (by omega) (by omega)
            exact hMmin m (by omega) (by omega) (Or.inr hm3)
      have hfixM : FRay g j i d (M + 1) = FRay g j i d M := hMev.resolve_left hMnd
      have hBnd : ∀ s, 1 ≤ s → s ≤ M → FRay g j i d s ≠ d := by
        intro s hs1 hsM hcon
        rcases Nat.lt_or_ge s M with h | h
        · exact hMmin s hs1 h (Or.inl hcon)
        · have hsm : s = M := by omega
          exact hMnd (hsm ▸ hcon)
      have hBnf : ∀ s, 1 ≤ s → s < M →
          FRay g j i d (s + 1) ≠ FRay g j i d s :=
        fun s hs1 hsM hcon => hMmin s hs1 hsM (Or.inr hcon)
      have hwalk := walkBackFix V hi hj hd (M - 1) 1 (GMap.pathFuel g) le_rfl
        (by rw [show 1 + (M - 1) = M from by omega]; exact hfixM)
        (fun s hs1 hs2 => hBnd s hs1 (by omega))
        (fun s hs1 hs2 => hBnf s hs1 (by omega))
        (by unfold GMap.pathFuel; omega)
      have hstB1 : stB 1 = GMap.PathSt.backwardI := by
        unfold stB
        norm_num
      have hY : (GMap.pathOrbit g i j d).map Prod.snd =
          d :: (List.range' 1 M).map (FRay g j i d) := by
        rw [hO, List.map_cons, ← hB1, ← hstB1, hwalk,
          show M - 1 + 1 = M from by omega]
      have hrefl := fray_reflect (i := j) (j := i) V hj hi hd hfixM
      have hret2 : FRay g j i d (2 * M + 1) = d := by
        have h := hrefl M le_rfl
        rw [show M + 1 + M = 2 * M + 1 from by omega, Nat.sub_self] at h
        exact h
      have hper : ∀ r, FRay g j i d (2 * M + 2 + r) = FRay g j i d r := by
        have h2 : FRay g j i d (2 * M + 2) = FRay g j i d 0 := by
          rw [show 2 * M + 2 = (2 * M + 1) + 1 from by omega, fray_succ, hret2]
          show g.av d (genIJ j i (2 * M + 1)) = FRay g j i d 0
          unfold genIJ
          rw [if_neg (by omega)]
          exact hc0
        intro r
        have h3 := fray_shift (g := g) (i := j) (j := i) (d := d) h2 (by omega) r
        simpa using h3
      have hwinB : ∀ n, ∃ m, m ≤ M ∧ FRay g j i d n = FRay g j i d m := by
        intro n
        induction n using Nat.strong_induction_on with
        | _ n ihn =>
          by_cases h1 : n ≤ M
          · exact ⟨n, h1, rfl⟩
          by_cases h2 : n ≤ 2 * M + 1
          · refine ⟨M - (n - M - 1), by omega, ?_⟩
            have h := hrefl (n - M - 1) (by omega)
            rw [show M + 1 + (n - M - 1) = n from by omega] at h
            exact h
          · obtain ⟨m, hm, heq⟩ := ihn (n - (2 * M + 2)) (by omega)
            refine ⟨m, hm, ?_⟩
            have h := hper (n - (2 * M + 2))
            rw [show 2 * M + 2 + (n - (2 * M + 2)) = n from by omega] at h
            exact h.trans heq
      have hmemB : ∀ n, FRay g j i d n ∈ (GMap.pathOrbit g i j d).map Prod.snd := by
        intro n
        obtain ⟨m, hmM, heq⟩ := hwinB n
        rw [hY, heq]
        rcases Nat.eq_zero_or_pos m with rfl | hm0
        · exact List.mem_cons_self _ _
        · exact List.mem_cons_of_mem _
            (List.mem_map.mpr ⟨m, List.mem_range'_1.mpr ⟨hm0, by omega⟩, rfl⟩)
      intro n
      refine ⟨?_, hmemB n⟩
      rcases Nat.eq_zero_or_pos n with rfl | hn0
      · rw [hY]
        exact List.mem_cons_self _ _
      · have hF1 : FRay g i j d 1 = FRay g j i d 0 := by
          show g.av d (genIJ i j 0) = FRay g j i d 0
          unfold genIJ
          rw [if_pos rfl]
          exact hc0
        have hcross : FRay g i j d n = FRay g j i d (n - 1) := by
          have h := fray_cross_shift (g := g) hF1 (by omega) (n - 1)
          rw [show 1 + (n - 1) = n from by omega] at h
          simpa using h
        rw [hcross]
        exact hmemB (n - 1)
  · -- The forward ray is nontrivial.
    have hO : GMap.pathOrbit g i j d = (none, d) ::
        GMap.pathWalk g i j d (GMap.pathFuel g) (g.av d i) GMap.PathSt.forwardJ := by
      unfold GMap.pathOrbit
      rw [if_neg hc0]
    have hF1 : FRay g i j d 1 = g.av d i := rfl
    have hF1d : FRay g i j d 1 ≠ d := by
      rw [hF1]
      exact hc0
    obtain ⟨N, hN1, hNN, hNmin, hNev⟩ := minimalEvent V hi hj hd
    have hstF1 : stF 1 = GMap.PathSt.forwardJ := by
      unfold stF
      norm_num
    by_cases hNret : FRay g i j d N = d
    · -- first event is the return to the start
      have hNeven : N % 2 = 0 := returnEven V hi hj hd hN1 hNmin hNret hF1d
      have hN2 : 2 ≤ N := by omega
      have hwalk := walkRet V hi hj hd (N - 1) 1 (GMap.pathFuel g) le_rfl
        (by rw [show 1 + (N - 1) = N from by omega]; exact hNret)
        (fun s hs1 hs2 =>
          ⟨fun hc => hNmin s hs1 (by omega) (Or.inl hc),
           fun hc => hNmin s hs1 (by omega) (Or.inr hc)⟩)
        (by unfold GMap.pathFuel; omega)
      have hY : (GMap.pathOrbit g i j d).map Prod.snd =
          d :: (List.range' 1 (N - 1)).map (FRay g i j d) := by
        rw [hO, List.map_cons, ← hF1, ← hstF1, hwalk]
      have hperF : ∀ r, FRay g i j d (N + r) = FRay g i j d r := by
        have h2 : FRay g i j d N = FRay g i j d 0 := hNret
        intro r
        simpa using fray_shift h2 (by omega) r
      have hwinF : ∀ n, ∃ m, m < N ∧ FRay g i j d n = FRay g i j d m := by
        intro n
        induction n using Nat.strong_induction_on with
        | _ n ihn =>
          by_cases h1 : n < N
          · exact ⟨n, h1, rfl⟩
          · obtain ⟨m, hm, heq⟩ := ihn (n - N) (by omega)
            refine ⟨m, hm, ?_⟩
            have h := hperF (n - N)
            rw [show N + (n - N) = n from by omega] at h
            exact h.trans heq
      have hmemF : ∀ n, FRay g i j d n ∈ (GMap.pathOrbit g i j d).map Prod.snd := by
        intro n
        obtain ⟨m, hmN, heq⟩ := hwinF n
        rw [hY, heq]
        rcases Nat.eq_zero_or_pos m with rfl | hm0
        · exact List.mem_cons_self _ _
        · exact List.mem_cons_of_mem _
            (List.mem_map.mpr ⟨m, List.mem_range'_1.mpr ⟨hm0, by omega⟩, rfl⟩)
      have hBtoF : ∀ r, r ≤ N → FRay g j i d r = FRay g i j d (N - r) := by
        intro r
        induction r with
        | zero =>
          intro _
          rw [Nat.sub_zero]
          exact hNret.symm
        | succ r ihr =>
          intro hr
          have h1 := fray_pred V hi hj hd (N - r - 1)
          rw [show N - r - 1 + 1 = N - r from by omega] at h1
          rw [fray_succ, ihr (by omega), show N - (r + 1) = N - r - 1 from by omega,
            ← h1]
          congr 1
          exact genIJ_cross (i := j) (j := i) (by omega)
      intro n
      refine ⟨hmemF n, ?_⟩
      have hperB : ∀ r, FRay g j i d (N + r) = FRay g j i d r := by
        have hBN : FRay g j i d N = FRay g j i d 0 := by
          have h := hBtoF N le_rfl
          rw [Nat.sub_self] at h
          exact h
        intro r
        simpa using fray_shift (i := j) (j := i) hBN (by omega) r
      have hwinB : ∀ n2, ∃ m, m ≤ N ∧ FRay g j i d n2 = FRay g j i d m := by
        intro n2
        induction n2 using Nat.strong_induction_on with
        | _ n2 ihn =>
          by_cases h1 : n2 ≤ N
          · exact ⟨n2, h1, rfl⟩
          · obtain ⟨m, hm, heq⟩ := ihn (n2 - N) (by omega)
            refine ⟨m, hm, ?_⟩
            have h := hperB (n2 - N)
            rw [show N + (n2 - N) = n2 from by omega] at h
            exact h.trans heq
      obtain ⟨m, hmN, heq⟩ := hwinB n
      rw [heq, hBtoF m hmN]
      exact hmemF (N - m)
    · -- first event is a fixed point on the forward ray
      have hfixN : FRay g i j d (N + 1) = FRay g i j d N := hNev.resolve_left hNret
      have hFnd : ∀ s, 1 ≤ s → s ≤ N → FRay g i j d s ≠ d := by
        intro s hs1 hsN hcon
        rcases Nat.lt_or_ge s N with h | h
        · exact hNmin s hs1 h (Or.inl hcon)
        · have hsn : s = N := by omega
          exact hNret (hsn ▸ hcon)
      have hFnf : ∀ s, 1 ≤ s → s < N →
          FRay g i j d (s + 1) ≠ FRay g i j d s :=
        fun s hs1 hsN hcon => hNmin s hs1 hsN (Or.inr hcon)
      have hwalkF := walkFix V hi hj hd (N - 1) 1 (GMap.pathFuel g) le_rfl
        (by rw [show 1 + (N - 1) = N from by omega]; exact hfixN)
        (fun s hs1 hs2 => hFnd s hs1 (by omega))
        (fun s hs1 hs2 => hFnf s hs1 (by omega))
        (by unfold GMap.pathFuel; omega)
      have hObig : (GMap.pathOrbit g i j d).map Prod.snd =
          d :: ((List.range' 1 N).map (FRay g i j d) ++
            (GMap.pathWalk g i j d (GMap.pathFuel g - N) (g.av d j)
              GMap.PathSt.backwardI).map Prod.snd) := by
        rw [hO, List.map_cons, ← hF1, ← hstF1, hwalkF,
          show N - 1 + 1 = N from by omega]
      have hreflF := fray_reflect V hi hj hd hfixN
      have hretF : FRay g i j d (2 * N + 1) = d := by
        have h := hreflF N le_rfl
        rw [show N + 1 + N = 2 * N + 1 from by omega, Nat.sub_self] at h
        exact h
      by_cases hb1 : g.av d j = d
      · -- the start is `j`-free: no backward phase
        have hY : (GMap.pathOrbit g i j d).map Prod.snd =
            d :: (List.range' 1 N).map (FRay g i j d) := by
          rw [hObig, hb1, walkStart _ (show 1 ≤ GMap.pathFuel g - N from by
            unfold GMap.pathFuel; omega)]
          simp
        have hperF : ∀ r, FRay g i j d (2 * N + 2 + r) = FRay g i j d r := by
          have h2 : FRay g i j d (2 * N + 2) = FRay g i j d 0 := by
            rw [show 2 * N + 2 = (2 * N + 1) + 1 from by omega, fray_succ, hretF]
            show g.av d (genIJ i j (2 * N + 1)) = FRay g i j d 0
            unfold genIJ
            rw [if_neg (by omega)]
            exact hb1
          intro r
          simpa using fray_shift h2 (by omega) r
        have hwinF : ∀ n, ∃ m, m ≤ N ∧ FRay g i j d n = FRay g i j d m := by
          intro n
          induction n using Nat.strong_induction_on with
          | _ n ihn =>
            by_cases h1 : n ≤ N
            · exact ⟨n, h1, rfl⟩
            by_cases h2 : n ≤ 2 * N + 1
            · refine ⟨N - (n - N - 1), by omega, ?_⟩
              have h := hreflF (n - N - 1) (by omega)
              rw [show N + 1 + (n - N - 1) = n from by omega] at h
              exact h
            · obtain ⟨m, hm, heq⟩ := ihn (n - (2 * N + 2)) (by omega)
              refine ⟨m, hm, ?_⟩
              have h := hperF (n - (2 * N + 2))
              rw [show 2 * N + 2 + (n - (2 * N + 2)) = n from by omega] at h
              exact h.trans heq
        have hmemF : ∀ n, FRay g i j d n ∈ (GMap.pathOrbit g i j d).map Prod.snd := by
          intro n
          obtain ⟨m, hmN, heq⟩ := hwinF n
          rw [hY, heq]
          rcases Nat.eq_zero_or_pos m with rfl | hm0
          · exact List.mem_cons_self _ _
          · exact List.mem_cons_of_mem _
              (List.mem_map.mpr ⟨m, List.mem_range'_1.mpr ⟨hm0, by omega⟩, rfl⟩)
        intro n
        refine ⟨hmemF n, ?_⟩
        rcases Nat.eq_zero_or_pos n with rfl | hn0
        · rw [hY]
          exact List.mem_cons_self _ _
        · have hB1F : FRay g j i d 1 = FRay g i j d 0 := by
            show g.av d (genIJ j i 0) = FRay g i j d 0
            unfold genIJ
            rw [if_pos rfl]
            exact hb1
          have hcross : FRay g j i d n = FRay g i j d (n - 1) := by
            have h := fray_cross_shift (i := j) (j := i) hB1F (by omega) (n - 1)
            rw [show 1 + (n - 1) = n from by omega] at h
            simpa using h
          rw [hcross]
          exact hmemF (n - 1)
      · -- both phases are nontrivial
        have hB1 : FRay g j i d 1 = g.av d j := rfl
        obtain ⟨M, hM1, hMM, hMmin, hMev⟩ := minimalEvent (i := j) (j := i) V hj hi hd
        have hMnd : FRay g j i d M ≠ d := by
          intro hcon
          by_cases hM1' : M = 1
          · exact hb1 (hB1 ▸ (hM1' ▸ hcon))
          · have hM2 : 2 ≤ M := by omega
            have hpred := fray_pred (i := j) (j := i) V hj hi hd (M - 1)
            rw [show M - 1 + 1 = M from by omega, hcon] at hpred
            by_cases hpar : M % 2 = 0
            · -- descending chain into the forward ray
              have hbm : FRay g j i d (M - 1) = FRay g i j d 1 := by
                rw [← hpred]
                unfold genIJ
                rw [if_neg (by omega)]
                exact hF1.symm
              have hchain : ∀ r, r ≤ M - 1 →
                  FRay g j i d (M - 1 - r) = FRay g i j d (1 + r) := by
                intro r
                induction r with
                | zero =>
                  intro _
                  simpa using hbm
                | succ r ihr =>
                  intro hrr
                  have hprev := ihr (by omega)
                  have hcd := fray_cross_desc V hi hj hd hprev (by omega) (by omega)
                  rwa [show M - 1 - r - 1 = M - 1 - (r + 1) from by omega,
                    show 1 + r + 1 = 1 + (r + 1) from by omega] at hcd
              by_cases hMN' : M ≤ N
              · have h := hchain (M - 1) le_rfl
                rw [Nat.sub_self, show 1 + (M - 1) = M from by omega] at h
                exact hFnd M (by omega) hMN' (h.symm.trans rfl)
              · have hr1 := hchain N (by omega)
                have hr2 := hchain (N - 1) (by omega)
                rw [show 1 + N = N + 1 from by omega, hfixN] at hr1
                rw [show 1 + (N - 1) = N from by omega] at hr2
                rcases Nat.eq_zero_or_pos (M - 1 - N) with hz | hpos
                · rw [hz] at hr1
                  exact hNret (hr1.symm.trans rfl)
                · have hco : FRay g j i d ((M - 1 - N) + 1) = FRay g j i d (M - 1 - N) := by
                    rw [show (M - 1 - N) + 1 = M - 1 - (N - 1) from by omega]
                    exact hr2.trans hr1.symm
                  exact hMmin (M - 1 - N) hpos (by omega) (Or.inr hco)
            · have hbm : FRay g j i d 1 = FRay g j i d (M - 1) := by
                rw [← hpred]
                unfold genIJ
                rw [if_pos (by omega)]
                exact hB1
              have hM3 : 3 ≤ M := by omega
              obtain ⟨m, hm1, hm2, hm3⟩ := fray_fix (i := j) (j := i) V hj hi hd
                (M - 1 - 1) 1 (M - 1) rfl hbm (by omega) (by omega)
              exact hMmin m (by omega) (by omega) (Or.inr hm3)
        have hfixM : FRay g j i d (M + 1) = FRay g j i d M := hMev.resolve_left hMnd
        have hBnd : ∀ s, 1 ≤ s → s ≤ M → FRay g j i d s ≠ d := by
          intro s hs1 hsM hcon
          rcases Nat.lt_or_ge s M with h | h
          · exact hMmin s hs1 h (Or.inl hcon)
          · have hsm : s = M := by omega
            exact hMnd (hsm ▸ hcon)
        have hBnf : ∀ s, 1 ≤ s → s < M →
            FRay g j i d (s + 1) ≠ FRay g j i d s :=
          fun s hs1 hsM hcon => hMmin s hs1 hsM (Or.inr hcon)
        -- cardinality: the two windows and the start are pairwise distinct
        have hFdist := windowDistinct V hi hj hd hNmin
        have hBdist := windowDistinct (i := j) (j := i) V hj hi hd hMmin
        have hcross := crossDistinct V hi hj hd hFnd hBnd hfixM
        have hsize : 1 + N + M ≤ g.ndarts := by
          have hnds : (d :: ((List.range' 1 N).map (FRay g i j d) ++
              (List.range' 1 M).map (FRay g j i d))).Nodup := by
            rw [List.nodup_cons, List.nodup_append]
            refine ⟨?_, ?_, ?_, ?_⟩
            · intro hc
              rcases List.mem_append.mp hc with hc' | hc'
              · obtain ⟨m, hmm, hme⟩ := List.mem_map.mp hc'
                have hmr := List.mem_range'_1.mp hmm
                exact hFnd m hmr.1 (by omega) hme
              · obtain ⟨m, hmm, hme⟩ := List.mem_map.mp hc'
                have hmr := List.mem_range'_1.mp hmm
                exact hBnd m hmr.1 (by omega) hme
            · refine List.Nodup.map_on ?_ ?_
              · intro x hx y hy hxy
                by_contra hne
                have hxr := List.mem_range'_1.mp hx
                have hyr := List.mem_range'_1.mp hy
                rcases Nat.lt_or_ge x y with h | h
                · exact hFdist x y hxr.1 h (by omega) hxy
                · have h' : y < x := by omega
                  exact hFdist y x hyr.1 h' (by omega) hxy.symm
              · exact (List.nodup_range' ..)
            · refine List.Nodup.map_on ?_ ?_
              · intro x hx y hy hxy
                by_contra hne
                have hxr := List.mem_range'_1.mp hx
                have hyr := List.mem_range'_1.mp hy
                rcases Nat.lt_or_ge x y with h | h
                · exact hBdist x y hxr.1 h (by omega) hxy
                · have h' : y < x := by omega
                  exact hBdist y x hyr.1 h' (by omega) hxy.symm
              · exact (List.nodup_range' ..)
            · intro x hxF hxB
              obtain ⟨mx, hmx, hmex⟩ := List.mem_map.mp hxF
              obtain ⟨my, hmy, hmey⟩ := List.mem_map.mp hxB
              have hmxr := List.mem_range'_1.mp hmx
              have hmyr := List.mem_range'_1.mp hmy
              exact hcross mx hmxr.1 (by omega) my hmyr.1 (by omega)
                (hmex.trans hmey.symm)
          have hlt : ∀ x ∈ (d :: ((List.range' 1 N).map (FRay g i j d) ++
              (List.range' 1 M).map (FRay g j i d))), x < g.ndarts := by
            intro x hx
            rcases List.mem_cons.mp hx with rfl | hx'
            · exact hd
            rcases List.mem_append.mp hx' with hc' | hc'
            · obtain ⟨m, hmm, hme⟩ := List.mem_map.mp hc'
              rw [← hme]
              exact fray_lt V hi hj hd m
            · obtain ⟨m, hmm, hme⟩ := List.mem_map.mp hc'
              rw [← hme]
              exact fray_lt V hj hi hd m
          have hlen := nodup_length_le hnds hlt
          simp [List.length_append] at hlen
          omega
        have hwalkB := walkBackFix V hi hj hd (M - 1) 1 (GMap.pathFuel g - N) le_rfl
          (by rw [show 1 + (M - 1) = M from by omega]; exact hfixM)
          (fun s hs1 hs2 => hBnd s hs1 (by omega))
          (fun s hs1 hs2 => hBnf s hs1 (by omega))
          (by unfold GMap.pathFuel; omega)
        have hstB1 : stB 1 = GMap.PathSt.backwardI := by
          unfold stB
          norm_num
        have hY : (GMap.pathOrbit g i j d).map Prod.snd =
            d :: ((List.range' 1 N).map (FRay g i j d) ++
              (List.range' 1 M).map (FRay g j i d)) := by
          rw [hObig, ← hB1, ← hstB1, hwalkB, show M - 1 + 1 = M from by omega]
        have hFmem : ∀ m, m ≤ N →
            FRay g i j d m ∈ (GMap.pathOrbit g i j d).map Prod.snd := by
          intro m hm
          rw [hY]
          rcases Nat.eq_zero_or_pos m with rfl | hm0
          · exact List.mem_cons_self _ _
          · exact List.mem_cons_of_mem _ (List.mem_append.mpr (Or.inl
              (List.mem_map.mpr ⟨m, List.mem_range'_1.mpr ⟨hm0, by omega⟩, rfl⟩)))
        have hBmem : ∀ m, m ≤ M →
            FRay g j i d m ∈ (GMap.pathOrbit g i j d).map Prod.snd := by
          intro m hm
          rw [hY]
          rcases Nat.eq_zero_or_pos m with rfl | hm0
          · exact List.mem_cons_self _ _
          · exact List.mem_cons_of_mem _ (List.mem_append.mpr (Or.inr
              (List.mem_map.mpr ⟨m, List.mem_range'_1.mpr ⟨hm0, by omega⟩, rfl⟩)))
        have hFtoB : ∀ r, FRay g i j d (2 * N + 2 + r) = FRay g j i d (1 + r) := by
          have h2 : FRay g i j d (2 * N + 2) = FRay g j i d 1 := by
            rw [show 2 * N + 2 = (2 * N + 1) + 1 from by omega, fray_succ, hretF]
            show g.av d (genIJ i j (2 * N + 1)) = FRay g j i d 1
            unfold genIJ
            rw [if_neg (by omega)]
            exact hB1.symm
          intro r
          exact fray_cross_shift h2 (by omega) r
        have hreflB := fray_reflect (i := j) (j := i) V hj hi hd hfixM
        have hretB : FRay g j i d (2 * M + 1) = d := by
          have h := hreflB M le_rfl
          rw [show M + 1 + M = 2 * M + 1 from by omega, Nat.sub_self] at h
          exact h
        have hBtoF : ∀ r, FRay g j i d (2 * M + 2 + r) = FRay g i j d (1 + r) := by
          have h2 : FRay g j i d (2 * M + 2) = FRay g i j d 1 := by
            rw [show 2 * M + 2 = (2 * M + 1) + 1 from by omega, fray_succ, hretB]
            show g.av d (genIJ j i (2 * M + 1)) = FRay g i j d 1
            unfold genIJ
            rw [if_neg (by omega)]
            exact hF1.symm
          intro r
          exact fray_cross_shift (i := j) (j := i) h2 (by omega) r
        intro n
        induction n using Nat.strong_induction_on with
        | _ n ihn =>
          constructor
          · by_cases h1 : n ≤ N
            · exact hFmem n h1
            by_cases h2 : n ≤ 2 * N + 1
            · have h := hreflF (n - N - 1) (by omega)
              rw [show N + 1 + (n - N - 1) = n from by omega] at h
              rw [h]
              exact hFmem (N - (n - N - 1)) (by omega)
            · have h := hFtoB (n - (2 * N + 2))
              rw [show 2 * N + 2 + (n - (2 * N + 2)) = n from by omega] at h
              rw [h]
              exact (ihn (1 + (n - (2 * N + 2))) (by omega)).2
          · by_cases h1 : n ≤ M
            · exact hBmem n h1
            by_cases h2 : n ≤ 2 * M + 1
            · have h := hreflB (n - M - 1) (by omega)
              rw [show M + 1 + (n - M - 1) = n from by omega] at h
              rw [h]
              exact hBmem (M - (n - M - 1)) (by omega)
            · have h := hBtoF (n - (2 * M + 2))
              rw [show 2 * M + 2 + (n - (2 * M + 2)) = n from by omega] at h
              rw [h]
              exact (ihn (1 + (n - (2 * M + 2))) (by omega)).1

/-- The `PathOrbit` enumeration equals the reach closure for a mask whose
in-range indices are exactly `i` and `j`. -/
theorem pathOrbit_iff (V : Valid g) (hi : i ≤ g.dimension) (hj : j ≤ g.dimension)
    (hhi : Alphas.has a i = true) (hhj : Alphas.has a j = true)
    (honly2 : ∀ k, k ≤ g.dimension → Alphas.has a k = true → k = i ∨ k = j)
    (hd : d < g.ndarts) (e : Dart) :
    e ∈ (GMap.pathOrbit g i j d).map Prod.snd ↔ reach g a d e := by
  constructor
  · intro he
    simp only [GMap.pathOrbit] at he
    by_cases hc0 : g.av d i = d
    · rw [if_pos hc0] at he
      simp only [List.map_cons, List.mem_cons] at he
      rcases he with rfl | he
      · exact reach.refl _
      · exact pathWalk_sound hi hj hhi hhj _ _ _
          (reach.step j (reach.refl d) hj hhj) e he
    · rw [if_neg hc0] at he
      simp only [List.map_cons, List.mem_cons] at he
      rcases he with rfl | he
      · exact reach.refl _
      · exact pathWalk_sound hi hj hhi hhj _ _ _
          (reach.step i (reach.refl d) hi hhi) e he
  · intro h
    obtain ⟨n, hn | hn⟩ := (rays_closure V hi hj hhi hhj honly2 hd e).mp h
    · rw [hn]
      exact (pathOrbit_complete V hi hj hd n).1
    · rw [hn]
      exact (pathOrbit_complete V hi hj hd n).2

end PathWalkTheory

/-- The orbit enumeration (`GMap::orbit`) lists exactly the reach closure
of the start dart, for every mask, on a valid map. -/
theorem orbitL_iff {g : GMap} (V : Valid g) (a : Alphas) {d : Dart}
    (hd : d < g.ndarts) (e : Dart) :
    e ∈ GMap.orbitL g d a ↔ reach g a d e := by
  have hbfs := bfsOrbit_iff (a := a) V.hrange hd e
  unfold GMap.orbitL GMap.orbitIndices
  by_cases hdim : g.dimension = 2
  · rw [if_pos hdim]
    have h7 : compl32 a &&& 7 ≤ 7 := Nat.and_le_right
    have hcases : compl32 a &&& 7 = 0 ∨ compl32 a &&& 7 = 1 ∨ compl32 a &&& 7 = 2 ∨
        compl32 a &&& 7 = 3 ∨ compl32 a &&& 7 = 4 ∨ compl32 a &&& 7 = 5 ∨
        compl32 a &&& 7 = 6 ∨ compl32 a &&& 7 = 7 := by omega
    rcases hcases with hcv | hcv | hcv | hcv | hcv | hcv | hcv | hcv
    · have hP : GMap.planeOrbitIndices g d a = none := by
        unfold GMap.planeOrbitIndices
        rw [hcv]
      rw [hP]
      exact hbfs
    · have hhas := has_of_compl7 hcv
      have hP : GMap.planeOrbitIndices g d a = some (GMap.pathOrbit g 1 2 d) := by
        unfold GMap.planeOrbitIndices
        rw [hcv]
      rw [hP]
      refine pathOrbit_iff (a := a) V (by omega) (by omega)
        ((hhas 1 (by omega)).trans (by decide)) ((hhas 2 (by omega)).trans (by decide))
        ?_ hd e
      intro k hk hkh
      rw [hdim] at hk
      interval_cases k
      · rw [hhas 0 (by omega)] at hkh
        exact absurd hkh (by decide)
      · exact Or.inl rfl
      · exact Or.inr rfl
    · have hhas := has_of_compl7 hcv
      have hhas0 : Alphas.has a 0 = true := (hhas 0 (by omega)).trans (by decide)
      have hhas2 : Alphas.has a 2 = true := (hhas 2 (by omega)).trans (by decide)
      have honly : ∀ m, m ≤ g.dimension → Alphas.has a m = true → m = 0 ∨ m = 2 := by
        intro m hm hmh
        rw [hdim] at hm
        interval_cases m
        · exact Or.inl rfl
        · rw [hhas 1 (by omega)] at hmh
          exact absurd hmh (by decide)
        · exact Or.inr rfl
      have hiff := planeCase2_iff V hhas0 hhas2 honly (by omega) hd e
      have hP2 : GMap.planeOrbitIndices g d a =
          if d = g.av d 0 then some (GMap.plusOne g d 2)
          else if d = g.av d 2 then some [(none, d), (some 0, g.av d 0)]
          else some [(none, d), (some 0, g.av d 0), (some 2, g.av d 2),
            (some 2, g.av (g.av d 0) 2)] := by
        unfold GMap.planeOrbitIndices
        rw [hcv]
      rw [hP2]
      by_cases hq0 : d = g.av d 0
      · rw [if_pos hq0]
        show e ∈ (GMap.plusOne g d 2).map Prod.snd ↔ reach g a d e
        rw [← hiff]
        unfold GMap.plusOne
        by_cases hq2 : d = g.av d 2
        · rw [if_pos hq2]
          simp only [List.map_cons, List.map_nil, List.mem_singleton]
          constructor
          · rintro rfl
            exact Or.inl rfl
          · rintro (rfl | h1 | h1 | h1)
            · rfl
            · rw [h1]
              exact hq0.symm
            · rw [h1]
              exact hq2.symm
            · rw [h1, ← hq0]
              exact hq2.symm
        · rw [if_neg hq2]
          simp only [List.map_cons, List.map_nil, List.mem_cons,
            List.not_mem_nil, or_false]
          constructor
          · rintro (rfl | rfl)
            · exact Or.inl rfl
            · exact Or.inr (Or.inr (Or.inl rfl))
          · rintro (rfl | h1 | h1 | h1)
            · exact Or.inl rfl
            · rw [h1]
              exact Or.inl hq0.symm
            · rw [h1]
              exact Or.inr rfl
            · rw [h1, ← hq0]
              exact Or.inr rfl
      · rw [if_neg hq0]
        by_cases hq2 : d = g.av d 2
        · rw [if_pos hq2]
          show e ∈ ([(none, d), (some 0, g.av d 0)] :
            List (Option Nat × Dart)).map Prod.snd ↔ reach g a d e
          rw [← hiff]
          have hcm : g.av (g.av d 0) 2 = g.av d 0 := by
            have h := V.hcomm 0 2 (by omega) (by omega) d hd
            rw [← hq2] at h
            exact h
          simp only [List.map_cons, List.map_nil, List.mem_cons,
            List.not_mem_nil, or_false]
          constructor
          · rintro (rfl | rfl)
            · exact Or.inl rfl
            · exact Or.inr (Or.inl rfl)
          · rintro (rfl | h1 | h1 | h1)
            · exact Or.inl rfl
            · rw [h1]
              exact Or.inr rfl
            · rw [h1]
              exact Or.inl hq2.symm
            · rw [h1, hcm]
              exact Or.inr rfl
        · rw [if_neg hq2]
          show e ∈ ([(none, d), (some 0, g.av d 0), (some 2, g.av d 2),
            (some 2, g.av (g.av d 0) 2)] :
            List (Option Nat × Dart)).map Prod.snd ↔ reach g a d e
          rw [← hiff]
          simp only [List.map_cons, List.map_nil, List.mem_cons,
            List.not_mem_nil, or_false]
    · have hhas := has_of_compl7 hcv
      have hP : GMap.planeOrbitIndices g d a = some (GMap.plusOne g d 2) := by
        unfold GMap.planeOrbitIndices
        rw [hcv]
      rw [hP]
      refine plusOne_iff V (by omega) ((hhas 2 (by omega)).trans (by decide)) ?_ hd e
      intro m hm hmh
      rw [hdim] at hm
      interval_cases m
      · rw [hhas 0 (by omega)] at hmh
        exact absurd hmh (by decide)
      · rw [hhas 1 (by omega)] at hmh
        exact absurd hmh (by decide)
      · rfl
    · have hhas := has_of_compl7 hcv
      have hP : GMap.planeOrbitIndices g d a = some (GMap.pathOrbit g 0 1 d) := by
        unfold GMap.planeOrbitIndices
        rw [hcv]
      rw [hP]
      refine pathOrbit_iff (a := a) V (by omega) (by omega)
        ((hhas 0 (by omega)).trans (by decide)) ((hhas 1 (by omega)).trans (by decide))
        ?_ hd e
      intro k hk hkh
      rw [hdim] at hk
      interval_cases k
      · exact Or.inl rfl
      · exact Or.inr rfl
      · rw [hhas 2 (by omega)] at hkh
        exact absurd hkh (by decide)
    · have hhas := has_of_compl7 hcv
      have hP : GMap.planeOrbitIndices g d a = some (GMap.plusOne g d 1) := by
        unfold GMap.planeOrbitIndices
        rw [hcv]
      rw [hP]
      refine plusOne_iff V (by omega) ((hhas 1 (by omega)).trans (by decide)) ?_ hd e
      intro m hm hmh
      rw [hdim] at hm
      interval_cases m
      · rw [hhas 0 (by omega)] at hmh
        exact absurd hmh (by decide)
      · rfl
      · rw [hhas 2 (by omega)] at hmh
        exact absurd hmh (by decide)
    · have hhas := has_of_compl7 hcv
      have hP : GMap.planeOrbitIndices g d a = some (GMap.plusOne g d 0) := by
        unfold GMap.planeOrbitIndices
        rw [hcv]
      rw [hP]
      refine plusOne_iff V (by omega) ((hhas 0 (by omega)).trans (by decide)) ?_ hd e
      intro m hm hmh
      rw [hdim] at hm
      interval_cases m
      · rfl
      · rw [hhas 1 (by omega)] at hmh
        exact absurd hmh (by decide)
      · rw [hhas 2 (by omega)] at hmh
        exact absurd hmh (by decide)
    · have hhas := has_of_compl7 hcv
      have hnone : ∀ m, m ≤ g.dimension → Alphas.has a m = true → False := by
        intro m hm hmh
        rw [hdim] at hm
        interval_cases m
        · rw [hhas 0 (by omega)] at hmh
          exact absurd hmh (by decide)
        · rw [hhas 1 (by omega)] at hmh
          exact absurd hmh (by decide)
        · rw [hhas 2 (by omega)] at hmh
          exact absurd hmh (by decide)
      have hP : GMap.planeOrbitIndices g d a = some [(none, d)] := by
        unfold GMap.planeOrbitIndices
        rw [hcv]
      rw [hP]
      show e ∈ ([(none, d)] : List (Option Nat × Dart)).map Prod.snd ↔ reach g a d e
      rw [← planeCase7_iff (a := a) hnone]
      simp
  · rw [if_neg hdim]
    exact hbfs

theorem mem_dartsList {g : GMap} {x : Dart} :
    x ∈ GMap.dartsList g ↔ x < g.ndarts ∧ g.is_deleted x = false := by
  unfold GMap.dartsList
  simp [List.mem_filter, List.mem_range]

theorem dartsList_sorted (g : GMap) : List.Pairwise (· < ·) (GMap.dartsList g) := by
  unfold GMap.dartsList
  exact (List.pairwise_lt_range _).filter _

/-- Invariant-carrying specification of `unique_by_orbit`: on a pending
list of live darts sorted increasingly, with `seen` closed under reach and
every live dart either seen or pending, the kept darts are unseen pending
darts that are minimal in their reach class, pairwise unreachable from
each other, and jointly cover every unseen live dart. -/
theorem uniqueByOrbit_spec {g : GMap} {a : Alphas} (V : Valid g) (rest : List Dart) :
    ∀ seen,
    (∀ x ∈ rest, x ∈ GMap.dartsList g) →
    List.Pairwise (· < ·) rest →
    (∀ x ∈ seen, ∀ y, reach g a x y → y ∈ seen) →
    (∀ x, x ∈ GMap.dartsList g → x ∈ seen ∨ x ∈ rest) →
    (∀ r ∈ GMap.uniqueByOrbit g a seen rest, r ∈ rest ∧ r ∉ seen ∧
        ∀ e, reach g a r e → r ≤ e) ∧
    List.Pairwise (fun r s => ¬ reach g a r s) (GMap.uniqueByOrbit g a seen rest) ∧
    (∀ x, x ∈ GMap.dartsList g → x ∉ seen →
      ∃ r, r ∈ GMap.uniqueByOrbit g a seen rest ∧ reach g a r x) := by
  induction rest with
  | nil =>
    intro seen hrl hpw hcl hcov
    refine ⟨?_, ?_, ?_⟩
    · intro r hr
      simp [GMap.uniqueByOrbit] at hr
    · simp [GMap.uniqueByOrbit]
    · intro x hx hxs
      rcases hcov x hx with h | h
      · exact absurd h hxs
      · cases h
  | cons d rest ih =>
    intro seen hrl hpw hcl hcov
    have hdm : d ∈ GMap.dartsList g := hrl d (List.mem_cons_self _ _)
    have hdlt : d < g.ndarts := (mem_dartsList.mp hdm).1
    have hdlive : g.is_deleted d = false := (mem_dartsList.mp hdm).2
    by_cases hds : seen.contains d = true
    · have hdseen : d ∈ seen := by simpa using hds
      have hO : GMap.uniqueByOrbit g a seen (d :: rest) =
          GMap.uniqueByOrbit g a seen rest := by
        simp only [GMap.uniqueByOrbit]
        rw [if_pos hds]
      have hcov' : ∀ x, x ∈ GMap.dartsList g → x ∈ seen ∨ x ∈ rest := by
        intro x hx
        rcases hcov x hx with h | h
        · exact Or.inl h
        · rcases List.mem_cons.mp h with rfl | h'
          · exact Or.inl hdseen
          · exact Or.inr h'
      obtain ⟨i1, i2, i3⟩ := ih seen (fun x hx => hrl x (List.mem_cons_of_mem _ hx))
        (List.Pairwise.of_cons hpw) hcl hcov'
      rw [hO]
      refine ⟨?_, i2, i3⟩
      intro r hr
      obtain ⟨h1, h2, h3⟩ := i1 r hr
      exact ⟨List.mem_cons_of_mem _ h1, h2, h3⟩
    · have hdns : d ∉ seen := fun hc => hds (by simpa using hc)
      have hO : GMap.uniqueByOrbit g a seen (d :: rest) =
          d :: GMap.uniqueByOrbit g a (GMap.orbitL g d a ++ seen) rest := by
        simp only [GMap.uniqueByOrbit]
        rw [if_neg hds]
      have horb : ∀ y, y ∈ GMap.orbitL g d a ↔ reach g a d y := fun y =>
        orbitL_iff V a hdlt y
      have hcl' : ∀ x ∈ GMap.orbitL g d a ++ seen, ∀ y, reach g a x y →
          y ∈ GMap.orbitL g d a ++ seen := by
        intro x hx y hxy
        rcases List.mem_append.mp hx with hx' | hx'
        · exact List.mem_append.mpr (Or.inl ((horb y).mpr
            (reach_trans ((horb x).mp hx') hxy)))
        · exact List.mem_append.mpr (Or.inr (hcl x hx' y hxy))
      have hcov' : ∀ x, x ∈ GMap.dartsList g →
          x ∈ GMap.orbitL g d a ++ seen ∨ x ∈ rest := by
        intro x hx
        rcases hcov x hx with h | h
        · exact Or.inl (List.mem_append.mpr (Or.inr h))
        · rcases List.mem_cons.mp h with rfl | h'
          · exact Or.inl (List.mem_append.mpr (Or.inl ((horb x).mpr (reach.refl x))))
          · exact Or.inr h'
      obtain ⟨i1, i2, i3⟩ := ih (GMap.orbitL g d a ++ seen)
        (fun x hx => hrl x (List.mem_cons_of_mem _ hx))
        (List.Pairwise.of_cons hpw) hcl' hcov'
      have hmind : ∀ e, reach g a d e → d ≤ e := by
        intro e hre
        have helt : e < g.ndarts := reach_lt V hdlt hre
        have helive : g.is_deleted e = false := reach_live V hdlt hdlive hre
        rcases hcov e (mem_dartsList.mpr ⟨helt, helive⟩) with h | h
        · exact absurd (hcl e h d (reach_symm V hdlt hre)) hdns
        · rcases List.mem_cons.mp h with rfl | h'
          · exact le_refl _
          · exact Nat.le_of_lt (List.rel_of_pairwise_cons hpw h')
      rw [hO]
      refine ⟨?_, ?_, ?_⟩
      · intro r hr
        rcases List.mem_cons.mp hr with rfl | hr'
        · exact ⟨List.mem_cons_self _ _, hdns, hmind⟩
        · obtain ⟨h1, h2, h3⟩ := i1 r hr'
          refine ⟨List.mem_cons_of_mem _ h1, ?_, h3⟩
          intro hc
          exact h2 (List.mem_append.mpr (Or.inr hc))
      · rw [List.pairwise_cons]
        refine ⟨?_, i2⟩
        intro r hr hreach
        obtain ⟨h1, h2, h3⟩ := i1 r hr
        exact h2 (List.mem_append.mpr (Or.inl ((horb r).mpr hreach)))
      · intro x hx hxs
        by_cases hxs' : x ∈ GMap.orbitL g d a ++ seen
        · rcases List.mem_append.mp hxs' with h | h
          · exact ⟨d, List.mem_cons_self _ _, (horb x).mp h⟩
          · exact absurd h hxs
        · obtain ⟨r, hr, hrx⟩ := i3 x hx hxs'
          exact ⟨r, List.mem_cons_of_mem _ hr, hrx⟩

/-- C9: on a G-map whose `check_valid` passes, for every mask `a`,
`one_dart_per_orbit(a)` yields pairwise-distinct live darts, exactly one
of which is reachable from (i.e. shares the `a`-orbit of) each live dart,
and every yielded dart is the minimum-numbered dart of its `a`-orbit. -/
theorem c9_confirmed (g : GMap) (a : Alphas) (h : GMap.checkValid g = .ok ()) :
    (GMap.oneDartPerOrbit g a).Nodup ∧
    (∀ r ∈ GMap.oneDartPerOrbit g a, r ∈ GMap.dartsList g ∧
      ∀ e, reach g a r e → r ≤ e) ∧
    (∀ x ∈ GMap.dartsList g,
      ∃! r, r ∈ GMap.oneDartPerOrbit g a ∧ reach g a r x) := by
  have V := valid_of_checkValid h
  obtain ⟨i1, i2, i3⟩ := uniqueByOrbit_spec V (GMap.dartsList g) []
    (fun x hx => hx) (dartsList_sorted g)
    (fun x hx => absurd hx (List.not_mem_nil x))
    (fun x hx => Or.inr hx)
  have hout : GMap.oneDartPerOrbit g a =
      GMap.uniqueByOrbit g a [] (GMap.dartsList g) := rfl
  rw [hout]
  refine ⟨?_, ?_, ?_⟩
  · refine List.Pairwise.imp ?_ i2
    intro p q hn heq
    subst heq
    exact hn (reach.refl p)
  · intro r hr
    obtain ⟨h1, h2, h3⟩ := i1 r hr
    exact ⟨h1, h3⟩
  · intro x hx
    obtain ⟨r, hr, hrx⟩ := i3 x hx (List.not_mem_nil x)
    have hrlt : r < g.ndarts := (mem_dartsList.mp (i1 r hr).1).1
    refine ⟨r, ⟨hr, hrx⟩, ?_⟩
    rintro r' ⟨hr', hr'x⟩
    by_contra hne
    have hr'lt : r' < g.ndarts := (mem_dartsList.mp (i1 r' hr').1).1
    have h1 : reach g a r' r := reach_trans hr'x (reach_symm V hrlt hrx)
    have h2 : reach g a r r' := reach_symm V hr'lt h1
    have hpw2 : List.Pairwise (fun r s => ¬(reach g a r s ∧ reach g a s r))
        (GMap.uniqueByOrbit g a [] (GMap.dartsList g)) :=
      i2.imp fun hn hc => hn hc.1
    have hsymm : Symmetric fun r s => ¬(reach g a r s ∧ reach g a s r) := by
      intro p q hpq hc
      exact hpq ⟨hc.2, hc.1⟩
    exact hpw2.forall hsymm hr' hr hne ⟨h1, h2⟩

/-! ### C8: sew followed by unsew -/

/-- A valid one-dart 2-map: the single dart is free in every dimension. -/
def oneDartG : GMap := ⟨2, [0, 0, 0], [false]⟩

/-- C8, counterexample: on the valid one-dart 2-map, `sew(1, 0, 0)`
succeeds (returning the map unchanged and the pairing `{0 ↦ 0}`), but the
immediately following `unsew(0, 1)` returns `Ununsewable` instead of
succeeding: the claim fails when the two sewn darts coincide. -/
theorem c8_counterexample :
    GMap.checkValid oneDartG = .ok () ∧
    GMap.sew oneDartG 1 0 0 = .ok (oneDartG, [(0, 0)]) ∧
    GMap.unsew oneDartG 0 1 = .error GErr.ununsewable :=
  ⟨by decide, by decide, by decide⟩

/-- `Except.mapError` inversion on a success. -/
theorem exceptMapError_ok {ε ε2 α : Type} {x : Except ε α} {f : ε → ε2} {r : α}
    (h : x.mapError f = .ok r) : x = .ok r := by
  cases x with
  | ok a => simpa [Except.mapError] using h
  | error e => simp [Except.mapError] at h

theorem setAv_dimension (g : GMap) (d i v : Nat) :
    (GMap.setAv g d i v).dimension = g.dimension := rfl

theorem setAv_deleted (g : GMap) (d i v : Nat) :
    (GMap.setAv g d i v).deleted = g.deleted := rfl

theorem setAv_alpha_length (g : GMap) (d i v : Nat) :
    (GMap.setAv g d i v).alpha.length = g.alpha.length := by
  simp [GMap.setAv]

theorem setAv_ndarts (g : GMap) (d i v : Nat) :
    (GMap.setAv g d i v).ndarts = g.ndarts := by
  unfold GMap.ndarts
  rw [setAv_alpha_length, setAv_dimension]

/-- Position arithmetic: the flat index of `(d, k)` is injective for
in-range alpha indices. -/
theorem pos_inj {D d k e m : Nat} (hk : k < D + 1) (hm : m < D + 1)
    (h : d * (D + 1) + k = e * (D + 1) + m) : d = e ∧ k = m := by
  have h1 : (d * (D + 1) + k) % (D + 1) = k := by
    rw [Nat.add_comm, Nat.add_mul_mod_self_right]
    exact Nat.mod_eq_of_lt hk
  have h2 : (e * (D + 1) + m) % (D + 1) = m := by
    rw [Nat.add_comm, Nat.add_mul_mod_self_right]
    exact Nat.mod_eq_of_lt hm
  have h3 : (d * (D + 1) + k) / (D + 1) = d := by
    rw [Nat.add_comm, Nat.add_mul_div_right _ _ (by omega : 0 < D + 1),
      Nat.div_eq_of_lt hk]
    omega
  have h4 : (e * (D + 1) + m) / (D + 1) = e := by
    rw [Nat.add_comm, Nat.add_mul_div_right _ _ (by omega : 0 < D + 1),
      Nat.div_eq_of_lt hm]
    omega
  constructor
  · rw [← h3, ← h4, h]
  · rw [← h1, ← h2, h]

theorem pos_lt {n D d k : Nat} (hd : d < n) (hk : k < D + 1) :
    d * (D + 1) + k < n * (D + 1) := by
  calc d * (D + 1) + k < d * (D + 1) + (D + 1) := by omega
    _ = (d + 1) * (D + 1) := by ring
    _ ≤ n * (D + 1) := Nat.mul_le_mul_right _ hd

/-- The alpha-table length of a valid map. -/
theorem valid_alpha_length {g : GMap} (V : Valid g) :
    g.alpha.length = g.ndarts * (g.dimension + 1) := by
  have h := Nat.div_mul_cancel (Nat.dvd_of_mod_eq_zero V.hmod)
  unfold GMap.ndarts
  omega

/-- Reading after a single alpha write, in terms of flat positions. -/
theorem av_setAv (g : GMap) (d i v e k : Nat)
    (hlen : g.alpha.length = g.ndarts * (g.dimension + 1))
    (hd : d < g.ndarts) (hi : i < g.dimension + 1)
    (he : e < g.ndarts) (hk : k < g.dimension + 1) :
    GMap.av (GMap.setAv g d i v) e k = if e = d ∧ k = i then v else GMap.av g e k := by
  unfold GMap.setAv GMap.av
  simp only [List.getD_eq_getElem?_getD]
  by_cases hp : e = d ∧ k = i
  · obtain ⟨rfl, rfl⟩ := hp
    rw [if_pos ⟨rfl, rfl⟩, List.getElem?_set_self (by rw [hlen]; exact pos_lt hd hi)]
    rfl
  · rw [if_neg hp, List.getElem?_set_ne]
    intro hc
    exact hp ⟨(pos_inj hi hk hc).1.symm, (pos_inj hi hk hc).2.symm⟩

/-- Reads outside the dart range see the `getD` default in any map of the
same table length. -/
theorem av_out_of_range {g : GMap} {e : Nat}
    (hlen : g.alpha.length = g.ndarts * (g.dimension + 1))
    (he : g.ndarts ≤ e) (k : Nat) : GMap.av g e k = 0 := by
  unfold GMap.av
  apply List.getD_eq_default
  rw [hlen]
  calc g.ndarts * (g.dimension + 1) ≤ e * (g.dimension + 1) :=
        Nat.mul_le_mul_right _ he
    _ ≤ e * (g.dimension + 1) + k := Nat.le_add_right _ _

/-- The sew mask never selects the sewing index itself. -/
theorem sewMask_not_i {i k : Nat} (hi : i < 32) (hk : k = i)
    (h : Alphas.has (GMap.sewMask i) k = true) : False := by
  subst hk
  unfold Alphas.has GMap.sewMask compl32 at h
  rw [Nat.testBit_and, Nat.testBit_and, Nat.testBit_xor] at h
  have h1 : Nat.testBit (1 <<< k) k = true := by
    rw [Nat.testBit_shiftLeft]
    simp
  have h2 : Nat.testBit u32max k = true := by
    unfold u32max
    rw [Nat.testBit_two_pow_sub_one]
    simpa using hi
  rw [h1, h2] at h
  simp at h

/-- BFS enumeration only reads masked alpha entries. -/
theorem bfsOrbit_congr {g h : GMap} (hdim : h.dimension = g.dimension) {a : Alphas}
    (hav : ∀ e k, k ≤ g.dimension → Alphas.has a k = true →
      GMap.av h e k = GMap.av g e k) :
    ∀ fuel seen queue, GMap.bfsOrbit h a fuel seen queue =
      GMap.bfsOrbit g a fuel seen queue := by
  intro fuel
  induction fuel with
  | zero => intro seen queue; rfl
  | succ f ih =>
    intro seen queue
    cases queue with
    | nil => rfl
    | cons q rest =>
      obtain ⟨frm, d⟩ := q
      simp only [GMap.bfsOrbit]
      by_cases hs : seen.contains d = true
      · rw [if_pos hs, if_pos hs]
        exact ih seen rest
      · rw [if_neg hs, if_neg hs]
        have hpush : (List.range (h.dimension + 1)).filterMap (fun i =>
            if Alphas.has a i then some (some i, GMap.av h d i) else none) =
          (List.range (g.dimension + 1)).filterMap (fun i =>
            if Alphas.has a i then some (some i, GMap.av g d i) else none) := by
          rw [hdim]
          apply List.filterMap_congr
          intro i hi
          by_cases hhas : Alphas.has a i = true
          · rw [if_pos hhas, if_pos hhas,
              hav d i (Nat.lt_succ_iff.mp (List.mem_range.mp hi)) hhas]
          · rw [if_neg hhas, if_neg hhas]
        rw [hpush, ih]

/-- The `PathOrbit` walker only reads alpha entries at its two indices. -/
theorem pathWalk_congr {g h : GMap} {i j : Nat}
    (havi : ∀ x, GMap.av h x i = GMap.av g x i)
    (havj : ∀ x, GMap.av h x j = GMap.av g x j) :
    ∀ fuel start cur st, GMap.pathWalk h i j start fuel cur st =
      GMap.pathWalk g i j start fuel cur st := by
  intro fuel
  induction fuel with
  | zero => intro start cur st; rfl
  | succ f ih =>
    intro start cur st
    by_cases hcs : cur = start
    · cases st <;> simp only [GMap.pathWalk, if_pos hcs]
    · cases st
      · simp only [GMap.pathWalk, if_neg hcs, havi cur]
        by_cases hfix : GMap.av g cur i = cur
        · rw [if_pos hfix, if_pos hfix, havj start, ih]
        · rw [if_neg hfix, if_neg hfix, ih]
      · simp only [GMap.pathWalk, if_neg hcs, havj cur]
        by_cases hfix : GMap.av g cur j = cur
        · rw [if_pos hfix, if_pos hfix, havj start, ih]
        · rw [if_neg hfix, if_neg hfix, ih]
      · simp only [GMap.pathWalk, if_neg hcs, havi cur]
        by_cases hfix : GMap.av g cur i = cur
        · rw [if_pos hfix, if_pos hfix]
        · rw [if_neg hfix, if_neg hfix, ih]
      · simp only [GMap.pathWalk, if_neg hcs, havj cur]
        by_cases hfix : GMap.av g cur j = cur
        · rw [if_pos hfix, if_pos hfix]
        · rw [if_neg hfix, if_neg hfix, ih]

theorem pathOrbit_congr {g h : GMap} (hnd : h.ndarts = g.ndarts) {i j : Nat}
    (havi : ∀ x, GMap.av h x i = GMap.av g x i)
    (havj : ∀ x, GMap.av h x j = GMap.av g x j) (d : Dart) :
    GMap.pathOrbit h i j d = GMap.pathOrbit g i j d := by
  simp only [GMap.pathOrbit, GMap.pathFuel, havi d, hnd]
  by_cases hc : GMap.av g d i = d
  · rw [if_pos hc, if_pos hc, havj d, pathWalk_congr havi havj]
  · rw [if_neg hc, if_neg hc, pathWalk_congr havi havj]

theorem plusOne_congr {g h : GMap} {k : Nat}
    (hav : ∀ x, GMap.av h x k = GMap.av g x k) (d : Dart) :
    GMap.plusOne h d k = GMap.plusOne g d k := by
  simp only [GMap.plusOne, hav d]

/-- Orbit enumeration only reads the alpha entries selected by the mask:
two maps agreeing there (with equal dimension and dart count) enumerate
identical orbits. -/
theorem orbitIndices_congr {g h : GMap} (hdim : h.dimension = g.dimension)
    (hnd : h.ndarts = g.ndarts) {a : Alphas}
    (hav : ∀ e k, k ≤ g.dimension → Alphas.has a k = true →
      GMap.av h e k = GMap.av g e k) (d : Dart) :
    GMap.orbitIndices h d a = GMap.orbitIndices g d a := by
  have hfuel : GMap.bfsFuel h = GMap.bfsFuel g := by
    unfold GMap.bfsFuel
    rw [hdim, hnd]
  have hbfs : GMap.bfsOrbit h a (GMap.bfsFuel h) [] [(none, d)] =
      GMap.bfsOrbit g a (GMap.bfsFuel g) [] [(none, d)] := by
    rw [hfuel, bfsOrbit_congr hdim hav]
  unfold GMap.orbitIndices
  rw [hdim]
  by_cases hdim2 : g.dimension = 2
  · rw [if_pos hdim2, if_pos hdim2]
    have h7 : compl32 a &&& 7 ≤ 7 := Nat.and_le_right
    have hcases : compl32 a &&& 7 = 0 ∨ compl32 a &&& 7 = 1 ∨ compl32 a &&& 7 = 2 ∨
        compl32 a &&& 7 = 3 ∨ compl32 a &&& 7 = 4 ∨ compl32 a &&& 7 = 5 ∨
        compl32 a &&& 7 = 6 ∨ compl32 a &&& 7 = 7 := by omega
    have hone : ∀ k, k < 3 → Alphas.has a k = true →
        ∀ x, GMap.av h x k = GMap.av g x k := by
      intro k hk hhas x
      exact hav x k (by omega) hhas
    rcases hcases with hcv | hcv | hcv | hcv | hcv | hcv | hcv | hcv
    all_goals unfold GMap.planeOrbitIndices
    all_goals rw [hcv]
    · exact hbfs
    · have hhas := has_of_compl7 hcv
      rw [pathOrbit_congr hnd (hone 1 (by omega) ((hhas 1 (by omega)).trans (by decide)))
        (hone 2 (by omega) ((hhas 2 (by omega)).trans (by decide))) d]
    · have hhas := has_of_compl7 hcv
      have hv0 := hone 0 (by omega) ((hhas 0 (by omega)).trans (by decide))
      have hv2 := hone 2 (by omega) ((hhas 2 (by omega)).trans (by decide))
      simp only [hv0, hv2]
      by_cases hq0 : d = GMap.av g d 0
      · rw [if_pos hq0, if_pos hq0, plusOne_congr hv2]
      · rw [if_neg hq0, if_neg hq0]
        by_cases hq2 : d = GMap.av g d 2
        · rw [if_pos hq2]
        · rw [if_neg hq2]
    · have hhas := has_of_compl7 hcv
      rw [plusOne_congr (hone 2 (by omega) ((hhas 2 (by omega)).trans (by decide)))]
    · have hhas := has_of_compl7 hcv
      rw [pathOrbit_congr hnd (hone 0 (by omega) ((hhas 0 (by omega)).trans (by decide)))
        (hone 1 (by omega) ((hhas 1 (by omega)).trans (by decide))) d]
    · have hhas := has_of_compl7 hcv
      rw [plusOne_congr (hone 1 (by omega) ((hhas 1 (by omega)).trans (by decide)))]
    · have hhas := has_of_compl7 hcv
      rw [plusOne_congr (hone 0 (by omega) ((hhas 0 (by omega)).trans (by decide)))]
  · rw [if_neg hdim2, if_neg hdim2]
    exact hbfs

/-- Tail elements of a `pathWalk` always carry one of the two indices. -/
theorem pathWalk_tail_some {g : GMap} {i j : Nat} :
    ∀ fuel start cur st z, z ∈ GMap.pathWalk g i j start fuel cur st →
      z.1 = some i ∨ z.1 = some j := by
  intro fuel
  induction fuel with
  | zero =>
    intro start cur st z hz
    cases hz
  | succ f ih =>
    intro start cur st z hz
    by_cases hcs : cur = start
    · cases st <;> simp only [GMap.pathWalk, if_pos hcs] at hz <;> cases hz
    · cases st
      · simp only [GMap.pathWalk, if_neg hcs] at hz
        by_cases hfix : g.av cur i = cur
        · rw [if_pos hfix] at hz
          rcases List.mem_cons.mp hz with rfl | hz'
          · exact Or.inr rfl
          · exact ih start (g.av start j) .backwardI z hz'
        · rw [if_neg hfix] at hz
          rcases List.mem_cons.mp hz with rfl | hz'
          · exact Or.inr rfl
          · exact ih start (g.av cur i) .forwardJ z hz'
      · simp only [GMap.pathWalk, if_neg hcs] at hz
        by_cases hfix : g.av cur j = cur
        · rw [if_pos hfix] at hz
          rcases List.mem_cons.mp hz with rfl | hz'
          · exact Or.inl rfl
          · exact ih start (g.av start j) .backwardI z hz'
        · rw [if_neg hfix] at hz
          rcases List.mem_cons.mp hz with rfl | hz'
          · exact Or.inl rfl
          · exact ih start (g.av cur j) .forwardI z hz'
      · simp only [GMap.pathWalk, if_neg hcs] at hz
        by_cases hfix : g.av cur i = cur
        · rw [if_pos hfix] at hz
          rcases List.mem_cons.mp hz with rfl | hz'
          · exact Or.inr rfl
          · cases hz'
        · rw [if_neg hfix] at hz
          rcases List.mem_cons.mp hz with rfl | hz'
          · exact Or.inr rfl
          · exact ih start (g.av cur i) .backwardJ z hz'
      · simp only [GMap.pathWalk, if_neg hcs] at hz
        by_cases hfix : g.av cur j = cur
        · rw [if_pos hfix] at hz
          rcases List.mem_cons.mp hz with rfl | hz'
          · exact Or.inl rfl
          · cases hz'
        · rw [if_neg hfix] at hz
          rcases List.mem_cons.mp hz with rfl | hz'
          · exact Or.inl rfl
          · exact ih start (g.av cur j) .backwardI z hz'

/-- BFS yields only queue entries, whose indices are in range. -/
theorem bfsOrbit_tail_some {g : GMap} {a : Alphas} :
    ∀ fuel seen queue, (∀ q ∈ queue, ∃ jv, q.1 = some jv ∧ jv ≤ g.dimension) →
      ∀ z ∈ GMap.bfsOrbit g a fuel seen queue,
        ∃ jv, z.1 = some jv ∧ jv ≤ g.dimension := by
  intro fuel
  induction fuel with
  | zero =>
    intro seen queue hq z hz
    cases hz
  | succ f ih =>
    intro seen queue hq z hz
    cases queue with
    | nil => cases hz
    | cons q rest =>
      obtain ⟨frm, d⟩ := q
      simp only [GMap.bfsOrbit] at hz
      by_cases hs : seen.contains d = true
      · rw [if_pos hs] at hz
        exact ih seen rest (fun q2 hq2 => hq q2 (List.mem_cons_of_mem _ hq2)) z hz
      · rw [if_neg hs] at hz
        rcases List.mem_cons.mp hz with rfl | hz'
        · exact hq (frm, d) (List.mem_cons_self _ _)
        · refine ih (d :: seen) _ ?_ z hz'
          intro q2 hq2
          rcases List.mem_append.mp hq2 with h | h
          · exact hq q2 (List.mem_cons_of_mem _ h)
          · obtain ⟨iv, hiv, hhas, rfl⟩ := mem_bfsPush.mp h
            exact ⟨iv, rfl, hiv⟩

theorem plusOne_shape (g : GMap) (d k : Nat) :
    ∃ t, GMap.plusOne g d k = (none, d) :: t ∧ ∀ z ∈ t, z.1 = some k := by
  simp only [GMap.plusOne]
  by_cases hf : d = g.av d k
  · rw [if_pos hf]
    refine ⟨[], rfl, ?_⟩
    intro z hz
    cases hz
  · rw [if_neg hf]
    refine ⟨[(some k, g.av d k)], rfl, ?_⟩
    intro z hz
    rcases List.mem_cons.mp hz with rfl | hz'
    · rfl
    · cases hz'

theorem pathOrbit_shape (g : GMap) (i j d : Nat) :
    ∃ t, GMap.pathOrbit g i j d = (none, d) :: t ∧
      ∀ z ∈ t, z.1 = some i ∨ z.1 = some j := by
  simp only [GMap.pathOrbit]
  by_cases hc : g.av d i = d
  · rw [if_pos hc]
    exact ⟨_, rfl, fun z hz => pathWalk_tail_some _ _ _ _ z hz⟩
  · rw [if_neg hc]
    exact ⟨_, rfl, fun z hz => pathWalk_tail_some _ _ _ _ z hz⟩

/-- Every orbit enumeration starts with `(none, d)`, and every later
element records an in-range incoming index. -/
theorem orbitIndices_shape (g : GMap) (d : Dart) (a : Alphas) :
    ∃ t, GMap.orbitIndices g d a = (none, d) :: t ∧
      ∀ z ∈ t, ∃ jv, z.1 = some jv ∧ jv ≤ g.dimension := by
  have hbfs : ∃ t, GMap.bfsOrbit g a (GMap.bfsFuel g) [] [(none, d)] =
      (none, d) :: t ∧ ∀ z ∈ t, ∃ jv, z.1 = some jv ∧ jv ≤ g.dimension := by
    have h1 : GMap.bfsFuel g = (g.ndarts + 1) * (g.dimension + 2) + 1 := rfl
    rw [h1]
    simp only [GMap.bfsOrbit]
    rw [if_neg (by simp : ¬(List.contains [] d = true))]
    refine ⟨_, rfl, ?_⟩
    intro z hz
    refine bfsOrbit_tail_some _ _ _ ?_ z hz
    intro q hq
    rcases List.mem_append.mp hq with h | h
    · cases h
    · obtain ⟨iv, hiv, hhas, rfl⟩ := mem_bfsPush.mp h
      exact ⟨iv, rfl, hiv⟩
  unfold GMap.orbitIndices
  by_cases hdim2 : g.dimension = 2
  · rw [if_pos hdim2]
    have h7 : compl32 a &&& 7 ≤ 7 := Nat.and_le_right
    have hcases : compl32 a &&& 7 = 0 ∨ compl32 a &&& 7 = 1 ∨ compl32 a &&& 7 = 2 ∨
        compl32 a &&& 7 = 3 ∨ compl32 a &&& 7 = 4 ∨ compl32 a &&& 7 = 5 ∨
        compl32 a &&& 7 = 6 ∨ compl32 a &&& 7 = 7 := by omega
    rcases hcases with hcv | hcv | hcv | hcv | hcv | hcv | hcv | hcv
    all_goals unfold GMap.planeOrbitIndices
    all_goals rw [hcv]
    · exact hbfs
    · obtain ⟨t, ht, hts⟩ := pathOrbit_shape g 1 2 d
      refine ⟨t, ht, ?_⟩
      intro z hz
      rcases hts z hz with h | h
      · exact ⟨1, h, by omega⟩
      · exact ⟨2, h, by omega⟩
    · by_cases hq0 : d = g.av d 0
      · rw [if_pos hq0]
        obtain ⟨t, ht, hts⟩ := plusOne_shape g d 2
        refine ⟨t, ht, ?_⟩
        intro z hz
        exact ⟨2, hts z hz, by omega⟩
      · rw [if_neg hq0]
        by_cases hq2 : d = g.av d 2
        · rw [if_pos hq2]
          refine ⟨[(some 0, g.av d 0)], rfl, ?_⟩
          intro z hz
          rcases List.mem_cons.mp hz with rfl | hz'
          · exact ⟨0, rfl, by omega⟩
          · cases hz'
        · rw [if_neg hq2]
          refine ⟨[(some 0, g.av d 0), (some 2, g.av d 2),
            (some 2, g.av (g.av d 0) 2)], rfl, ?_⟩
          intro z hz
          rcases List.mem_cons.mp hz with rfl | hz'
          · exact ⟨0, rfl, by omega⟩
          rcases List.mem_cons.mp hz' with rfl | hz2
          · exact ⟨2, rfl, by omega⟩
          rcases List.mem_cons.mp hz2 with rfl | hz3
          · exact ⟨2, rfl, by omega⟩
          · cases hz3
    · obtain ⟨t, ht, hts⟩ := plusOne_shape g d 2
      refine ⟨t, ht, ?_⟩
      intro z hz
      exact ⟨2, hts z hz, by omega⟩
    · obtain ⟨t, ht, hts⟩ := pathOrbit_shape g 0 1 d
      refine ⟨t, ht, ?_⟩
      intro z hz
      rcases hts z hz with h | h
      · exact ⟨0, h, by omega⟩
      · exact ⟨1, h, by omega⟩
    · obtain ⟨t, ht, hts⟩ := plusOne_shape g d 1
      refine ⟨t, ht, ?_⟩
      intro z hz
      exact ⟨1, hts z hz, by omega⟩
    · obtain ⟨t, ht, hts⟩ := plusOne_shape g d 0
      refine ⟨t, ht, ?_⟩
      intro z hz
      exact ⟨0, hts z hz, by omega⟩
    · refine ⟨[], rfl, ?_⟩
      intro z hz
      cases hz
  · rw [if_neg hdim2]
    exact hbfs

/-- Recursive record of the checks passed by a successful `sew`
collection loop: each step's darts are fresh for the accumulators, the
parent-pairing check holds, and both darts are `i`-free. -/
def collectFacts (g : GMap) (i : Nat) :
    List (Nat × Nat) → List Nat → List (Option Nat × Nat × Nat) → Prop
  | _, _, [] => True
  | acc, s1, p :: rest =>
      GMap.keyMem p.2.1 acc = false ∧ GMap.keyMem p.2.2 acc = false ∧
      s1.contains p.2.1 = false ∧ s1.contains p.2.2 = false ∧
      (∀ jv, p.1 = some jv →
        ((GMap.keyFind (GMap.av g p.2.1 jv) acc).map fun x => GMap.av g x jv) =
          some p.2.2) ∧
      GMap.is_free g p.2.1 i = true ∧ GMap.is_free g p.2.2 i = true ∧
      collectFacts g i (acc ++ [(p.2.1, p.2.2)]) (p.2.2 :: s1) rest

/-- Join-point-free unfolding of one `sewCollect` step. -/
theorem sewCollect_cons (g : GMap) (i : Nat)
    (z : Option (Option Nat × Dart) × Option (Option Nat × Dart))
    (rest : List (Option (Option Nat × Dart) × Option (Option Nat × Dart)))
    (m01 : List (Nat × Nat)) (s1 : List Nat) :
    GMap.sewCollect g i (z :: rest) m01 s1 =
      match z with
      | (some (j0, d0), some (j1, d1)) =>
        if j0 = j1 then
          if (GMap.keyMem d0 m01 || GMap.keyMem d1 m01 ||
              s1.contains d0 || s1.contains d1) = true
          then throw GErr.unsewable
          else
            match j0 with
            | some j =>
              if ((GMap.keyFind (GMap.av g d0 j) m01).map
                  fun x => GMap.av g x j) ≠ some d1
              then throw GErr.unsewable
              else if ¬(GMap.is_free g d0 i && GMap.is_free g d1 i) = true
                then throw GErr.unsewable
                else GMap.sewCollect g i rest (m01 ++ [(d0, d1)]) (d1 :: s1)
            | none =>
              if ¬(GMap.is_free g d0 i && GMap.is_free g d1 i) = true
              then throw GErr.unsewable
              else GMap.sewCollect g i rest (m01 ++ [(d0, d1)]) (d1 :: s1)
        else throw GErr.unsewable
      | _ => throw GErr.unsewable := by
  obtain ⟨z0, z1⟩ := z
  cases z0 with
  | none => cases z1 <;> rfl
  | some w0 =>
    obtain ⟨j0, x0⟩ := w0
    cases z1 with
    | none => rfl
    | some w1 =>
      obtain ⟨j1, x1⟩ := w1
      cases j0 <;> rfl

/-- Inversion of a successful `sewCollect` run. -/
theorem sewCollect_inv {g : GMap} {i : Nat} :
    ∀ zs acc s1 out, GMap.sewCollect g i zs acc s1 = .ok out →
      ∃ ps, zs = ps.map (fun p => (some (p.1, p.2.1), some (p.1, p.2.2))) ∧
        out = acc ++ ps.map (fun p => (p.2.1, p.2.2)) ∧
        collectFacts g i acc s1 ps := by
  intro zs
  induction zs with
  | nil =>
    intro acc s1 out h
    simp only [GMap.sewCollect, pure, Except.pure, Except.ok.injEq] at h
    refine ⟨[], rfl, by simp [h], trivial⟩
  | cons z rest ih =>
    intro acc s1 out h
    rw [sewCollect_cons] at h
    split at h
    · rename_i j0 x j1 y
      split at h
      · rename_i hj
        subst hj
        split at h
        · exact Except.noConfusion h
        · rename_i hc1
          simp only [Bool.or_eq_true, not_or, Bool.not_eq_true] at hc1
          obtain ⟨⟨⟨hm0, hm1⟩, hs0⟩, hs1⟩ := hc1
          split at h
          · rename_i jv
            split at h
            · exact Except.noConfusion h
            · rename_i hc2
              push_neg at hc2
              split at h
              · exact Except.noConfusion h
              · rename_i hc3
                rw [not_not] at hc3
                simp only [Bool.and_eq_true] at hc3
                obtain ⟨ps, hzs, hout, hcf⟩ := ih _ _ _ h
                refine ⟨(some jv, x, y) :: ps, ?_, ?_, ?_⟩
                · simp [hzs]
                · simp only [List.map_cons, hout, List.append_assoc,
                    List.singleton_append]
                · refine ⟨hm0, hm1, hs0, hs1, ?_, hc3.1, hc3.2, hcf⟩
                  intro jv2 hjv2
                  cases hjv2
                  exact hc2
          · split at h
            · exact Except.noConfusion h
            · rename_i hc3
              rw [not_not] at hc3
              simp only [Bool.and_eq_true] at hc3
              obtain ⟨ps, hzs, hout, hcf⟩ := ih _ _ _ h
              refine ⟨(none, x, y) :: ps, ?_, ?_, ?_⟩
              · simp [hzs]
              · simp only [List.map_cons, hout, List.append_assoc,
                  List.singleton_append]
              · refine ⟨hm0, hm1, hs0, hs1, ?_, hc3.1, hc3.2, hcf⟩
                intro jv hjv
                cases hjv
      · exact Except.noConfusion h
    · exact Except.noConfusion h

theorem keyFind_eq_some {k v : Nat} {l : List (Nat × Nat)}
    (h : GMap.keyFind k l = some v) : (k, v) ∈ l := by
  unfold GMap.keyFind at h
  rcases Option.map_eq_some'.mp h with ⟨p, hfind, hsnd⟩
  have h1 : p.1 = k := by simpa using List.find?_some hfind
  have h2 : p ∈ l := List.mem_of_find?_eq_some hfind
  have h3 : p = (k, v) := by
    obtain ⟨p1, p2⟩ := p
    simp only at h1 hsnd
    rw [h1, hsnd]
  rwa [← h3]

theorem keyMem_append_false {k : Nat} {l1 l2 : List (Nat × Nat)}
    (h : GMap.keyMem k (l1 ++ l2) = false) :
    GMap.keyMem k l1 = false ∧ GMap.keyMem k l2 = false := by
  unfold GMap.keyMem at h ⊢
  rw [List.any_append, Bool.or_eq_false_iff] at h
  exact h

theorem keyMem_single_false {k x y : Nat} (h : GMap.keyMem k [(x, y)] = false) :
    x ≠ k := by
  unfold GMap.keyMem at h
  simpa using h

theorem contains_cons_false {x a : Nat} {l : List Nat}
    (h : (a :: l).contains x = false) : x ≠ a ∧ l.contains x = false := by
  rw [List.contains_cons, Bool.or_eq_false_iff] at h
  refine ⟨?_, h.2⟩
  simpa using h.1

theorem is_free_eq {g : GMap} {d i : Nat} (h : GMap.is_free g d i = true) :
    GMap.av g d i = d := by
  simpa [GMap.is_free] using h

/-- A successful collection loop whose accumulator holds no self-pair
never produces a self-pair: a coincidence would propagate through the
parent check to a self-pair already in the accumulator. -/
theorem collectFacts_noself {g : GMap} (V : Valid g) {i : Nat} :
    ∀ ps acc s1, collectFacts g i acc s1 ps →
      (∀ p ∈ acc, p.1 ≠ p.2) →
      (∀ p ∈ acc, p.2 < g.ndarts) →
      (∀ p ∈ ps, ∃ jv, p.1 = some jv ∧ jv ≤ g.dimension) →
      (∀ p ∈ ps, p.2.2 < g.ndarts) →
      ∀ p ∈ ps, p.2.1 ≠ p.2.2 := by
  intro ps
  induction ps with
  | nil =>
    intro acc s1 _ _ _ _ _ p hp
    cases hp
  | cons q rest ih =>
    intro acc s1 hcf hnself hvrange hjs hyr p hp
    obtain ⟨hm0, hm1, hs0, hs1, hjchk, hf0, hf1, hcf'⟩ := hcf
    obtain ⟨jv, hjv, hjle⟩ := hjs q (List.mem_cons_self _ _)
    have hqne : q.2.1 ≠ q.2.2 := by
      intro hceq
      have hchk := hjchk jv hjv
      rcases Option.map_eq_some'.mp hchk with ⟨v, hfind, hveq⟩
      have hmem : (GMap.av g q.2.1 jv, v) ∈ acc := keyFind_eq_some hfind
      have hvlt : v < g.ndarts := hvrange _ hmem
      have hv2 : GMap.av g (GMap.av g v jv) jv = v := V.hinv jv hjle v hvlt
      rw [hveq] at hv2
      rw [← hceq] at hv2
      exact hnself _ hmem hv2
    rcases List.mem_cons.mp hp with rfl | hp'
    · exact hqne
    · refine ih (acc ++ [(q.2.1, q.2.2)]) (q.2.2 :: s1) hcf' ?_ ?_
        (fun p2 hp2 => hjs p2 (List.mem_cons_of_mem _ hp2))
        (fun p2 hp2 => hyr p2 (List.mem_cons_of_mem _ hp2)) p hp'
      · intro p2 hp2
        rcases List.mem_append.mp hp2 with h2 | h2
        · exact hnself p2 h2
        · rcases List.mem_cons.mp h2 with rfl | h3
          · exact hqne
          · cases h3
      · intro p2 hp2
        rcases List.mem_append.mp hp2 with h2 | h2
        · exact hvrange p2 h2
        · rcases List.mem_cons.mp h2 with rfl | h3
          · exact hyr q (List.mem_cons_self _ _)
          · cases h3

/-- Each collected pair passes its checks relative to the accumulators in
force when it was processed, hence also relative to any earlier state. -/
theorem collectFacts_mem {g : GMap} {i : Nat} :
    ∀ ps acc s1, collectFacts g i acc s1 ps →
      ∀ p ∈ ps, GMap.keyMem p.2.1 acc = false ∧ GMap.keyMem p.2.2 acc = false ∧
        s1.contains p.2.1 = false ∧ s1.contains p.2.2 = false ∧
        GMap.is_free g p.2.1 i = true ∧ GMap.is_free g p.2.2 i = true := by
  intro ps
  induction ps with
  | nil =>
    intro acc s1 _ p hp
    cases hp
  | cons q rest ih =>
    intro acc s1 hcf p hp
    obtain ⟨hm0, hm1, hs0, hs1, hjchk, hf0, hf1, hcf'⟩ := hcf
    rcases List.mem_cons.mp hp with rfl | hp'
    · exact ⟨hm0, hm1, hs0, hs1, hf0, hf1⟩
    · obtain ⟨a1, a2, a3, a4, a5, a6⟩ := ih _ _ hcf' p hp'
      exact ⟨(keyMem_append_false a1).1, (keyMem_append_false a2).1,
        (contains_cons_false a3).2, (contains_cons_false a4).2, a5, a6⟩

/-- Global distinctness of all collected darts (keys and values jointly),
given that no pair is a self-pair. -/
theorem collectFacts_nodup {g : GMap} {i : Nat} :
    ∀ ps acc s1, collectFacts g i acc s1 ps →
      (∀ p ∈ ps, p.2.1 ≠ p.2.2) →
      ((ps.map fun p => p.2.1) ++ (ps.map fun p => p.2.2)).Nodup := by
  intro ps
  induction ps with
  | nil =>
    intro acc s1 _ _
    simp
  | cons q rest ih =>
    intro acc s1 hcf hns
    obtain ⟨hm0, hm1, hs0, hs1, hjchk, hf0, hf1, hcf'⟩ := hcf
    have ihn := ih _ _ hcf' (fun p hp => hns p (List.mem_cons_of_mem _ hp))
    have hsep : ∀ p ∈ rest, p.2.1 ≠ q.2.1 ∧ p.2.1 ≠ q.2.2 ∧
        p.2.2 ≠ q.2.1 ∧ p.2.2 ≠ q.2.2 := by
      intro p hp
      obtain ⟨a1, a2, a3, a4, _, _⟩ := collectFacts_mem rest _ _ hcf' p hp
      exact ⟨(keyMem_single_false (keyMem_append_false a1).2).symm,
        (contains_cons_false a3).1,
        (keyMem_single_false (keyMem_append_false a2).2).symm,
        (contains_cons_false a4).1⟩
    simp only [List.map_cons, List.cons_append]
    have hperm : (q.2.1 :: ((rest.map fun p => p.2.1) ++
        q.2.2 :: (rest.map fun p => p.2.2))).Perm
        (q.2.1 :: q.2.2 :: ((rest.map fun p => p.2.1) ++
          (rest.map fun p => p.2.2))) :=
      List.Perm.cons _ List.perm_middle
    refine hperm.nodup_iff.mpr ?_
    rw [List.nodup_cons, List.nodup_cons]
    refine ⟨?_, ?_, ihn⟩
    · intro hc
      rcases List.mem_cons.mp hc with hc1 | hc2
      · exact hns q (List.mem_cons_self _ _) hc1
      rcases List.mem_append.mp hc2 with hc3 | hc3
      · obtain ⟨p, hp, hpe⟩ := List.mem_map.mp hc3
        exact (hsep p hp).1 hpe
      · obtain ⟨p, hp, hpe⟩ := List.mem_map.mp hc3
        exact (hsep p hp).2.2.1 hpe
    · intro hc
      rcases List.mem_append.mp hc with hc3 | hc3
      · obtain ⟨p, hp, hpe⟩ := List.mem_map.mp hc3
        exact (hsep p hp).2.1 hpe
      · obtain ⟨p, hp, hpe⟩ := List.mem_map.mp hc3
        exact (hsep p hp).2.2.2 hpe

/-- A `zip_longest` that produced only two-sided entries came from lists
of equal length, recovered positionally. -/
theorem zipLongest_model {α γ : Type} :
    ∀ (ps : List γ) (l1 l2 : List α) (f h : γ → α),
      GMap.zipLongest l1 l2 = ps.map (fun p => (some (f p), some (h p))) →
      l1 = ps.map f ∧ l2 = ps.map h := by
  intro ps
  induction ps with
  | nil =>
    intro l1 l2 f h he
    cases l1 with
    | nil =>
      cases l2 with
      | nil => exact ⟨rfl, rfl⟩
      | cons b bs => simp [GMap.zipLongest] at he
    | cons a as =>
      cases l2 with
      | nil => simp [GMap.zipLongest] at he
      | cons b bs => simp [GMap.zipLongest] at he
  | cons p ps ih =>
    intro l1 l2 f h he
    cases l1 with
    | nil =>
      cases l2 with
      | nil => simp [GMap.zipLongest] at he
      | cons b bs => simp [GMap.zipLongest] at he
    | cons a as =>
      cases l2 with
      | nil => simp [GMap.zipLongest] at he
      | cons b bs =>
        simp only [GMap.zipLongest, List.map_cons, List.cons.injEq,
          Prod.mk.injEq, Option.some.injEq] at he
        obtain ⟨⟨ha, hb⟩, hrest⟩ := he
        obtain ⟨h1, h2⟩ := ih as bs f h hrest
        rw [List.map_cons, List.map_cons, ha, hb, h1, h2]
        exact ⟨rfl, rfl⟩

/-- Join-point-free unfolding of `link`. -/
theorem link_eq (g : GMap) (i d0 d1 : Nat) :
    GMap.link g i d0 d1 =
      if ¬(GMap.is_free g d0 i && GMap.is_free g d1 i) = true then throw GErr.notFree
      else if (GMap.is_deleted g d0 || GMap.is_deleted g d1) = true then
        throw GErr.deleted
      else pure ((GMap.setAv g d0 i d1).setAv d1 i d0) := rfl

/-- Inversion of a successful `link`. -/
theorem link_ok {g : GMap} {i d0 d1 : Nat} {g2 : GMap}
    (h : GMap.link g i d0 d1 = .ok g2) :
    g2 = (GMap.setAv g d0 i d1).setAv d1 i d0 := by
  rw [link_eq] at h
  split at h
  · exact Except.noConfusion h
  · split at h
    · exact Except.noConfusion h
    · have h' : Except.ok ((GMap.setAv g d0 i d1).setAv d1 i d0) =
          (Except.ok g2 : Except GErr GMap) := h
      exact (Except.ok.inj h').symm

/-- Characterization of the linking fold of `sew` over pairwise-distinct
in-range darts: linked pairs point at each other at index `i`, everything
else is untouched. -/
theorem linkFold_spec {i : Nat} :
    ∀ (ps : List (Nat × Nat)) (g g1 : GMap),
      (ps.foldlM (fun h p => (GMap.link h i p.1 p.2).mapError
        fun _ => GErr.rustPanic) g) = .ok g1 →
      ((ps.map fun p => p.1) ++ (ps.map fun p => p.2)).Nodup →
      (∀ p ∈ ps, p.1 < g.ndarts ∧ p.2 < g.ndarts) →
      g.alpha.length = g.ndarts * (g.dimension + 1) →
      i ≤ g.dimension →
      g1.dimension = g.dimension ∧ g1.deleted = g.deleted ∧
        g1.alpha.length = g.alpha.length ∧
        (∀ p ∈ ps, GMap.av g1 p.1 i = p.2 ∧ GMap.av g1 p.2 i = p.1) ∧
        (∀ e k, e < g.ndarts → k ≤ g.dimension →
          ((∀ p ∈ ps, e ≠ p.1 ∧ e ≠ p.2) ∨ k ≠ i) →
          GMap.av g1 e k = GMap.av g e k) := by
  intro ps
  induction ps with
  | nil =>
    intro g g1 h hnd hr hlen hi
    simp only [List.foldlM_nil, pure, Except.pure, Except.ok.injEq] at h
    subst h
    refine ⟨rfl, rfl, rfl, ?_, ?_⟩
    · intro p hp
      cases hp
    · intro e k _ _ _
      rfl
  | cons p ps ih =>
    intro g g1 h hnd hr hlen hi
    rw [List.foldlM_cons] at h
    obtain ⟨g2, hstep, hrest⟩ := exceptBind_ok h
    have hlk := link_ok (exceptMapError_ok hstep)
    subst hlk
    have hp1 : p.1 < g.ndarts := (hr p (List.mem_cons_self _ _)).1
    have hp2 : p.2 < g.ndarts := (hr p (List.mem_cons_self _ _)).2
    -- unpack the distinctness of the head against everything else
    have hndflat : (p.1 :: p.2 :: ((ps.map fun q => q.1) ++
        (ps.map fun q => q.2))).Nodup := by
      have hperm : ((p.1 :: (ps.map fun q => q.1)) ++
          (p.2 :: (ps.map fun q => q.2))).Perm
          (p.1 :: p.2 :: ((ps.map fun q => q.1) ++ (ps.map fun q => q.2))) :=
        List.Perm.cons _ List.perm_middle
      refine hperm.nodup_iff.mp ?_
      simpa using hnd
    have hne12 : p.1 ≠ p.2 := by
      have := (List.nodup_cons.mp hndflat).1
      intro hc
      exact this (hc ▸ List.mem_cons_self _ _)
    have hhead1 : ∀ q ∈ ps, p.1 ≠ q.1 ∧ p.1 ≠ q.2 := by
      have h1 := (List.nodup_cons.mp hndflat).1
      intro q hq
      constructor
      · intro hc
        exact h1 (List.mem_cons_of_mem _ (List.mem_append.mpr (Or.inl
          (List.mem_map.mpr ⟨q, hq, hc.symm⟩))))
      · intro hc
        exact h1 (List.mem_cons_of_mem _ (List.mem_append.mpr (Or.inr
          (List.mem_map.mpr ⟨q, hq, hc.symm⟩))))
    have hhead2 : ∀ q ∈ ps, p.2 ≠ q.1 ∧ p.2 ≠ q.2 := by
      have h2 := (List.nodup_cons.mp (List.nodup_cons.mp hndflat).2).1
      intro q hq
      constructor
      · intro hc
        exact h2 (List.mem_append.mpr (Or.inl (List.mem_map.mpr ⟨q, hq, hc.symm⟩)))
      · intro hc
        exact h2 (List.mem_append.mpr (Or.inr (List.mem_map.mpr ⟨q, hq, hc.symm⟩)))
    have hnd' : ((ps.map fun q => q.1) ++ (ps.map fun q => q.2)).Nodup :=
      (List.nodup_cons.mp (List.nodup_cons.mp hndflat).2).2
    -- the intermediate map
    have hBlen : (GMap.setAv g p.1 i p.2).alpha.length =
        g.ndarts * (g.dimension + 1) := by
      rw [setAv_alpha_length]
      exact hlen
    have havA : ∀ e k, e < g.ndarts → k ≤ g.dimension →
        GMap.av ((GMap.setAv g p.1 i p.2).setAv p.2 i p.1) e k =
          if e = p.2 ∧ k = i then p.1
          else if e = p.1 ∧ k = i then p.2
          else GMap.av g e k := by
      intro e k he hk
      have hb1 : (GMap.setAv g p.1 i p.2).alpha.length =
          (GMap.setAv g p.1 i p.2).ndarts *
            ((GMap.setAv g p.1 i p.2).dimension + 1) := by
        rw [setAv_alpha_length, setAv_ndarts, setAv_dimension]
        exact hlen
      have hb2 : p.2 < (GMap.setAv g p.1 i p.2).ndarts := by
        rw [setAv_ndarts]
        exact hp2
      have hb3 : i < (GMap.setAv g p.1 i p.2).dimension + 1 := by
        rw [setAv_dimension]
        omega
      have hb4 : e < (GMap.setAv g p.1 i p.2).ndarts := by
        rw [setAv_ndarts]
        exact he
      have hb5 : k < (GMap.setAv g p.1 i p.2).dimension + 1 := by
        rw [setAv_dimension]
        omega
      rw [av_setAv _ _ _ _ _ _ hb1 hb2 hb3 hb4 hb5]
      by_cases hc1 : e = p.2 ∧ k = i
      · rw [if_pos hc1, if_pos hc1]
      · rw [if_neg hc1, if_neg hc1]
        rw [av_setAv _ _ _ _ _ _ hlen hp1 (by omega) he (by omega)]
    have hAdim : ((GMap.setAv g p.1 i p.2).setAv p.2 i p.1).dimension =
        g.dimension := by
      rw [setAv_dimension, setAv_dimension]
    have hAnd : ((GMap.setAv g p.1 i p.2).setAv p.2 i p.1).ndarts = g.ndarts := by
      rw [setAv_ndarts, setAv_ndarts]
    have hAlen : ((GMap.setAv g p.1 i p.2).setAv p.2 i p.1).alpha.length =
        g.alpha.length := by
      rw [setAv_alpha_length, setAv_alpha_length]
    have hihr : ∀ q ∈ ps, q.1 < ((GMap.setAv g p.1 i p.2).setAv p.2 i p.1).ndarts ∧
        q.2 < ((GMap.setAv g p.1 i p.2).setAv p.2 i p.1).ndarts := by
      intro q hq
      rw [hAnd]
      exact hr q (List.mem_cons_of_mem _ hq)
    have hihlen : ((GMap.setAv g p.1 i p.2).setAv p.2 i p.1).alpha.length =
        ((GMap.setAv g p.1 i p.2).setAv p.2 i p.1).ndarts *
          (((GMap.setAv g p.1 i p.2).setAv p.2 i p.1).dimension + 1) := by
      rw [hAlen, hAnd, hAdim]
      exact hlen
    have hihdim : i ≤ ((GMap.setAv g p.1 i p.2).setAv p.2 i p.1).dimension := by
      rw [hAdim]
      exact hi
    obtain ⟨c1, c2, c3, c4, c5⟩ := ih ((GMap.setAv g p.1 i p.2).setAv p.2 i p.1)
      g1 hrest hnd' hihr hihlen hihdim
    rw [hAdim] at c1
    rw [setAv_deleted, setAv_deleted] at c2
    rw [hAlen] at c3
    rw [hAnd, hAdim] at c5
    refine ⟨c1, c2, c3, ?_, ?_⟩
    · intro q hq
      rcases List.mem_cons.mp hq with rfl | hq'
      · constructor
        · rw [c5 q.1 i hp1 hi (Or.inl (fun r hr2 => hhead1 r hr2)),
            havA q.1 i hp1 hi, if_neg (fun hc => hne12 hc.1),
            if_pos ⟨rfl, rfl⟩]
        · rw [c5 q.2 i hp2 hi (Or.inl (fun r hr2 => hhead2 r hr2)),
            havA q.2 i hp2 hi, if_pos ⟨rfl, rfl⟩]
      · exact c4 q hq'
    · intro e k he hk hcond
      rcases hcond with hall | hki
      · rw [c5 e k he hk (Or.inl (fun r hr2 => hall r (List.mem_cons_of_mem _ hr2))),
          havA e k he hk,
          if_neg (fun hc => (hall p (List.mem_cons_self _ _)).2 hc.1),
          if_neg (fun hc => (hall p (List.mem_cons_self _ _)).1 hc.1)]
      · rw [c5 e k he hk (Or.inr hki), havA e k he hk,
          if_neg (fun hc => hki hc.2), if_neg (fun hc => hki hc.2)]

/-- Join-point-free unfolding of `unlink`. -/
theorem unlink_eq (g : GMap) (i d0 : Nat) :
    GMap.unlink g i d0 =
      if d0 = GMap.av g d0 i then throw GErr.alreadyFree
      else pure ((GMap.setAv g d0 i d0).setAv (GMap.av g d0 i) i (GMap.av g d0 i),
        GMap.av g d0 i) := rfl

/-- The unlinking fold of `unsew` over pairwise-distinct linked pairs
succeeds and restores every alpha entry to its pre-sew value. -/
theorem unlinkFold_restore {i : Nat} :
    ∀ (ps : List (Nat × Nat)) (h gO : GMap),
      h.dimension = gO.dimension →
      h.deleted = gO.deleted →
      h.alpha.length = gO.alpha.length →
      gO.alpha.length = gO.ndarts * (gO.dimension + 1) →
      i ≤ gO.dimension →
      ((ps.map fun p => p.1) ++ (ps.map fun p => p.2)).Nodup →
      (∀ p ∈ ps, p.1 < gO.ndarts ∧ p.2 < gO.ndarts) →
      (∀ p ∈ ps, GMap.av h p.1 i = p.2 ∧ GMap.av h p.2 i = p.1) →
      (∀ p ∈ ps, GMap.av gO p.1 i = p.1 ∧ GMap.av gO p.2 i = p.2) →
      (∀ e k, e < gO.ndarts → k ≤ gO.dimension →
        ((∀ p ∈ ps, e ≠ p.1 ∧ e ≠ p.2) ∨ k ≠ i) →
        GMap.av h e k = GMap.av gO e k) →
      ∃ g2, ((ps.map fun p => p.1).foldlM
          (fun hc d0 => (Prod.fst <$> GMap.unlink hc i d0).mapError
            fun _ => GErr.rustPanic) h) = .ok g2 ∧
        g2.dimension = gO.dimension ∧ g2.deleted = gO.deleted ∧
        g2.alpha.length = gO.alpha.length ∧
        (∀ e k, e < gO.ndarts → k ≤ gO.dimension →
          GMap.av g2 e k = GMap.av gO e k) := by
  intro ps
  induction ps with
  | nil =>
    intro h gO hdim hdel hlen hlenO hi hnd hr hcur hfree hrest
    refine ⟨h, rfl, hdim, hdel, hlen, ?_⟩
    intro e k he hk
    refine hrest e k he hk (Or.inl ?_)
    intro p hp
    cases hp
  | cons p ps ih =>
    intro h gO hdim hdel hlen hlenO hi hnd hr hcur hfree hrest
    have hp1 : p.1 < gO.ndarts := (hr p (List.mem_cons_self _ _)).1
    have hp2 : p.2 < gO.ndarts := (hr p (List.mem_cons_self _ _)).2
    have hndflat : (p.1 :: p.2 :: ((ps.map fun q => q.1) ++
        (ps.map fun q => q.2))).Nodup := by
      have hperm : ((p.1 :: (ps.map fun q => q.1)) ++
          (p.2 :: (ps.map fun q => q.2))).Perm
          (p.1 :: p.2 :: ((ps.map fun q => q.1) ++ (ps.map fun q => q.2))) :=
        List.Perm.cons _ List.perm_middle
      refine hperm.nodup_iff.mp ?_
      simpa using hnd
    have hne12 : p.1 ≠ p.2 := by
      have h1 := (List.nodup_cons.mp hndflat).1
      intro hc
      exact h1 (hc ▸ List.mem_cons_self _ _)
    have hhead1 : ∀ q ∈ ps, p.1 ≠ q.1 ∧ p.1 ≠ q.2 := by
      have h1 := (List.nodup_cons.mp hndflat).1
      intro q hq
      constructor
      · intro hc
        exact h1 (List.mem_cons_of_mem _ (List.mem_append.mpr (Or.inl
          (List.mem_map.mpr ⟨q, hq, hc.symm⟩))))
      · intro hc
        exact h1 (List.mem_cons_of_mem _ (List.mem_append.mpr (Or.inr
          (List.mem_map.mpr ⟨q, hq, hc.symm⟩))))
    have hhead2 : ∀ q ∈ ps, p.2 ≠ q.1 ∧ p.2 ≠ q.2 := by
      have h2 := (List.nodup_cons.mp (List.nodup_cons.mp hndflat).2).1
      intro q hq
      constructor
      · intro hc
        exact h2 (List.mem_append.mpr (Or.inl (List.mem_map.mpr ⟨q, hq, hc.symm⟩)))
      · intro hc
        exact h2 (List.mem_append.mpr (Or.inr (List.mem_map.mpr ⟨q, hq, hc.symm⟩)))
    have hnd' : ((ps.map fun q => q.1) ++ (ps.map fun q => q.2)).Nodup :=
      (List.nodup_cons.mp (List.nodup_cons.mp hndflat).2).2
    have hxy : GMap.av h p.1 i = p.2 := (hcur p (List.mem_cons_self _ _)).1
    have hndh : h.ndarts = gO.ndarts := by
      unfold GMap.ndarts
      rw [hlen, hdim]
    have hlenh : h.alpha.length = h.ndarts * (h.dimension + 1) := by
      rw [hlen, hndh, hdim]
      exact hlenO
    -- the map after unlinking the head pair
    have havA : ∀ e k, e < gO.ndarts → k ≤ gO.dimension →
        GMap.av ((GMap.setAv h p.1 i p.1).setAv p.2 i p.2) e k =
          if e = p.2 ∧ k = i then p.2
          else if e = p.1 ∧ k = i then p.1
          else GMap.av h e k := by
      intro e k he hk
      have hb1 : (GMap.setAv h p.1 i p.1).alpha.length =
          (GMap.setAv h p.1 i p.1).ndarts *
            ((GMap.setAv h p.1 i p.1).dimension + 1) := by
        rw [setAv_alpha_length, setAv_ndarts, setAv_dimension]
        exact hlenh
      have hb2 : p.2 < (GMap.setAv h p.1 i p.1).ndarts := by
        rw [setAv_ndarts, hndh]
        exact hp2
      have hb3 : i < (GMap.setAv h p.1 i p.1).dimension + 1 := by
        rw [setAv_dimension, hdim]
        omega
      have hb4 : e < (GMap.setAv h p.1 i p.1).ndarts := by
        rw [setAv_ndarts, hndh]
        exact he
      have hb5 : k < (GMap.setAv h p.1 i p.1).dimension + 1 := by
        rw [setAv_dimension, hdim]
        omega
      rw [av_setAv _ _ _ _ _ _ hb1 hb2 hb3 hb4 hb5]
      by_cases hc1 : e = p.2 ∧ k = i
      · rw [if_pos hc1, if_pos hc1]
      · rw [if_neg hc1, if_neg hc1]
        rw [av_setAv _ _ _ _ _ _ hlenh (hndh ▸ hp1) (by rw [hdim]; omega)
          (hndh ▸ he) (by rw [hdim]; omega)]
    have hstep : GMap.unlink h i p.1 =
        .ok ((GMap.setAv h p.1 i p.1).setAv p.2 i p.2, p.2) := by
      rw [unlink_eq, hxy, if_neg hne12]
      rfl
    have hcur2 : ∀ q ∈ ps,
        GMap.av ((GMap.setAv h p.1 i p.1).setAv p.2 i p.2) q.1 i = q.2 ∧
        GMap.av ((GMap.setAv h p.1 i p.1).setAv p.2 i p.2) q.2 i = q.1 := by
      intro q hq
      have hq1 := (hr q (List.mem_cons_of_mem _ hq)).1
      have hq2 := (hr q (List.mem_cons_of_mem _ hq)).2
      constructor
      · rw [havA q.1 i hq1 hi,
          if_neg (fun hc => (hhead2 q hq).1 hc.1.symm),
          if_neg (fun hc => (hhead1 q hq).1 hc.1.symm)]
        exact (hcur q (List.mem_cons_of_mem _ hq)).1
      · rw [havA q.2 i hq2 hi,
          if_neg (fun hc => (hhead2 q hq).2 hc.1.symm),
          if_neg (fun hc => (hhead1 q hq).2 hc.1.symm)]
        exact (hcur q (List.mem_cons_of_mem _ hq)).2
    have hrest2 : ∀ e k, e < gO.ndarts → k ≤ gO.dimension →
        ((∀ q ∈ ps, e ≠ q.1 ∧ e ≠ q.2) ∨ k ≠ i) →
        GMap.av ((GMap.setAv h p.1 i p.1).setAv p.2 i p.2) e k =
          GMap.av gO e k := by
      intro e k he hk hcond
      by_cases hki : k = i
      · rcases hcond with hall | hki2
        · by_cases he1 : e = p.1
          · rw [havA e k he hk,
              if_neg (fun hc => hne12 (he1.symm.trans hc.1)),
              if_pos ⟨he1, hki⟩, he1, hki]
            exact (hfree p (List.mem_cons_self _ _)).1.symm
          · by_cases he2 : e = p.2
            · rw [havA e k he hk, if_pos ⟨he2, hki⟩, he2, hki]
              exact (hfree p (List.mem_cons_self _ _)).2.symm
            · rw [havA e k he hk, if_neg (fun hc => he2 hc.1),
                if_neg (fun hc => he1 hc.1)]
              refine hrest e k he hk (Or.inl ?_)
              intro q hq
              rcases List.mem_cons.mp hq with rfl | hq'
              · exact ⟨he1, he2⟩
              · exact hall q hq'
        · exact absurd hki hki2
      · rw [havA e k he hk, if_neg (fun hc => hki hc.2),
          if_neg (fun hc => hki hc.2)]
        exact hrest e k he hk (Or.inr hki)
    obtain ⟨g2, hfold, hc1, hc2, hc3, hc4⟩ := ih
      ((GMap.setAv h p.1 i p.1).setAv p.2 i p.2) gO
      (by rw [setAv_dimension, setAv_dimension]; exact hdim)
      (by rw [setAv_deleted, setAv_deleted]; exact hdel)
      (by rw [setAv_alpha_length, setAv_alpha_length]; exact hlen)
      hlenO hi hnd'
      (fun q hq => hr q (List.mem_cons_of_mem _ hq))
      hcur2 (fun q hq => hfree q (List.mem_cons_of_mem _ hq)) hrest2
    refine ⟨g2, ?_, hc1, hc2, hc3, hc4⟩
    rw [List.map_cons, List.foldlM_cons]
    have hstep2 : ((Prod.fst <$> GMap.unlink h i p.1).mapError
        fun _ => GErr.rustPanic) =
        .ok ((GMap.setAv h p.1 i p.1).setAv p.2 i p.2) := by
      rw [hstep]
      rfl
    rw [hstep2]
    exact hfold

/-- Join-point-free unfolding of `unsew`. -/
theorem unsew_eq (g : GMap) (d i : Nat) :
    GMap.unsew g d i =
      if (((GMap.orbitL g d (GMap.sewMask i)).map
            fun x => (x, GMap.av g x i)).any
          fun p => GMap.keyMem p.2 ((GMap.orbitL g d (GMap.sewMask i)).map
            fun x => (x, GMap.av g x i))) = true
      then throw GErr.ununsewable
      else ((GMap.orbitL g d (GMap.sewMask i)).foldlM
          (fun g2 d0 => (Prod.fst <$> GMap.unlink g2 i d0).mapError
            fun _ => GErr.rustPanic) g) >>=
        fun gf => pure (gf, (GMap.orbitL g d (GMap.sewMask i)).map
          fun x => (x, GMap.av g x i)) := rfl

/-- Two maps of equal dimension and table length whose `av` agree on all
in-range positions have identical alpha tables. -/
theorem alpha_ext {g2 gO : GMap} (hdim : g2.dimension = gO.dimension)
    (hlen : g2.alpha.length = gO.alpha.length)
    (hlenO : gO.alpha.length = gO.ndarts * (gO.dimension + 1))
    (hav : ∀ e k, e < gO.ndarts → k ≤ gO.dimension →
      GMap.av g2 e k = GMap.av gO e k) :
    g2.alpha = gO.alpha := by
  apply List.ext_getElem hlen
  intro n h1 h2
  have hpos : 0 < gO.dimension + 1 := by omega
  have he : n / (gO.dimension + 1) < gO.ndarts := by
    rw [hlenO] at h2
    exact Nat.div_lt_of_lt_mul (by rw [Nat.mul_comm] at h2; exact h2)
  have hk : n % (gO.dimension + 1) ≤ gO.dimension := by
    have := Nat.mod_lt n hpos
    omega
  have hh := hav (n / (gO.dimension + 1)) (n % (gO.dimension + 1)) he hk
  unfold GMap.av at hh
  rw [hdim, Nat.div_add_mod'] at hh
  rw [List.getD_eq_getElem?_getD, List.getD_eq_getElem?_getD,
    List.getElem?_eq_getElem h1, List.getElem?_eq_getElem h2] at hh
  simpa using hh

/-- C8, amended: on a valid map with `i` in range and two DISTINCT darts,
a successful `sew(i, d0, d1)` followed by `unsew(d0, i)` succeeds, returns
the same pairing, and restores the alpha table exactly. -/
theorem c8_amended (g : GMap) (i d0 d1 : Nat) (g1 : GMap) (m01 : List (Nat × Nat))
    (hval : GMap.checkValid g = .ok ()) (hdim31 : g.dimension ≤ MAX_DIMENSION)
    (hi : i ≤ g.dimension) (hd0 : d0 < g.ndarts) (hd1 : d1 < g.ndarts)
    (hne : d0 ≠ d1) (hsew : GMap.sew g i d0 d1 = .ok (g1, m01)) :
    ∃ g2, GMap.unsew g1 d0 i = .ok (g2, m01) ∧ g2.alpha = g.alpha := by
  have V := valid_of_checkValid hval
  have hlenO := valid_alpha_length V
  -- invert the sew
  unfold GMap.sew at hsew
  obtain ⟨m01', hcol, hsew2⟩ := exceptBind_ok hsew
  obtain ⟨g1', hfold, hpure⟩ := exceptBind_ok hsew2
  have hpe : ((g1', m01') : GMap × List (Nat × Nat)) = (g1, m01) :=
    Except.ok.inj hpure
  injection hpe with hpe1 hpe2
  rw [hpe1, hpe2] at hfold
  rw [hpe2] at hcol
  obtain ⟨ps, hzs, hout, hcf⟩ := sewCollect_inv _ _ _ _ hcol
  rw [List.nil_append] at hout
  subst hout
  -- recover the two orbit enumerations positionally
  obtain ⟨hA, hB⟩ := zipLongest_model ps _ _ _ _ hzs
  obtain ⟨tA, hAshape, hAtail⟩ := orbitIndices_shape g d0 (GMap.sewMask i)
  obtain ⟨tB, hBshape, hBtail⟩ := orbitIndices_shape g d1 (GMap.sewMask i)
  cases ps with
  | nil =>
    rw [hAshape] at hA
    cases hA
  | cons p0 ps' =>
  rw [hAshape, List.map_cons] at hA
  rw [hBshape, List.map_cons] at hB
  have hA0 : (p0.1, p0.2.1) = ((none : Option Nat), d0) := (List.cons.inj hA).1.symm
  have hB0 : (p0.1, p0.2.2) = ((none : Option Nat), d1) := (List.cons.inj hB).1.symm
  have hAta : ps'.map (fun p => (p.1, p.2.1)) = tA := (List.cons.inj hA).2.symm
  have hBta : ps'.map (fun p => (p.1, p.2.2)) = tB := (List.cons.inj hB).2.symm
  injection hA0 with hp0j hp01
  injection hB0 with _ hp02
  -- ranges of all collected darts
  have hxorb : GMap.orbitL g d0 (GMap.sewMask i) =
      (p0 :: ps').map (fun p => p.2.1) := by
    unfold GMap.orbitL
    rw [hAshape, ← hAta, List.map_cons, List.map_cons, List.map_map, hp01]
    rfl
  have hyorb : GMap.orbitL g d1 (GMap.sewMask i) =
      (p0 :: ps').map (fun p => p.2.2) := by
    unfold GMap.orbitL
    rw [hBshape, ← hBta, List.map_cons, List.map_cons, List.map_map, hp02]
    rfl
  have hxrange : ∀ q ∈ p0 :: ps', q.2.1 < g.ndarts := by
    intro q hq
    have hmem : q.2.1 ∈ GMap.orbitL g d0 (GMap.sewMask i) := by
      rw [hxorb]
      exact List.mem_map.mpr ⟨q, hq, rfl⟩
    exact reach_lt V hd0 ((orbitL_iff V (GMap.sewMask i) hd0 _).mp hmem)
  have hyrange : ∀ q ∈ p0 :: ps', q.2.2 < g.ndarts := by
    intro q hq
    have hmem : q.2.2 ∈ GMap.orbitL g d1 (GMap.sewMask i) := by
      rw [hyorb]
      exact List.mem_map.mpr ⟨q, hq, rfl⟩
    exact reach_lt V hd1 ((orbitL_iff V (GMap.sewMask i) hd1 _).mp hmem)
  -- no pair is a self-pair
  obtain ⟨b1, b2, b3, b4, b5, b6, b7, hcf'⟩ := hcf
  have hjs' : ∀ q ∈ ps', ∃ jv, q.1 = some jv ∧ jv ≤ g.dimension := by
    intro q hq
    have hmem : (q.1, q.2.1) ∈ tA := by
      rw [← hAta]
      exact List.mem_map.mpr ⟨q, hq, rfl⟩
    exact hAtail _ hmem
  have hns' := collectFacts_noself V ps' [(p0.2.1, p0.2.2)] (p0.2.2 :: []) hcf'
    (by intro q hq
        rcases List.mem_cons.mp hq with rfl | hq2
        · rw [hp01, hp02]
          exact hne
        · cases hq2)
    (by intro q hq
        rcases List.mem_cons.mp hq with rfl | hq2
        · rw [hp02]
          exact hd1
        · cases hq2)
    hjs' (fun q hq => hyrange q (List.mem_cons_of_mem _ hq))
  have hnsAll : ∀ q ∈ p0 :: ps', q.2.1 ≠ q.2.2 := by
    intro q hq
    rcases List.mem_cons.mp hq with rfl | hq'
    · rw [hp01, hp02]
      exact hne
    · exact hns' q hq'
  have hndAll := collectFacts_nodup (p0 :: ps') [] [] ⟨b1, b2, b3, b4, b5, b6, b7, hcf'⟩ hnsAll
  have hfreeg : ∀ q ∈ p0 :: ps',
      GMap.av g q.2.1 i = q.2.1 ∧ GMap.av g q.2.2 i = q.2.2 := by
    intro q hq
    obtain ⟨_, _, _, _, hfa, hfb⟩ :=
      collectFacts_mem (p0 :: ps') [] [] ⟨b1, b2, b3, b4, b5, b6, b7, hcf'⟩ q hq
    exact ⟨is_free_eq hfa, is_free_eq hfb⟩
  -- characterize the sewn map
  have hndpairs : (((p0 :: ps').map fun p => (p.2.1, p.2.2)).map (fun p => p.1) ++
      ((p0 :: ps').map fun p => (p.2.1, p.2.2)).map (fun p => p.2)).Nodup := by
    rw [List.map_map, List.map_map]
    exact hndAll
  have hrangeps : ∀ p ∈ (p0 :: ps').map (fun p => (p.2.1, p.2.2)),
      p.1 < g.ndarts ∧ p.2 < g.ndarts := by
    intro p hp
    obtain ⟨q, hq, rfl⟩ := List.mem_map.mp hp
    exact ⟨hxrange q hq, hyrange q hq⟩
  obtain ⟨c1, c2, c3, c4, c5⟩ := linkFold_spec _ g g1 hfold hndpairs hrangeps hlenO hi
  -- the sewn map agrees with `g` on all masked entries
  have hndg1 : g1.ndarts = g.ndarts := by
    unfold GMap.ndarts
    rw [c3, c1]
  have hleng1 : g1.alpha.length = g1.ndarts * (g1.dimension + 1) := by
    rw [c3, hndg1, c1]
    exact hlenO
  have hi32 : i < 32 := by
    unfold MAX_DIMENSION at hdim31
    omega
  have hav : ∀ e k, k ≤ g.dimension → Alphas.has (GMap.sewMask i) k = true →
      GMap.av g1 e k = GMap.av g e k := by
    intro e k hk hhas
    have hki : k ≠ i := fun hc => sewMask_not_i hi32 hc hhas
    by_cases he : e < g.ndarts
    · exact c5 e k he hk (Or.inr hki)
    · rw [av_out_of_range hlenO (by omega) k,
        av_out_of_range hleng1 (by rw [hndg1]; omega) k]
  have horbind := orbitIndices_congr c1 hndg1 hav d0
  have horb1 : GMap.orbitL g1 d0 (GMap.sewMask i) =
      (p0 :: ps').map (fun p => p.2.1) := by
    unfold GMap.orbitL
    rw [horbind]
    unfold GMap.orbitL at hxorb
    exact hxorb
  -- run the unsew
  obtain ⟨g2, hfoldok, hg2dim, hg2del, hg2len, hg2av⟩ :=
    unlinkFold_restore ((p0 :: ps').map fun p => (p.2.1, p.2.2)) g1 g
      c1 c2 c3 hlenO hi hndpairs hrangeps c4
      (by intro q hq
          obtain ⟨r, hr, rfl⟩ := List.mem_map.mp hq
          exact hfreeg r hr)
      c5
  have hlmm : ((p0 :: ps').map fun p => (p.2.1, p.2.2)).map (fun p => p.1) =
      (p0 :: ps').map (fun p => p.2.1) := by
    rw [List.map_map]
    rfl
  rw [hlmm] at hfoldok
  rw [unsew_eq, horb1]
  have htoU : ((p0 :: ps').map (fun p => p.2.1)).map
      (fun x => (x, GMap.av g1 x i)) =
      (p0 :: ps').map (fun p => (p.2.1, p.2.2)) := by
    rw [List.map_map]
    apply List.map_congr_left
    intro q hq
    have hc4 := (c4 (q.2.1, q.2.2) (List.mem_map.mpr ⟨q, hq, rfl⟩)).1
    simp only [Function.comp]
    rw [hc4]
  rw [htoU]
  have hchk : (((p0 :: ps').map fun p => (p.2.1, p.2.2)).any
      fun p => GMap.keyMem p.2 ((p0 :: ps').map fun p => (p.2.1, p.2.2))) =
      false := by
    rw [List.any_eq_false]
    intro p hp
    obtain ⟨q, hq, rfl⟩ := List.mem_map.mp hp
    intro hcontra
    unfold GMap.keyMem at hcontra
    rw [List.any_eq_true] at hcontra
    obtain ⟨r, hr, hrbeq⟩ := hcontra
    obtain ⟨q2, hq2, rfl⟩ := List.mem_map.mp hr
    have hceq : q2.2.1 = q.2.2 := by simpa using hrbeq
    have hdisj := (List.nodup_append.mp hndAll).2.2
    refine hdisj (List.mem_map.mpr ⟨q2, hq2, rfl⟩) ?_
    rw [hceq]
    exact List.mem_map.mpr ⟨q, hq, rfl⟩
  rw [if_neg (by rw [hchk]; exact Bool.false_ne_true)]
  rw [hfoldok]
  refine ⟨g2, rfl, ?_⟩
  exact alpha_ext hg2dim hg2len hlenO hg2av

/-- C8, amended, witness: sewing the two triangle faces of the test
crease pattern at darts 2 and 10 and immediately unsewing restores the
alpha table. -/
theorem c8_amended_witness :
    ∃ g2, GMap.unsew
        ⟨2, [1, 5, 7, 0, 2, 6, 3, 1, 10, 2, 4, 11, 5, 3, 4, 4, 0, 5, 7, 11, 1,
          6, 8, 0, 9, 7, 8, 8, 10, 9, 11, 9, 2, 10, 6, 3],
         [false, false, false, false, false, false, false, false, false, false,
          false, false]⟩ 2 2 = .ok (g2, [(2, 10), (3, 11)]) ∧
      g2.alpha = Fixtures.diagGMap.alpha :=
  c8_amended Fixtures.diagGMap 2 2 10
    ⟨2, [1, 5, 7, 0, 2, 6, 3, 1, 10, 2, 4, 11, 5, 3, 4, 4, 0, 5, 7, 11, 1,
      6, 8, 0, 9, 7, 8, 8, 10, 9, 11, 9, 2, 10, 6, 3],
     [false, false, false, false, false, false, false, false, false, false,
      false, false]⟩ [(2, 10), (3, 11)]
    (by decide) (by decide) (by decide) (by decide) (by decide) (by decide)
    (by decide)

/-- C9, witness: the two-triangle crease pattern from the repository's
tests passes `check_valid`, and the orbit-representative conclusions hold
for its vertex mask. -/
theorem c9_confirmed_witness :
    (GMap.oneDartPerOrbit Fixtures.diagGMap (Alphas.cell 0)).Nodup ∧
    (∀ r ∈ GMap.oneDartPerOrbit Fixtures.diagGMap (Alphas.cell 0),
      r ∈ GMap.dartsList Fixtures.diagGMap ∧
      ∀ e, reach Fixtures.diagGMap (Alphas.cell 0) r e → r ≤ e) ∧
    (∀ x ∈ GMap.dartsList Fixtures.diagGMap,
      ∃! r, r ∈ GMap.oneDartPerOrbit Fixtures.diagGMap (Alphas.cell 0) ∧
        reach Fixtures.diagGMap (Alphas.cell 0) r x) :=
  c9_confirmed Fixtures.diagGMap (Alphas.cell 0) (by decide)

end Spec2Proof
